import Mathlib

/-!
A shallow embedding of `cubico.js` (v09-software/cubico), an in-memory OLAP
cube with slicing and group-by aggregation.

Modelling conventions:
* JS values stored in records are `JSVal := Option Value`, with `none`
  standing for JS `null`/`undefined` and `Value` covering numbers
  (as rationals) and strings.  JS `NaN` and non-integer decimal printing
  are outside the modelled domain; every concrete input used below sticks
  to integers and plain strings, where the model is exact.
* JS arrays holding records are mutable and shared by reference
  (`slice` pushes the very same array objects into the result cube).  We
  model this with an explicit heap `Heap := List Rec`: a record "array" is
  a heap cell addressed by its index, and cubes store cell ids.
* JS exceptions: an operation that throws is modelled by returning the
  state as it was at the moment of the throw together with `some msg`
  (mutations that happened before the throw are kept), or by `Except`
  where no mutation can precede the throw.
-/

inductive Value where
  | num (q : ℚ)
  | str (s : String)
deriving DecidableEq, Repr

/-- A JS value slot: `none` models `null` (and `undefined`). -/
abbrev JSVal := Option Value

/-- A record array's contents. -/
abbrev Rec := List JSVal

/-- The mutable heap of record arrays; a record reference is an index. -/
abbrev Heap := List Rec

/-- JS `value.toString()`.  Integers print exactly as in JS; for
non-integer rationals Lean's `Rat` printing differs from JS double
printing, but no concrete input below uses non-integer numbers. -/
def Value.toStr : Value → String
  | .num q => if q.den = 1 then toString q.num else toString q
  | .str s => s

/-- JS property-key coercion of a value used as an object key:
`null` (and `undefined`) coerce to the string key `"null"`. -/
def jsKeyOf : JSVal → String
  | none => "null"
  | some v => v.toStr

/-- A crude model of JS `Number(string)`: empty string is `0`, an optional
sign followed by digits parses as an integer, everything else is `NaN`
(`none`).  Decimal points, exponents and whitespace are not modelled;
no concrete input below exercises them. -/
def strToNumQ (s : String) : Option ℚ :=
  if s = "" then some 0
  else
    let core := if s.startsWith "-" then s.drop 1 else s
    if core ≠ "" ∧ core.all (·.isDigit) then
      let n : ℚ := (core.foldl (fun acc ch => acc * 10 + (ch.toNat - '0'.toNat)) 0 : ℕ)
      some (if s.startsWith "-" then -n else n)
    else none

/-- JS numeric coercion of a record slot (used by `-` in `covariance` and
the exact `stdDev` pass): `null` coerces to `0`, numbers are themselves,
strings go through `Number(...)` (`NaN`, which is unrepresentable here,
is approximated by `0`; no claim below depends on that corner). -/
def jsToNumber : JSVal → ℚ
  | none => 0
  | some (.num q) => q
  | some (.str s) => (strToNumQ s).getD 0

/-- JS `parseFloat` on a record slot, as used by the aggregation functors.
Approximated by the same integer parser; the claims below never depend on
the value a measure computes from a text value. -/
def jsParseFloat : JSVal → ℚ
  | none => 0
  | some (.num q) => q
  | some (.str s) => (strToNumQ s).getD 0

/-- JS strict equality `===` between two record slots.  On the modelled
domain (no `NaN`, no `-0`) it coincides with structural equality. -/
def jsStrictEq (a b : JSVal) : Bool := a = b

/-- JS loose equality `==` between two record slots: `null == null`,
same-type structural equality, and number-vs-string via numeric coercion
of the string. -/
def jsLooseEq (a b : JSVal) : Bool :=
  match a, b with
  | none, none => true
  | none, some _ => false
  | some _, none => false
  | some (.num q), some (.num r) => q = r
  | some (.str s), some (.str t) => s = t
  | some (.num q), some (.str t) => match strToNumQ t with
    | some r => q = r
    | none => false
  | some (.str s), some (.num r) => match strToNumQ s with
    | some q => q = r
    | none => false

/-- JS `<` on record slots: string-string comparison is lexicographic,
anything else goes through numeric coercion, with `NaN` making the
comparison false. -/
def jsLt (a b : JSVal) : Bool :=
  match a, b with
  | some (.str s), some (.str t) => s < t
  | _, _ =>
      let na := match a with
        | none => some (0 : ℚ)
        | some (.num q) => some q
        | some (.str s) => strToNumQ s
      let nb := match b with
        | none => some (0 : ℚ)
        | some (.num q) => some q
        | some (.str s) => strToNumQ s
      match na, nb with
      | some x, some y => x < y
      | _, _ => false

/-- JS `<=` on record slots (same coercions as `jsLt`). -/
def jsLe (a b : JSVal) : Bool :=
  match a, b with
  | some (.str s), some (.str t) => s ≤ t
  | _, _ =>
      let na := match a with
        | none => some (0 : ℚ)
        | some (.num q) => some q
        | some (.str s) => strToNumQ s
      let nb := match b with
        | none => some (0 : ℚ)
        | some (.num q) => some q
        | some (.str s) => strToNumQ s
      match na, nb with
      | some x, some y => x ≤ y
      | _, _ => false

/-- `Cubico.NUMERIC` -/
def Cubico.NUMERIC : Nat := 1
/-- `Cubico.TEXT` -/
def Cubico.TEXT : Nat := 2

/-- One dimension: name, data type, running statistics and value index.
`valuesMap` is the per-dimension value index: an insertion-ordered map
from the stringified value to the list of heap ids of the records holding
that value (the source stores the array references themselves).
`countUniq` is the source's `countUnique` field, incremented once per
non-null observation (the source comment marks it `S0`).  `min`/`max`
start at JS `±Infinity`, modelled as `none`.  `stdDevCache` is the
source's `stdDev` field: `null` until the exact standard deviation is
memoized (the memoizing write itself is a pure cache of the value the
accessor returns and is not modelled as a state change). -/
structure CubicoDimension where
  name : String
  dataType : Nat
  summation : ℚ := 0
  summationOfSquares : ℚ := 0
  countUniq : Nat := 0
  stdDevCache : Option ℚ := none
  max : Option ℚ := none
  min : Option ℚ := none
  valuesMap : List (String × List Nat) := []
  valuesMapSize : Nat := 0
  index : Nat := 0
deriving DecidableEq, Repr

instance : Inhabited CubicoDimension := ⟨{ name := "", dataType := 0 }⟩

/-- The cube: dimension registry and record store.  `storage` holds heap
ids of record arrays; `dimensionMap` of the source is modelled as a
derived lookup over `dimensions` (the source keeps both in sync and the
map's values alias the list's entries). -/
structure Cubico where
  nbrOfDimensions : Nat := 0
  nbrOfRecords : Nat := 0
  storage : List Nat := []
  dimensions : List CubicoDimension := []
deriving DecidableEq, Repr

instance : Inhabited Cubico := ⟨{}⟩

namespace Cubico

/-- `this.dimensionMap[name]`, derived from the registry list. -/
def dimByName (c : Cubico) (name : String) : Option CubicoDimension :=
  c.dimensions.find? (·.name = name)

/-- `Cubico.prototype.hasDimension` -/
def hasDimension (c : Cubico) (dimension : String) : Bool :=
  (c.dimByName dimension).isSome

/-- `Cubico.prototype.getDimensionIndex` (with `assertDimension`). -/
def getDimensionIndex (c : Cubico) (dimensionName : String) : Except String Nat :=
  match c.dimByName dimensionName with
  | some d => .ok d.index
  | none => .error ("Dimension '" ++ dimensionName ++ "' does not exist")

/-- Push a heap id onto the candidate list of `key` in a value index,
creating the key if absent — the body of the `valuesMap` update in
`accumulateRecordValues`. -/
def vmPush (vm : List (String × List Nat)) (key : String) (id : Nat) :
    List (String × List Nat) :=
  if vm.any (·.1 = key) then
    vm.map (fun p => if p.1 = key then (p.1, p.2 ++ [id]) else p)
  else vm ++ [(key, [id])]

/-- Look a key up in a value index. -/
def vmLookup (d : CubicoDimension) (key : String) : Option (List Nat) :=
  (d.valuesMap.find? (·.1 = key)).map (·.2)

/-- Fold one non-null observed value into a dimension's running state —
the loop body of `accumulateRecordValues` for dimension `i`.  For a
Numeric dimension the numeric statistics are updated; a text value inside
a Numeric dimension would corrupt the JS accumulator to a string, which
is outside the modelled domain, so the numeric updates are applied only
to numeric values. -/
def observeValue (d : CubicoDimension) (v : Value) (id : Nat) : CubicoDimension :=
  let d := { d with
    countUniq := d.countUniq + 1
    valuesMapSize := if d.valuesMap.any (·.1 = v.toStr) then d.valuesMapSize else d.valuesMapSize + 1
    valuesMap := vmPush d.valuesMap v.toStr id }
  match v with
  | .num q =>
      if d.dataType = Cubico.NUMERIC then
        { d with
          summation := d.summation + q
          summationOfSquares := d.summationOfSquares + q ^ 2
          max := some (match d.max with | none => q | some m => Max.max m q)
          min := some (match d.min with | none => q | some m => Min.min m q) }
      else d
  | .str _ => d

/-- One iteration of the `accumulateRecordValues` loop: if the record
slot at `i` is non-null, fold it into dimension `i`. -/
def observeStep (r : Rec) (id : Nat) (dims : List CubicoDimension) (i : Nat) :
    List CubicoDimension :=
  match r.getD i none with
  | none => dims
  | some v => dims.set i (observeValue (dims.getD i default) v id)

/-- `Cubico.prototype.accumulateRecordValues`: fold the record stored in
heap cell `id` into every dimension's running statistics and value
index.  A slot that is `null`/`undefined` (including a read past the end
of the array) contributes nothing. -/
def accumulateRecordValues (h : Heap) (c : Cubico) (id : Nat) : Cubico :=
  { c with
    dimensions :=
      (List.range c.nbrOfDimensions).foldl (observeStep (h.getD id []) id) c.dimensions }

/-- Shared tail of `addRecordFromArray` after validation: push the heap
id, accumulate `this.storage[this.nbrOfRecords]`, bump the counter. -/
def addRecordCore (h : Heap) (c : Cubico) (id : Nat) : Cubico :=
  let c := { c with storage := c.storage ++ [id] }
  let c := accumulateRecordValues h c (c.storage.getD c.nbrOfRecords 0)
  { c with nbrOfRecords := c.nbrOfRecords + 1 }

/-- `Cubico.prototype.addRecordFromArray` with `makeCopy === false` on an
array that is already a heap cell (this is how `slice` shares record
references with its source).  The result pairs the updated cube with
`some errorMessage` when the call throws; the dimensionality check
precedes every mutation, so the thrown case returns the cube unchanged. -/
def addRecordFromArrayRef (h : Heap) (c : Cubico) (id : Nat) :
    Cubico × Option String :=
  let r := h.getD id []
  if r.length ≠ c.nbrOfDimensions then
    (c, some ("Record has " ++
      (if r.length > c.nbrOfDimensions then "higher" else "lower") ++
      " dimensionality than expected"))
  else
    (addRecordCore h c id, none)

/-- `Cubico.prototype.addRecordFromArray` on a fresh array value (the
default copying mode, and the mode used for arrays built inside
`addRecordFromObject`/`aggregate`): a new heap cell is allocated.  The
dimensionality check precedes every mutation, so the thrown case returns
heap and cube unchanged. -/
def addRecordFromArray (h : Heap) (c : Cubico) (record : Rec) :
    Heap × Cubico × Option String :=
  if record.length ≠ c.nbrOfDimensions then
    (h, c, some ("Record has " ++
      (if record.length > c.nbrOfDimensions then "higher" else "lower") ++
      " dimensionality than expected"))
  else
    let h' := h ++ [record]
    (h', addRecordCore h' c h.length, none)

/-- `Cubico.prototype.addDimension`.  The duplicate-name check comes
first, then the `CubicoDimension` constructor validates the data type;
both throw before any mutation.  On success the new dimension is appended
with `index = nbrOfDimensions` and every existing record array (the first
`nbrOfRecords` entries of `storage`, each per occurrence) is extended in
place with a `null`. -/
def addDimension (h : Heap) (c : Cubico) (name : String) (dataType : Nat) :
    Heap × Cubico × Option String :=
  if c.dimensions.any (·.name = name) then
    (h, c, some "Dimension names must be unique")
  else if dataType ≠ Cubico.NUMERIC ∧ dataType ≠ Cubico.TEXT then
    (h, c, some "DataType is not valid")
  else
    ((c.storage.take c.nbrOfRecords).foldl
        (fun hh id => hh.set id ((hh.getD id []) ++ [none])) h,
     { c with
        dimensions := c.dimensions ++ [{ name := name, dataType := dataType, index := c.nbrOfDimensions }]
        nbrOfDimensions := c.nbrOfDimensions + 1 },
     none)

/-- `Cubico.prototype.cloneWithoutStorage`: a fresh cube with the same
dimension schema, built by replaying `addDimension` (no records exist in
the clone, so the heap is untouched). -/
def cloneWithoutStorage (c : Cubico) : Except String Cubico :=
  c.dimensions.foldlM (fun acc d =>
    match addDimension [] acc d.name d.dataType with
    | (_, c', none) => .ok c'
    | (_, _, some e) => .error e) {}

/-- `Cubico.prototype.assertDimension` -/
def assertDimension (c : Cubico) (dimension : String) : Except String Unit :=
  if c.hasDimension dimension then .ok ()
  else .error ("Dimension '" ++ dimension ++ "' does not exist")

/-- `Cubico.prototype.assertNumericDimension` -/
def assertNumericDimension (c : Cubico) (dimension : String) : Except String Unit :=
  match assertDimension c dimension with
  | .error e => .error e
  | .ok _ =>
      if ((c.dimByName dimension).getD default).dataType ≠ Cubico.NUMERIC then
        .error ("Dimension '" ++ dimension ++ "' is not numeric")
      else .ok ()

/-- `Cubico.prototype.sum` -/
def sum (c : Cubico) (dimension : String) : Except String ℚ :=
  match assertNumericDimension c dimension with
  | .error e => .error e
  | .ok _ => .ok ((c.dimByName dimension).getD default).summation

/-- `Cubico.prototype.sumOfSquares` -/
def sumOfSquares (c : Cubico) (dimension : String) : Except String ℚ :=
  match assertNumericDimension c dimension with
  | .error e => .error e
  | .ok _ => .ok ((c.dimByName dimension).getD default).summationOfSquares

/-- `Cubico.prototype.countUnique`.  The source declares this method
twice; the second declaration shadows the first, so the effective
accessor returns `valuesMapSize` (the number of distinct stringified
non-null values), not the `countUnique` field (the number of non-null
observations). -/
def countUnique (c : Cubico) (dimension : String) : Except String Nat :=
  match assertDimension c dimension with
  | .error e => .error e
  | .ok _ => .ok ((c.dimByName dimension).getD default).valuesMapSize

/-- `Cubico.prototype.average`: reads the `countUnique` FIELD of the
dimension (the non-null observation count), not the shadowed
`countUnique()` accessor. -/
def average (c : Cubico) (dimension : String) : Except String ℚ :=
  match assertNumericDimension c dimension with
  | .error e => .error e
  | .ok _ =>
      let d := (c.dimByName dimension).getD default
      .ok (if d.countUniq > 0 then d.summation / (d.countUniq : ℚ) else 0)

/-- `Cubico.prototype.stdDev`.  `count` is the shadowed `countUnique()`
accessor, i.e. `valuesMapSize`.  JS `Math.sqrt` of a negative argument is
`NaN`, modelled by `Real.sqrt`'s junk value `0`; no concrete input below
has a negative radicand.  The exact branch reads the memo cache if set
and otherwise computes `sqrt(Σ(x−mean)² / count)` over the record store
(the write-back of that same value into the cache is pure memoization and
is not modelled as a state change). -/
noncomputable def stdDev (h : Heap) (c : Cubico) (dimension : String)
    (approximate : Bool) : Except String ℝ :=
  match assertNumericDimension c dimension with
  | .error e => .error e
  | .ok _ =>
    let d := (c.dimByName dimension).getD default
    let count := d.valuesMapSize
    if count = 0 then .ok 0
    else if approximate then
      .ok (Real.sqrt (((count : ℚ) * d.summationOfSquares - d.summation ^ 2 : ℚ) : ℝ) / (count : ℝ))
    else
      match d.stdDevCache with
      | some q => .ok (q : ℝ)
      | none =>
          let avg := if d.countUniq > 0 then d.summation / (d.countUniq : ℚ) else 0
          let dimIdx := d.index
          let s : ℚ := (c.storage.take c.nbrOfRecords).foldl
            (fun acc id => acc + (jsToNumber ((h.getD id []).getD dimIdx none) - avg) ^ 2) 0
          .ok (Real.sqrt ((s / (count : ℚ) : ℚ) : ℝ))

/-- `Cubico.prototype.min` (`Infinity` when no numeric value was seen,
modelled as `none`). -/
def minOfDim (c : Cubico) (dimension : String) : Except String (Option ℚ) :=
  match assertNumericDimension c dimension with
  | .error e => .error e
  | .ok _ => .ok ((c.dimByName dimension).getD default).min

/-- `Cubico.prototype.max` -/
def maxOfDim (c : Cubico) (dimension : String) : Except String (Option ℚ) :=
  match assertNumericDimension c dimension with
  | .error e => .error e
  | .ok _ => .ok ((c.dimByName dimension).getD default).max

/-- `Cubico.prototype.covariance`: two passes over the record store; the
JS subtraction `record[i] - avg` coerces `null` to `0`; the divisor is
`Math.max` of the two shadowed `countUnique()` accessors, i.e. of the two
`valuesMapSize` values (JS division by zero would give `NaN`/`Infinity`;
rational division by zero gives `0`; no claim below exercises that
corner). -/
def covariance (h : Heap) (c : Cubico) (dimension1 dimension2 : String) :
    Except String ℚ :=
  match assertNumericDimension c dimension1, assertNumericDimension c dimension2 with
  | .error e, _ => .error e
  | .ok _, .error e => .error e
  | .ok _, .ok _ =>
  let d1 := (c.dimByName dimension1).getD default
  let d2 := (c.dimByName dimension2).getD default
  let avg1 := if d1.countUniq > 0 then d1.summation / (d1.countUniq : ℚ) else 0
  let avg2 := if d2.countUniq > 0 then d2.summation / (d2.countUniq : ℚ) else 0
  let cov : ℚ := (c.storage.take c.nbrOfRecords).foldl
    (fun acc id =>
      acc + (jsToNumber ((h.getD id []).getD d1.index none) - avg1)
          * (jsToNumber ((h.getD id []).getD d2.index none) - avg2)) 0
  .ok (cov / (Max.max d1.valuesMapSize d2.valuesMapSize : ℚ))

/-- `Cubico.equalTo` (the compiled `=` predicate; the stray
`console.log` in the source is a no-op for the result). -/
def equalTo (dimensionIndex : Nat) (value : JSVal) : Rec → Bool :=
  fun record => jsStrictEq (record.getD dimensionIndex none) value

/-- `Cubico.distinctTo` (note: loose inequality `!=`). -/
def distinctTo (dimensionIndex : Nat) (value : JSVal) : Rec → Bool :=
  fun record => !(jsLooseEq (record.getD dimensionIndex none) value)

/-- `Cubico.greaterThan` -/
def greaterThan (dimensionIndex : Nat) (value : JSVal) : Rec → Bool :=
  fun record => jsLt value (record.getD dimensionIndex none)

/-- `Cubico.greaterOrEqualThan` -/
def greaterOrEqualThan (dimensionIndex : Nat) (value : JSVal) : Rec → Bool :=
  fun record => jsLe value (record.getD dimensionIndex none)

/-- `Cubico.lessThan` -/
def lessThan (dimensionIndex : Nat) (value : JSVal) : Rec → Bool :=
  fun record => jsLt (record.getD dimensionIndex none) value

/-- `Cubico.lessOrEqualThan` -/
def lessOrEqualThan (dimensionIndex : Nat) (value : JSVal) : Rec → Bool :=
  fun record => jsLe (record.getD dimensionIndex none) value

/-- `Cubico.prototype.getFilter` (called from `slice` with the dimension
already resolved to its numeric index, so the `instanceof String` branch
is inert). -/
def getFilter (comparator : String) (dimension : Nat) (value : JSVal) :
    Except String (Rec → Bool) :=
  match comparator with
  | "=" => .ok (equalTo dimension value)
  | "!=" => .ok (distinctTo dimension value)
  | "<" => .ok (lessThan dimension value)
  | "<=" => .ok (lessOrEqualThan dimension value)
  | ">" => .ok (greaterThan dimension value)
  | ">=" => .ok (greaterOrEqualThan dimension value)
  | _ => .error "Unknown comparator specified"

/-- A slice criterion: either a `(dimensionName, operator, value)`
3-tuple or an opaque predicate functor.  The source's checks that a
tuple criterion is an array of length exactly 3 are made unrepresentable
by this inductive shape. -/
inductive Criterion where
  | triple (dim : String) (op : String) (v : JSVal)
  | functor (f : Rec → Bool)

/-- Whether a criterion has been compiled into a predicate functor. -/
def Criterion.isFunctor : Criterion → Bool
  | .functor _ => true
  | .triple _ _ _ => false

/-- The six operators accepted by `slice`. -/
def validOperators : List String := ["=", ">", "<", ">=", "<=", "!="]

/-- `n < smallerCount` where `none` is the initial `POSITIVE_INFINITY`. -/
def ltCount (n : Nat) : Option Nat → Bool
  | none => true
  | some m => n < m

/-- The criteria-validation loop of `Cubico.prototype.slice`: each tuple
criterion is validated, its dimension name resolved to the stable index,
and the slot in the caller's array overwritten with the compiled
predicate (the transient write of the numeric index into slot 0 is
immediately superseded by that overwrite); along the way the smallest
equality-criterion candidate list of the value index is tracked.
Returns the final contents of the caller's criteria array together with
the selected `(dimensionIndex, key)`, if any. -/
def processCriteria (c : Cubico) :
    List Criterion → Option Nat → Option (Nat × String) →
    Except String (List Criterion × Option (Nat × String))
  | [], _, smaller => .ok ([], smaller)
  | .functor f :: rest, sc, smaller =>
      match processCriteria c rest sc smaller with
      | .error e => .error e
      | .ok (ps, sel) => .ok (.functor f :: ps, sel)
  | .triple dim op v :: rest, sc, smaller =>
      if c.hasDimension dim = false then
        .error ("Dimension " ++ dim ++ " does not exist")
      else if validOperators.contains op = false then
        .error ("Not a valid operator provided: " ++ op)
      else
        let j := (((c.dimByName dim).getD default)).index
        let sel₀ :=
          if op = "=" then
            match vmLookup (c.dimensions.getD j default) (jsKeyOf v) with
            | some lst => if ltCount lst.length sc then some (lst.length, j, jsKeyOf v) else none
            | none => none
          else none
        let (sc', smaller') := match sel₀ with
          | some (n, j', key) => (some n, some (j', key))
          | none => (sc, smaller)
        match getFilter op j v with
        | .error e => .error e
        | .ok f =>
            match processCriteria c rest sc' smaller' with
            | .error e => .error e
            | .ok (ps, sel) => .ok (.functor f :: ps, sel)

/-- `Cubico.recordMatchesCriteria`.  At call time every entry of the
(mutated) criteria array is a predicate functor; a leftover tuple would
make JS crash on a non-function call and is mapped to `true` as an
unreachable default. -/
def recordMatchesCriteria (record : Rec) (validCriteria : List Criterion) : Bool :=
  validCriteria.all fun crit =>
    match crit with
    | .functor f => f record
    | .triple _ _ _ => true

/-- The record-population loop of `slice`: walk the chosen candidate
list, keep the records matching every compiled predicate, pushing them
by reference (`makeCopy === false`).  An exception from
`addRecordFromArray` propagates. -/
def sliceLoop (h : Heap) (processed : List Criterion) (cub : Cubico)
    (candidates : List Nat) : Except String Cubico :=
  candidates.foldlM (fun cub id =>
    if recordMatchesCriteria (h.getD id []) processed then
      match addRecordFromArrayRef h cub id with
      | (cub', none) => .ok cub'
      | (_, some e) => .error e
    else .ok cub) cub

/-- `Cubico.prototype.slice` on a criteria array.  Returns the new cube
together with the final contents of the caller's criteria array (which
the source has overwritten in place).  The heap is untouched: slicing
only reads records and shares their references. -/
def slice (h : Heap) (c : Cubico) (criteria : List Criterion) :
    Except String (Cubico × List Criterion) :=
  match processCriteria c criteria none none with
  | .error e => .error e
  | .ok (processed, smaller) =>
    match cloneWithoutStorage c with
    | .error e => .error e
    | .ok cub₀ =>
      let candidates := match smaller with
        | some (j, key) => (vmLookup (c.dimensions.getD j default) key).getD []
        | none => c.storage
      match sliceLoop h processed cub₀ candidates with
      | .error e => .error e
      | .ok cub => .ok (cub, processed)

/-- The full-scan reference semantics of `slice` from the specification:
identical criteria compilation and predicate evaluation, but the scan
always walks the entire record store and never consults the value
index. -/
def sliceFullScan (h : Heap) (c : Cubico) (criteria : List Criterion) :
    Except String (Cubico × List Criterion) :=
  match processCriteria c criteria none none with
  | .error e => .error e
  | .ok (processed, _) =>
    match cloneWithoutStorage c with
    | .error e => .error e
    | .ok cub₀ =>
      match sliceLoop h processed cub₀ c.storage with
      | .error e => .error e
      | .ok cub => .ok (cub, processed)

/-- `Cubico.prototype.slice` called with a flat mapping
`{dim₁: v₁, ...}` instead of a criteria array.  In the source the
normalization guard reads `!criteria instanceof Array && typeof criteria
=== "object"`; `!` binds tighter than `instanceof`, so the guard is
`(false) instanceof Array && ...`, which is always `false`: the mapping
is never converted to 3-tuples.  The subsequent `for (i = 0; i <
criteria.length; ...)` loop reads `criteria.length` of a plain object,
which is `undefined`, so the loop never runs: no criterion is compiled,
no index is selected, and the full store is scanned with an empty
predicate list — every record is copied into the result. -/
def sliceWithMapping (h : Heap) (c : Cubico) (_mapping : List (String × JSVal)) :
    Except String Cubico :=
  match cloneWithoutStorage c with
  | .error e => .error e
  | .ok cub₀ => sliceLoop h [] cub₀ c.storage

/-- The `staticVars` bag threaded through an aggregation functor: a JS
object whose fields start out `undefined` (`none`).  `valuesMap` of
`countUniqueOf` is modelled by its insertion-ordered key list. -/
structure AggState where
  runningTotal : Option ℚ := none
  count : Option ℚ := none
  countUniq : Option ℚ := none
  seenKeys : List String := []
deriving DecidableEq, Repr

/-- JS falsiness of a numeric field: `undefined` or `0` (NaN is outside
the modelled domain). -/
def jsFalsyQ : Option ℚ → Bool
  | none => true
  | some q => q = 0

/-- An aggregation functor: `(record, staticVars) → value`, returning the
mutated state alongside the value it stores into the measure slot. -/
abbrev AggFun := Rec → AggState → AggState × ℚ

/-- `Cubico.prototype.sumOf` (already closed over the dimension index). -/
def sumOf (dimIdx : Nat) : AggFun := fun record st =>
  let st := if jsFalsyQ st.runningTotal then { st with runningTotal := some 0 } else st
  let st :=
    if record.getD dimIdx none ≠ none then
      { st with runningTotal := some (st.runningTotal.getD 0 + jsParseFloat (record.getD dimIdx none)) }
    else st
  (st, st.runningTotal.getD 0)

/-- `Cubico.prototype.averageOf`.  Note the reset guard tests
`runningTotal` only, and the returned `runningTotal / count` with
`count = 0` would be JS `NaN`; rational division gives `0` there (no
claim below depends on that corner). -/
def averageOf (dimIdx : Nat) : AggFun := fun record st =>
  let st := if jsFalsyQ st.runningTotal then { st with runningTotal := some 0, count := some 0 } else st
  let st :=
    if record.getD dimIdx none ≠ none then
      { st with
        count := some (st.count.getD 0 + 1)
        runningTotal := some (st.runningTotal.getD 0 + jsParseFloat (record.getD dimIdx none)) }
    else st
  (st, st.runningTotal.getD 0 / st.count.getD 0)

/-- `Cubico.prototype.countOf` for the wildcard `"*"`. -/
def countAllOf : AggFun := fun _ st =>
  let st := if jsFalsyQ st.count then { st with count := some 0 } else st
  let st := { st with count := some (st.count.getD 0 + 1) }
  (st, st.count.getD 0)

/-- `Cubico.prototype.countOf` for a named dimension. -/
def countOf (dimIdx : Nat) : AggFun := fun record st =>
  let st := if jsFalsyQ st.count then { st with count := some 0 } else st
  let st :=
    if record.getD dimIdx none ≠ none then { st with count := some (st.count.getD 0 + 1) }
    else st
  (st, st.count.getD 0)

/-- `Cubico.prototype.countUniqueOf`: counts distinct property keys of
the observed slot values (a `null` slot contributes the key `"null"`). -/
def countUniqueOf (dimIdx : Nat) : AggFun := fun record st =>
  let st := if jsFalsyQ st.countUniq then { st with countUniq := some 0, seenKeys := [] } else st
  let key := jsKeyOf (record.getD dimIdx none)
  let st :=
    if st.seenKeys.contains key then st
    else { st with seenKeys := st.seenKeys ++ [key], countUniq := some (st.countUniq.getD 0 + 1) }
  (st, st.countUniq.getD 0)

/-- `Cubico.prototype.getAggregation`: the fixed dispatch table from
aggregation kind to stateful functor; the named-dimension builders
resolve the dimension index eagerly (and may fail). -/
def getAggregation (c : Cubico) (aggregationName dimensionName : String) :
    Except String AggFun :=
  match aggregationName with
  | "sum" => (c.getDimensionIndex dimensionName).map sumOf
  | "count" =>
      if dimensionName = "*" then .ok countAllOf
      else (c.getDimensionIndex dimensionName).map countOf
  | "countUnique" => (c.getDimensionIndex dimensionName).map countUniqueOf
  | "average" => (c.getDimensionIndex dimensionName).map averageOf
  | _ => .error ("Unknown aggregation type: " ++ aggregationName)

/-- A measure argument of `aggregate`: a `(kind, dimension)` pair, or a
custom functor.  A custom functor in the source is assigned the synthetic
dimension name `"a_" + Math.random()`; the name drawn from that random
call is carried explicitly here. -/
inductive Measure where
  | pair (kind : String) (dim : String)
  | functor (name : String) (f : AggFun)

/-- Whether a measure has been resolved to a functor. -/
def Measure.isFunctor : Measure → Bool
  | .functor _ _ => true
  | .pair _ _ => false

/-- `Cubico.getHashCode`: walk the group-by indexes from last to first,
appending `record[idx].toString() + "_7"`.  A `null`/`undefined` slot
makes JS throw a `TypeError` from `null.toString()`, modelled as
`none`. -/
def getHashCode (record : Rec) (indexes : List Nat) : Option String :=
  (indexes.reverse.mapM (fun j => (record.getD j none).map (fun v => v.toStr ++ "_7"))).map
    String.join

/-- One group under construction: the aggregated record being filled in
and the member references (`children`). -/
structure GroupEntry where
  record : Rec
  children : List Nat
deriving Repr

/-- The per-record body of `aggregate`'s main loop, acting on the
`(storageMap, statics)` assoc lists (JS objects with string keys preserve
insertion order, modelled by append-ordered association lists). -/
def aggregateStep (h : Heap) (dimsIdx : List Nat) (measures : List AggFun)
    (acc : List (String × GroupEntry) × List (String × List AggState)) (id : Nat) :
    Except String (List (String × GroupEntry) × List (String × List AggState)) :=
  let storageMap := acc.1
  let statics := acc.2
  let originalRecord := h.getD id []
  match getHashCode originalRecord dimsIdx with
  | none => .error "TypeError: cannot read toString of null"
  | some uniqueKey =>
    let (storageMap, statics) :=
      if storageMap.any (·.1 = uniqueKey) then (storageMap, statics)
      else
        let newRecord : Rec :=
          dimsIdx.map (fun j => originalRecord.getD j none) ++
            List.replicate measures.length none
        (storageMap ++ [(uniqueKey, ⟨newRecord, []⟩)],
         statics ++ [(uniqueKey, List.replicate measures.length {})])
    let storageMap := storageMap.map fun p =>
      if p.1 = uniqueKey then (p.1, { p.2 with children := p.2.children ++ [id] }) else p
    let staticVars := ((statics.find? (·.1 = uniqueKey)).map (·.2)).getD []
    let entry := ((storageMap.find? (·.1 = uniqueKey)).map (·.2)).getD ⟨[], []⟩
    let start := dimsIdx.length
    let (rec', stat') := (List.range measures.length).foldl
      (fun (pr : Rec × List AggState) mi =>
        let f := measures.getD mi (fun _ st => (st, 0))
        let (st', val) := f originalRecord (pr.2.getD mi {})
        (pr.1.set (start + mi) (some (.num val)), pr.2.set mi st'))
      (entry.record, staticVars)
    let storageMap := storageMap.map fun p =>
      if p.1 = uniqueKey then (p.1, { p.2 with record := rec' }) else p
    let statics := statics.map fun p =>
      if p.1 = uniqueKey then (p.1, stat') else p
    .ok (storageMap, statics)

/-- The group-by resolution step of `aggregate`: resolve one name to its
index and clone the dimension into the result cube. -/
def aggDimStep (c : Cubico) (acc : Cubico × List Nat) (name : String) :
    Except String (Cubico × List Nat) :=
  match c.getDimensionIndex name with
  | .error e => .error e
  | .ok idx =>
      let d := c.dimensions.getD idx default
      match Cubico.addDimension [] acc.1 d.name d.dataType with
      | (_, c', none) => .ok (c', idx :: acc.2)
      | (_, _, some e) => .error e

/-- The measure resolution step of `aggregate`: resolve a
`(kind, dimension)` pair through the dispatch table (a custom functor
keeps its synthetic name) and register the measure's output dimension. -/
def aggMeasureStep (c : Cubico) (acc : Cubico × List Measure) (m : Measure) :
    Except String (Cubico × List Measure) :=
  match m with
  | .functor name f =>
      match Cubico.addDimension [] acc.1 name Cubico.NUMERIC with
      | (_, c', none) => .ok (c', Measure.functor name f :: acc.2)
      | (_, _, some e) => .error e
  | .pair kind dim =>
      match getAggregation c kind dim with
      | .error e => .error e
      | .ok f =>
          match Cubico.addDimension [] acc.1 (kind ++ "_" ++ dim) Cubico.NUMERIC with
          | (_, c', none) => .ok (c', Measure.functor (kind ++ "_" ++ dim) f :: acc.2)
          | (_, _, some e) => .error e

/-- The emission step of `aggregate`: append one freshly allocated
record per group to the result cube. -/
def aggEmitStep (acc : Heap × Cubico) (p : String × GroupEntry) :
    Except String (Heap × Cubico) :=
  match Cubico.addRecordFromArray acc.1 acc.2 p.2.record with
  | (h', c', none) => .ok (h', c')
  | (_, _, some e) => .error e

/-- `Cubico.prototype.aggregate`.  Returns the fresh heap (the emitted
group rows are newly allocated arrays), the result cube, and the final
contents of the caller's two argument arrays, which the source overwrote
in place: every group-by entry replaced by its numeric dimension index
and every `(kind, dimension)` measure pair replaced by its resolved
functor. -/
def aggregate (h : Heap) (c : Cubico) (dimensions : List String)
    (measures : List Measure) :
    Except String (Heap × Cubico × List Nat × List Measure) :=
  match dimensions.foldlM (aggDimStep c) (({} : Cubico), []) with
  | .error e => .error e
  | .ok (cub, dimsIdxRev) =>
    let dimsIdx := dimsIdxRev.reverse
    match measures.foldlM (aggMeasureStep c) (cub, []) with
    | .error e => .error e
    | .ok (cub, measuresRev) =>
      let processedMeasures := measuresRev.reverse
      let measureFuns := processedMeasures.map fun m =>
        match m with
        | .functor _ f => f
        | .pair _ _ => fun _ st => (st, 0)
      match (c.storage.take c.nbrOfRecords).foldlM
          (aggregateStep h dimsIdx measureFuns) ([], []) with
      | .error e => .error e
      | .ok (storageMap, _) =>
        match storageMap.foldlM aggEmitStep (h, cub) with
        | .error e => .error e
        | .ok (h', cub) => .ok (h', cub, dimsIdx, processedMeasures)

end Cubico

/-- A world: the shared heap of record arrays together with every live
cube.  Distinct cubes may reference the same heap cells — exactly the
aliasing `slice` creates by pushing record references. -/
structure World where
  heap : Heap := []
  cubes : List Cubico := []
deriving Repr

/-- A public operation on a world.  `newCube` is `new Cubico()`;
the others address a cube by its position.  `addRecord` is the public
tuple form `addRecord(array)` (the labelled-object form is a thin
adapter that calls `addDimension` and `addRecordFromArray` itself, so
its effects are expressible as sequences of these operations). -/
inductive Op where
  | newCube
  | addDimension (i : Nat) (name : String) (dataType : Nat)
  | addRecord (i : Nat) (record : Rec)
  | slice (i : Nat) (criteria : List Cubico.Criterion)
  | aggregate (i : Nat) (dimensions : List String) (measures : List Cubico.Measure)

/-- Apply one operation.  An operation that throws does so before any
observable mutation (validation precedes mutation, and a cube under
construction that is lost to an exception was never published), so the
failing cases leave the world unchanged. -/
def applyOp (w : World) (op : Op) : World :=
  match op with
  | .newCube => { w with cubes := w.cubes ++ [{}] }
  | .addDimension i name dt =>
      if i < w.cubes.length then
        match Cubico.addDimension w.heap (w.cubes.getD i {}) name dt with
        | (h', c', none) => { heap := h', cubes := w.cubes.set i c' }
        | (_, _, some _) => w
      else w
  | .addRecord i r =>
      if i < w.cubes.length then
        match Cubico.addRecordFromArray w.heap (w.cubes.getD i {}) r with
        | (h', c', none) => { heap := h', cubes := w.cubes.set i c' }
        | (_, _, some _) => w
      else w
  | .slice i criteria =>
      if i < w.cubes.length then
        match Cubico.slice w.heap (w.cubes.getD i {}) criteria with
        | .ok (cub, _) => { w with cubes := w.cubes ++ [cub] }
        | .error _ => w
      else w
  | .aggregate i dims ms =>
      if i < w.cubes.length then
        match Cubico.aggregate w.heap (w.cubes.getD i {}) dims ms with
        | .ok (h', cub, _, _) => { heap := h', cubes := w.cubes ++ [cub] }
        | .error _ => w
      else w

/-- Run a sequence of public operations from the empty world. -/
def applyOps (ops : List Op) : World :=
  ops.foldl applyOp {}

/-- The record-shape invariant of the specification, as an executable
check: every cube's `nbrOfRecords` equals the length of its record
store, and every stored record array has length equal to that cube's
`nbrOfDimensions`. -/
def shapeInvariant (w : World) : Bool :=
  w.cubes.all fun c =>
    c.nbrOfRecords = c.storage.length &&
    c.storage.all fun id => (w.heap.getD id []).length = c.nbrOfDimensions

/-- Whether cube `i`'s record arrays are unshared: no other cube holds a
reference to any of them. -/
def unsharedStorage (w : World) (i : Nat) : Bool :=
  (w.cubes.getD i {}).storage.all fun id =>
    (List.range w.cubes.length).all fun j =>
      j = i || !((w.cubes.getD j {}).storage.contains id)

/-- The step restriction of the amended shape invariant: `addDimension`
is only applied to cubes whose record arrays are not shared with any
other live cube; every other operation is unrestricted. -/
def goodOp (w : World) : Op → Bool
  | .addDimension i _ _ => unsharedStorage w i
  | _ => true

/-- A trace is good when every step satisfies `goodOp` in the state it
is applied to. -/
def goodTrace : World → List Op → Bool
  | _, [] => true
  | w, op :: ops => goodOp w op && goodTrace (applyOp w op) ops

/-- Keep the first occurrence of each element, preserving order — the
enumeration order of distinct group keys. -/
def dedupKeepFirst {α : Type} [DecidableEq α] (l : List α) : List α :=
  l.foldl (fun acc a => if a ∈ acc then acc else acc ++ [a]) []

/-- The group-by value-combination of each source record, in store
order. -/
def combosOf (h : Heap) (c : Cubico) (dimsIdx : List Nat) : List (List JSVal) :=
  (c.storage.take c.nbrOfRecords).map fun id =>
    dimsIdx.map fun j => (h.getD id []).getD j none

/-- The number of distinct group-by value-combinations actually present
in the source records. -/
def distinctCombos (h : Heap) (c : Cubico) (dimsIdx : List Nat) : Nat :=
  (dedupKeepFirst (combosOf h c dimsIdx)).length

/-- The record rows of a cube, resolved through the heap. -/
def rowsOf (h : Heap) (c : Cubico) : List Rec :=
  c.storage.map fun id => h.getD id []

/-- The source records of a cube (the first `nbrOfRecords` entries of the
store), resolved through the heap. -/
def recordsOf (h : Heap) (c : Cubico) : List Rec :=
  (c.storage.take c.nbrOfRecords).map fun id => h.getD id []

/-- The group-key delimiter of `Cubico.getHashCode`. -/
def delimChars : List Char := ['_', '7']

/-- Whether the delimiter `"_7"` occurs inside a string. -/
def hasDelim (s : String) : Bool := decide (delimChars <:+: s.data)

/-- The stringified content of a record slot (`""` is junk for the
`null` case, which callers rule out). -/
def strOfSlot : JSVal → String
  | some v => v.toStr
  | none => ""

/-- The composite-key encoding: each part suffixed with the delimiter,
then concatenated. -/
def encodeParts (parts : List String) : String :=
  String.join (parts.map (· ++ "_7"))

/-- The composite group key of a value-combination, as `getHashCode`
builds it (parts are concatenated from the last group-by dimension to
the first). -/
def hashOfCombo (combo : List JSVal) : String :=
  encodeParts ((combo.map strOfSlot).reverse)

/-- Goodness of the group-by columns for collision-free hashing:
every group-by slot of every source record is non-null and its string
form does not contain the delimiter `"_7"`, and stringification is
injective across the values occurring in those slots. -/
def goodGroupValues (h : Heap) (c : Cubico) (di : List Nat) : Bool :=
  ((c.storage.take c.nbrOfRecords).all fun id => di.all fun j =>
    match (h.getD id []).getD j none with
    | none => false
    | some v => !hasDelim v.toStr) &&
  ((c.storage.take c.nbrOfRecords).all fun id => di.all fun j =>
    (c.storage.take c.nbrOfRecords).all fun id2 => di.all fun j2 =>
      match (h.getD id []).getD j none, (h.getD id2 []).getD j2 none with
      | some v, some v2 => v.toStr ≠ v2.toStr || v = v2
      | _, _ => true)

/-- The candidate-list membership test used by the value-index
invariant: record `id` holds a non-null value stringifying to `key` at
dimension position `j`. -/
def matchesKey (h : Heap) (j : Nat) (key : String) (id : Nat) : Bool :=
  match (h.getD id []).getD j none with
  | none => false
  | some v => v.toStr = key

/-- The per-cube coherence invariant that every reachable world
satisfies: counters match list lengths, dimension `index` fields match
registry positions, stored heap ids are valid, pairwise distinct and
point at arrays at least as wide as the cube (with only `null` beyond
the cube's width), and each dimension's value index is sound and
complete for the store. -/
structure CubeInv (h : Heap) (c : Cubico) : Prop where
  dimsLen : c.nbrOfDimensions = c.dimensions.length
  dimIndex : ∀ j, j < c.dimensions.length → (c.dimensions.getD j default).index = j
  recsLen : c.nbrOfRecords = c.storage.length
  nodup : c.storage.Nodup
  idsValid : ∀ id ∈ c.storage, id < h.length
  cellLen : ∀ id ∈ c.storage, c.nbrOfDimensions ≤ (h.getD id []).length
  highNone : ∀ id ∈ c.storage, ∀ p, c.nbrOfDimensions ≤ p → (h.getD id []).getD p none = none
  valuesComplete : ∀ j, j < c.dimensions.length → ∀ id ∈ c.storage, ∀ v,
      (h.getD id []).getD j none = some v →
      ((c.dimensions.getD j default).valuesMap.any (·.1 = v.toStr)) = true
  valuesSound : ∀ j, j < c.dimensions.length → ∀ key ids,
      Cubico.vmLookup (c.dimensions.getD j default) key = some ids →
      ids = c.storage.filter (matchesKey h j key)

/-- Every cube of the world (and the default empty cube) is coherent. -/
def WorldInv (w : World) : Prop :=
  ∀ i : Nat, CubeInv w.heap (w.cubes.getD i {})

/-- The exact record-shape invariant, per cube: the store length matches
the counter and every referenced array has exactly the cube's width. -/
def ShapeInv (w : World) : Prop :=
  ∀ i : Nat,
    (w.cubes.getD i {}).nbrOfRecords = (w.cubes.getD i {}).storage.length ∧
    ∀ id ∈ (w.cubes.getD i {}).storage,
      (w.heap.getD id []).length = (w.cubes.getD i {}).nbrOfDimensions

/-- Concrete world for C1: one TEXT dimension `country`, records
`["AR"]` and `["US"]`. -/
def c1World : World := applyOps [.newCube, .addDimension 0 "country" Cubico.TEXT,
  .addRecord 0 [some (.str "AR")], .addRecord 0 [some (.str "US")]]

/-- Concrete world for the C2 counterexample: one TEXT dimension `d`,
one record holding the string `"null"` and one record holding `null`. -/
def c2World : World := applyOps [.newCube, .addDimension 0 "d" Cubico.TEXT,
  .addRecord 0 [some (.str "null")], .addRecord 0 [none]]

/-- Concrete world for the C3 counterexample and witness: one Numeric
dimension `x` observed twice with the same value `2`. -/
def c3World : World := applyOps [.newCube, .addDimension 0 "x" Cubico.NUMERIC,
  .addRecord 0 [some (.num 2)], .addRecord 0 [some (.num 2)]]

/-- Concrete world for the C4 counterexample: two TEXT group-by columns
whose values contain the delimiter, so two distinct combinations share
one composite key. -/
def c4World : World := applyOps [.newCube, .addDimension 0 "x" Cubico.TEXT,
  .addDimension 0 "y" Cubico.TEXT,
  .addRecord 0 [some (.str "7_7a"), some (.str "b")],
  .addRecord 0 [some (.str "a"), some (.str "b_77")]]

/-- Concrete world for the C4 witness (the specification's own
aggregation example). -/
def c4GoodWorld : World := applyOps [.newCube,
  .addDimension 0 "country" Cubico.TEXT, .addDimension 0 "income" Cubico.NUMERIC,
  .addRecord 0 [some (.str "AR"), some (.num 100)],
  .addRecord 0 [some (.str "AR"), some (.num 300)],
  .addRecord 0 [some (.str "US"), some (.num 50)]]

/-- Concrete world for the C5 counterexample: `a` takes values 1,1,2 and
`b` takes 5,5,6, so the distinct-value counts (2) differ from the
non-null counts (3). -/
def c5World : World := applyOps [.newCube, .addDimension 0 "a" Cubico.NUMERIC,
  .addDimension 0 "b" Cubico.NUMERIC,
  .addRecord 0 [some (.num 1), some (.num 5)],
  .addRecord 0 [some (.num 1), some (.num 5)],
  .addRecord 0 [some (.num 2), some (.num 6)]]

/-- Concrete world for the C6 counterexample: `a` observed as 0, 0, 6
(three non-null observations, two distinct values). -/
def c6World : World := applyOps [.newCube, .addDimension 0 "a" Cubico.NUMERIC,
  .addRecord 0 [some (.num 0)], .addRecord 0 [some (.num 0)],
  .addRecord 0 [some (.num 6)]]

/-- Concrete world for the C7 counterexample: a cube with one record is
sliced (sharing the record array by reference), then the source cube
gains a dimension, growing the shared array under the slice. -/
def c7World : World := applyOps [.newCube, .addDimension 0 "a" Cubico.TEXT,
  .addRecord 0 [some (.str "x")], .slice 0 [], .addDimension 0 "b" Cubico.TEXT]

/-- Concrete world for the C7 witness: the same operations as the C7
counterexample except that no dimension is added after the slice. -/
def c7GoodWorld : World := applyOps [.newCube, .addDimension 0 "a" Cubico.TEXT,
  .addRecord 0 [some (.str "x")], .slice 0 []]

/-- Concrete world for the C10 witness: a single-record cube that can be
both sliced and aggregated. -/
def c10World : World := applyOps [.newCube, .addDimension 0 "country" Cubico.TEXT,
  .addRecord 0 [some (.str "AR")]]

/-!  Theorems.  Each claim of the specification audit is settled below;
claim-bearing theorems carry the claim id in their doc comment. -/

/-- C1: REFUTED (bug in the code, the spec states the intent).  Calling
`slice` with a flat mapping `{country: "AR"}` does not filter at all: the
normalization guard `!criteria instanceof Array` parses as
`(!criteria) instanceof Array`, which is always false, so the mapping is
never turned into equality 3-tuples, the criteria loop never runs, and
every record of the source is returned.  Here the source has 2 records,
only 1 of which has `country == "AR"`, yet the result holds 2 records. -/
theorem slice_object_criteria_bug :
    (Cubico.sliceWithMapping c1World.heap (c1World.cubes.getD 0 {})
        [("country", some (.str "AR"))]).toOption.map (fun c => c.nbrOfRecords) = some 2 ∧
    (recordsOf c1World.heap (c1World.cubes.getD 0 {})).countP
        (fun r => r.getD 0 none = some (.str "AR")) = 1 := ⟨rfl, rfl⟩

/-- C2 counterexample: slicing on `[d, "=", null]` differs between the
index-optimized scan and the full scan.  The store holds the string
`"null"` (indexed under the key `"null"`) and an actual `null`; the
JS property-key coercion makes `hasOwnProperty(null)` find the string's
candidate list, so the optimized scan checks only the `"null"`-string
record (no match), while the full scan finds the `null` record. -/
theorem slice_index_null_value_cx :
    (Cubico.slice c2World.heap (c2World.cubes.getD 0 {})
        [.triple "d" "=" none]).toOption.map (fun x => x.1.nbrOfRecords) = some 0 ∧
    (Cubico.sliceFullScan c2World.heap (c2World.cubes.getD 0 {})
        [.triple "d" "=" none]).toOption.map (fun x => x.1.nbrOfRecords) = some 1 := ⟨rfl, rfl⟩

/-- C3 counterexample: with two records of value 2, `average` returns 2
(summation 4 over the two non-null observations), while
`sum / countUnique()` is `4 / 1 = 4`, because the effective
`countUnique` accessor returns the distinct-value count. -/
theorem average_ne_sum_div_countUnique_cx :
    Cubico.average (c3World.cubes.getD 0 {}) "x" = .ok 2 ∧
    Cubico.sum (c3World.cubes.getD 0 {}) "x" = .ok 4 ∧
    Cubico.countUnique (c3World.cubes.getD 0 {}) "x" = .ok 1 ∧
    (2 : ℚ) ≠ 4 / ((1 : ℕ) : ℚ) := by
  refine ⟨?_, ?_, rfl, by norm_num⟩
  · simp [c3World, applyOps, applyOp, Cubico.addDimension, Cubico.addRecordFromArray,
      Cubico.addRecordCore, Cubico.accumulateRecordValues, Cubico.observeStep, Cubico.observeValue,
      Cubico.vmPush, Cubico.dimByName, Cubico.hasDimension, Value.toStr,
      Cubico.average, Cubico.assertNumericDimension, Cubico.assertDimension,
      List.range, List.range.loop, Cubico.NUMERIC, Cubico.TEXT]
  · simp [c3World, applyOps, applyOp, Cubico.addDimension, Cubico.addRecordFromArray,
      Cubico.addRecordCore, Cubico.accumulateRecordValues, Cubico.observeStep, Cubico.observeValue,
      Cubico.vmPush, Cubico.dimByName, Cubico.hasDimension, Value.toStr,
      Cubico.sum, Cubico.assertNumericDimension, Cubico.assertDimension,
      List.range, List.range.loop, Cubico.NUMERIC, Cubico.TEXT]
    norm_num

/-- C3 (amended): for every cube and Numeric dimension, `average` equals
the running summation divided by the dimension's non-null observation
count (its `countUnique` field) when that count is positive, and 0
otherwise; `sum` returns the running summation.  (The original claim's
`sum / countUnique()` fails because the effective `countUnique` accessor
returns the distinct-value count, see the counterexample.) -/
theorem average_eq_sum_div_nonnull (c : Cubico) (dim : String)
    (hex : c.hasDimension dim = true)
    (hnum : ((c.dimByName dim).getD default).dataType = Cubico.NUMERIC) :
    Cubico.sum c dim = .ok ((c.dimByName dim).getD default).summation ∧
    (0 < ((c.dimByName dim).getD default).countUniq →
      Cubico.average c dim = .ok (((c.dimByName dim).getD default).summation /
        (((c.dimByName dim).getD default).countUniq : ℚ))) ∧
    (((c.dimByName dim).getD default).countUniq = 0 →
      Cubico.average c dim = .ok 0) := by
  have hassert : Cubico.assertNumericDimension c dim = .ok () := by
    simp [Cubico.assertNumericDimension, Cubico.assertDimension, hex, hnum]
  refine ⟨?_, fun hpos => ?_, fun hzero => ?_⟩
  · simp [Cubico.sum, hassert]
  · simp [Cubico.average, hassert, hpos]
  · simp [Cubico.average, hassert, hzero]

/-- Witness for the amended C3 theorem at a concrete cube. -/
theorem average_eq_sum_div_nonnull_witness :
    (c3World.cubes.getD 0 {}).hasDimension "x" = true ∧
    (((c3World.cubes.getD 0 {}).dimByName "x").getD default).dataType = Cubico.NUMERIC ∧
    0 < (((c3World.cubes.getD 0 {}).dimByName "x").getD default).countUniq ∧
    Cubico.average (c3World.cubes.getD 0 {}) "x" =
      .ok ((((c3World.cubes.getD 0 {}).dimByName "x").getD default).summation /
        ((((c3World.cubes.getD 0 {}).dimByName "x").getD default).countUniq : ℚ)) :=
  ⟨rfl, rfl, by decide,
    (average_eq_sum_div_nonnull (c3World.cubes.getD 0 {}) "x" rfl rfl).2.1 (by decide)⟩

/-- C5 counterexample: for records (1,5), (1,5), (2,6) the code divides
the centered-product sum 2/3 by `max` of the distinct-value counts
(2), giving 1/3, while the claim's `max` of non-null counts is 3,
giving 2/9. -/
theorem covariance_divisor_cx :
    Cubico.covariance c5World.heap (c5World.cubes.getD 0 {}) "a" "b" = .ok (1/3) ∧
    (1/3 : ℚ) ≠ (2/3) / ((3:ℕ) : ℚ) := by
  refine ⟨?_, by norm_num⟩
  simp +decide [c5World, applyOps, applyOp, Cubico.addDimension, Cubico.addRecordFromArray,
    Cubico.addRecordCore, Cubico.accumulateRecordValues, Cubico.observeStep, Cubico.observeValue,
    Cubico.vmPush, Cubico.dimByName, Cubico.hasDimension, Value.toStr,
    Cubico.covariance, Cubico.assertNumericDimension, Cubico.assertDimension,
    List.range, List.range.loop, Cubico.NUMERIC, Cubico.TEXT, jsToNumber]
  all_goals norm_num

/-- C5 (amended): `covariance(dimA, dimB)` is the sum over all stored
records of `(x − mean(dimA)) · (y − mean(dimB))` (with `null` coerced to
0 by the JS subtraction) divided by `max` of the two dimensions'
DISTINCT-value counts (`valuesMapSize`, what the effective
`countUnique()` accessor returns) — not of their non-null counts. -/
theorem covariance_formula_distinct_counts (h : Heap) (c : Cubico) (dim1 dim2 : String)
    (hex1 : c.hasDimension dim1 = true) (hex2 : c.hasDimension dim2 = true)
    (hn1 : ((c.dimByName dim1).getD default).dataType = Cubico.NUMERIC)
    (hn2 : ((c.dimByName dim2).getD default).dataType = Cubico.NUMERIC) :
    ∃ avg1 avg2 : ℚ, Cubico.average c dim1 = .ok avg1 ∧ Cubico.average c dim2 = .ok avg2 ∧
      Cubico.covariance h c dim1 dim2 = .ok
        ((((recordsOf h c).map fun r =>
            (jsToNumber (r.getD ((c.dimByName dim1).getD default).index none) - avg1) *
            (jsToNumber (r.getD ((c.dimByName dim2).getD default).index none) - avg2)).sum) /
          (Max.max ((c.dimByName dim1).getD default).valuesMapSize
            ((c.dimByName dim2).getD default).valuesMapSize : ℚ)) := by
  have ha1 : Cubico.assertNumericDimension c dim1 = .ok () := by
    simp [Cubico.assertNumericDimension, Cubico.assertDimension, hex1, hn1]
  have ha2 : Cubico.assertNumericDimension c dim2 = .ok () := by
    simp [Cubico.assertNumericDimension, Cubico.assertDimension, hex2, hn2]
  refine ⟨if ((c.dimByName dim1).getD default).countUniq > 0 then
      ((c.dimByName dim1).getD default).summation / (((c.dimByName dim1).getD default).countUniq : ℚ)
    else 0,
    if ((c.dimByName dim2).getD default).countUniq > 0 then
      ((c.dimByName dim2).getD default).summation / (((c.dimByName dim2).getD default).countUniq : ℚ)
    else 0, ?_, ?_, ?_⟩
  · simp [Cubico.average, ha1]
  · simp [Cubico.average, ha2]
  · simp only [Cubico.covariance, ha1, ha2]
    congr 1
    rw [recordsOf, List.map_map]
    rw [← List.foldl_map, List.sum_eq_foldl]
    rfl

/-- Witness for the amended C5 theorem at a concrete cube. -/
theorem covariance_formula_distinct_counts_witness :
    (c5World.cubes.getD 0 {}).hasDimension "a" = true ∧
    (c5World.cubes.getD 0 {}).hasDimension "b" = true ∧
    (((c5World.cubes.getD 0 {}).dimByName "a").getD default).dataType = Cubico.NUMERIC ∧
    (((c5World.cubes.getD 0 {}).dimByName "b").getD default).dataType = Cubico.NUMERIC ∧
    (∃ avg1 avg2 : ℚ,
      Cubico.average (c5World.cubes.getD 0 {}) "a" = .ok avg1 ∧
      Cubico.average (c5World.cubes.getD 0 {}) "b" = .ok avg2 ∧
      Cubico.covariance c5World.heap (c5World.cubes.getD 0 {}) "a" "b" = .ok
        ((((recordsOf c5World.heap (c5World.cubes.getD 0 {})).map fun r =>
            (jsToNumber (r.getD (((c5World.cubes.getD 0 {}).dimByName "a").getD default).index none) - avg1) *
            (jsToNumber (r.getD (((c5World.cubes.getD 0 {}).dimByName "b").getD default).index none) - avg2)).sum) /
          (Max.max (((c5World.cubes.getD 0 {}).dimByName "a").getD default).valuesMapSize
            (((c5World.cubes.getD 0 {}).dimByName "b").getD default).valuesMapSize : ℚ))) :=
  ⟨rfl, rfl, rfl, rfl,
    covariance_formula_distinct_counts c5World.heap (c5World.cubes.getD 0 {}) "a" "b" rfl rfl rfl rfl⟩

/-- C6 counterexample: for observations 0, 0, 6 the approximate standard
deviation is `sqrt(2·36 − 36)/2 = 3`, using the DISTINCT-value count 2,
whereas the claim's formula with the non-null observation count `n = 3`
gives `sqrt(3·36 − 6²)/3 = sqrt(72)/3 ≠ 3`. -/
theorem stdDev_approx_nonnull_count_cx :
    Cubico.stdDev c6World.heap (c6World.cubes.getD 0 {}) "a" true = .ok 3 ∧
    (3:ℝ) ≠ Real.sqrt (((3:ℕ):ℝ) * 36 - 6 ^ 2) / ((3:ℕ):ℝ) := by
  constructor
  · have hassert : Cubico.assertNumericDimension (c6World.cubes.getD 0 {}) "a" = .ok () := rfl
    have hsz : (((c6World.cubes.getD 0 {}).dimByName "a").getD default).valuesMapSize = 2 := by
      decide
    have hsum : (((c6World.cubes.getD 0 {}).dimByName "a").getD default).summation = 6 := by
      simp [c6World, applyOps, applyOp, Cubico.addDimension, Cubico.addRecordFromArray,
        Cubico.addRecordCore, Cubico.accumulateRecordValues, Cubico.observeStep, Cubico.observeValue,
        Cubico.vmPush, Cubico.dimByName, Value.toStr,
        List.range, List.range.loop, Cubico.NUMERIC, Cubico.TEXT]
    have hsq : (((c6World.cubes.getD 0 {}).dimByName "a").getD default).summationOfSquares = 36 := by
      simp [c6World, applyOps, applyOp, Cubico.addDimension, Cubico.addRecordFromArray,
        Cubico.addRecordCore, Cubico.accumulateRecordValues, Cubico.observeStep, Cubico.observeValue,
        Cubico.vmPush, Cubico.dimByName, Value.toStr,
        List.range, List.range.loop, Cubico.NUMERIC, Cubico.TEXT]
      all_goals norm_num
    simp only [Cubico.stdDev, hassert, hsz, hsum, hsq]
    norm_num
    all_goals rw [show (36:ℝ) = 6 ^ 2 by norm_num, Real.sqrt_sq (by norm_num : (0:ℝ) ≤ 6)]
    all_goals norm_num
  · intro heq
    have h1 : Real.sqrt (((3:ℕ):ℝ) * 36 - 6 ^ 2) = Real.sqrt 72 := by norm_num
    rw [h1] at heq
    have h9 : Real.sqrt 72 = 9 := by
      have h3 : ((3:ℕ):ℝ) = 3 := by norm_num
      rw [h3] at heq
      field_simp at heq
      linarith
    have h72 := Real.sq_sqrt (show (0:ℝ) ≤ 72 by norm_num)
    rw [h9] at h72
    norm_num at h72

/-- C6 (amended): for a Numeric dimension with at least one non-null
value, `stdDev(d, approximate = true)` equals
`sqrt(m·Σx² − (Σx)²)/m` computed from the running statistics, where `m`
is the DISTINCT-value count (`valuesMapSize`, what the effective
`countUnique()` accessor returns) — not the number of non-null
observations. -/
theorem stdDev_approx_formula (h : Heap) (c : Cubico) (dim : String)
    (hex : c.hasDimension dim = true)
    (hnum : ((c.dimByName dim).getD default).dataType = Cubico.NUMERIC)
    (hpos : 0 < ((c.dimByName dim).getD default).valuesMapSize) :
    Cubico.stdDev h c dim true = .ok
      (Real.sqrt ((((c.dimByName dim).getD default).valuesMapSize : ℝ) *
          (((c.dimByName dim).getD default).summationOfSquares : ℝ) -
          (((c.dimByName dim).getD default).summation : ℝ) ^ 2) /
        (((c.dimByName dim).getD default).valuesMapSize : ℝ)) := by
  have hassert : Cubico.assertNumericDimension c dim = .ok () := by
    simp [Cubico.assertNumericDimension, Cubico.assertDimension, hex, hnum]
  simp only [Cubico.stdDev, hassert]
  rw [if_neg (by omega), if_pos trivial]
  have hcast : ((((((c.dimByName dim).getD default).valuesMapSize : ℚ)) *
      ((c.dimByName dim).getD default).summationOfSquares -
      ((c.dimByName dim).getD default).summation ^ 2 : ℚ) : ℝ) =
      (((c.dimByName dim).getD default).valuesMapSize : ℝ) *
        (((c.dimByName dim).getD default).summationOfSquares : ℝ) -
        (((c.dimByName dim).getD default).summation : ℝ) ^ 2 := by
    push_cast
    ring
  rw [hcast]

/-- Witness for the amended C6 theorem at a concrete cube. -/
theorem stdDev_approx_formula_witness :
    (c6World.cubes.getD 0 {}).hasDimension "a" = true ∧
    (((c6World.cubes.getD 0 {}).dimByName "a").getD default).dataType = Cubico.NUMERIC ∧
    0 < (((c6World.cubes.getD 0 {}).dimByName "a").getD default).valuesMapSize ∧
    Cubico.stdDev c6World.heap (c6World.cubes.getD 0 {}) "a" true = .ok
      (Real.sqrt (((((c6World.cubes.getD 0 {}).dimByName "a").getD default).valuesMapSize : ℝ) *
          ((((c6World.cubes.getD 0 {}).dimByName "a").getD default).summationOfSquares : ℝ) -
          ((((c6World.cubes.getD 0 {}).dimByName "a").getD default).summation : ℝ) ^ 2) /
        ((((c6World.cubes.getD 0 {}).dimByName "a").getD default).valuesMapSize : ℝ)) :=
  ⟨rfl, rfl, by decide,
    stdDev_approx_formula c6World.heap (c6World.cubes.getD 0 {}) "a" rfl rfl (by decide)⟩

/-- C8: CONFIRMED.  `addRecord` on a tuple of the wrong dimensionality
throws the dimensionality-mismatch error and has no observable side
effect: the heap and the cube (record store, counters, every
dimension's running statistics and value index) are exactly as before
the call, because the validation precedes every mutation. -/
theorem addRecord_mismatch_atomic (h : Heap) (c : Cubico) (record : Rec)
    (hlen : record.length ≠ c.nbrOfDimensions) :
    Cubico.addRecordFromArray h c record =
      (h, c, some ("Record has " ++
        (if record.length > c.nbrOfDimensions then "higher" else "lower") ++
        " dimensionality than expected")) := by
  simp [Cubico.addRecordFromArray, hlen]

/-- Witness for C8 at a concrete mismatched record. -/
theorem addRecord_mismatch_atomic_witness :
    ([some (Value.str "x")] : Rec).length ≠ (({} : Cubico)).nbrOfDimensions ∧
    Cubico.addRecordFromArray [] {} [some (Value.str "x")] =
      ([], {}, some ("Record has " ++
        (if ([some (Value.str "x")] : Rec).length > (({} : Cubico)).nbrOfDimensions
          then "higher" else "lower") ++
        " dimensionality than expected")) :=
  ⟨by decide, addRecord_mismatch_atomic [] {} [some (Value.str "x")] (by decide)⟩

/-- C9: CONFIRMED.  A `slice` step never mutates anything pre-existing:
the heap (hence every record array, running statistic source and value
index content) is untouched and every pre-existing cube is unchanged;
the result, if the call succeeds, is a newly constructed cube appended
to the world. -/
theorem slice_preserves_source (w : World) (i : Nat) (criteria : List Cubico.Criterion) :
    (applyOp w (.slice i criteria)).heap = w.heap ∧
    (∀ j, j < w.cubes.length →
      (applyOp w (.slice i criteria)).cubes.getD j {} = w.cubes.getD j {}) ∧
    ((applyOp w (.slice i criteria)).cubes = w.cubes ∨
      ∃ result, (applyOp w (.slice i criteria)).cubes = w.cubes ++ [result]) := by
  unfold applyOp
  by_cases hi : i < w.cubes.length
  · simp only [hi, if_true]
    cases hs : Cubico.slice w.heap (w.cubes.getD i {}) criteria with
    | ok x =>
        refine ⟨rfl, fun j hj => ?_, Or.inr ⟨x.1, rfl⟩⟩
        exact List.getD_append _ _ _ _ hj
    | error e => simp
  · simp only [hi, if_false]
    simp

/-- Witness for C9 at a concrete world. -/
theorem slice_preserves_source_witness :
    (applyOp c1World (.slice 0 [])).heap = c1World.heap ∧
    (applyOp c1World (.slice 0 [])).cubes.getD 0 {} = c1World.cubes.getD 0 {} ∧
    ((applyOp c1World (.slice 0 [])).cubes = c1World.cubes ∨
      ∃ result, (applyOp c1World (.slice 0 [])).cubes = c1World.cubes ++ [result]) :=
  ⟨(slice_preserves_source c1World 0 []).1,
    (slice_preserves_source c1World 0 []).2.1 0 (by decide),
    (slice_preserves_source c1World 0 []).2.2⟩

/-- Every entry of the criteria array after `slice`'s validation loop is
a compiled predicate functor, and the array keeps its length. -/
theorem processCriteria_functors (c : Cubico) :
    ∀ (cs : List Cubico.Criterion) (sc : Option Nat) (sm : Option (Nat × String))
      (ps : List Cubico.Criterion) (sel : Option (Nat × String)),
      Cubico.processCriteria c cs sc sm = .ok (ps, sel) →
      ps.length = cs.length ∧ ∀ e ∈ ps, e.isFunctor = true := by
  intro cs
  induction cs with
  | nil =>
      intro sc sm ps sel hok
      simp [Cubico.processCriteria] at hok
      obtain ⟨h1, h2⟩ := hok
      subst h1
      simp
  | cons head rest ih =>
      intro sc sm ps sel hok
      cases head with
      | functor f =>
          simp only [Cubico.processCriteria] at hok
          cases hrec : Cubico.processCriteria c rest sc sm with
          | error e => rw [hrec] at hok; cases hok
          | ok pr =>
              rw [hrec] at hok
              cases hok
              obtain ⟨hlen, hall⟩ := ih sc sm pr.1 pr.2 (by rw [hrec])
              constructor
              · simp [hlen]
              · intro e he
                cases he with
                | head => rfl
                | tail _ hmem => exact hall e hmem
      | triple dim op v =>
          simp only [Cubico.processCriteria] at hok
          split at hok
          · cases hok
          · split at hok
            · cases hok
            · split at hok
              · cases hok
              · split at hok
                · cases hok
                · rename_i hrec
                  cases hok
                  obtain ⟨hlen, hall⟩ := ih _ _ _ _ hrec
                  constructor
                  · simp [hlen]
                  · intro e he
                    cases he with
                    | head => rfl
                    | tail _ hmem => exact hall e hmem

/-- A successful group-by resolution step pushes the resolved dimension
index onto the accumulator. -/
theorem aggDimStep_ok (c : Cubico) (acc : Cubico × List Nat) (name : String)
    (acc' : Cubico × List Nat) (h : Cubico.aggDimStep c acc name = .ok acc') :
    ∃ idx, c.getDimensionIndex name = .ok idx ∧ acc'.2 = idx :: acc.2 := by
  unfold Cubico.aggDimStep at h
  cases hidx : c.getDimensionIndex name with
  | error e => simp only [hidx] at h; cases h
  | ok idx =>
      simp only [hidx] at h
      split at h
      · cases h
        exact ⟨idx, rfl, rfl⟩
      · cases h

/-- A successful group-by resolution fold computes exactly the
dimension indexes of the argument names (in reverse accumulation
order). -/
theorem aggDimFold_spec (c : Cubico) :
    ∀ (dims : List String) (acc res : Cubico × List Nat),
      dims.foldlM (Cubico.aggDimStep c) acc = .ok res →
      ∃ idxs, dims.mapM c.getDimensionIndex = .ok idxs ∧ res.2 = idxs.reverse ++ acc.2 := by
  intro dims
  induction dims with
  | nil =>
      intro acc res hok
      simp [List.foldlM_nil, pure, Except.pure] at hok
      exact ⟨[], rfl, by simp [hok]⟩
  | cons name rest ih =>
      intro acc res hok
      rw [List.foldlM_cons] at hok
      cases hstep : Cubico.aggDimStep c acc name with
      | error e => rw [hstep] at hok; simp [Bind.bind, Except.bind] at hok
      | ok acc' =>
          rw [hstep] at hok
          simp only [Bind.bind, Except.bind] at hok
          obtain ⟨idxs, hmap, hres⟩ := ih acc' res hok
          obtain ⟨idx, hidx, hcons⟩ := aggDimStep_ok c acc name acc' hstep
          refine ⟨idx :: idxs, ?_, ?_⟩
          · rw [List.mapM_cons, hidx, hmap]
            rfl
          · simp [hres, hcons]

/-- A successful measure resolution step pushes a resolved functor onto
the accumulator. -/
theorem aggMeasureStep_ok (c : Cubico) (acc : Cubico × List Cubico.Measure)
    (m : Cubico.Measure) (acc' : Cubico × List Cubico.Measure)
    (h : Cubico.aggMeasureStep c acc m = .ok acc') :
    ∃ mm, acc'.2 = mm :: acc.2 ∧ mm.isFunctor = true := by
  cases m with
  | functor name f =>
      simp only [Cubico.aggMeasureStep] at h
      split at h
      · cases h
        exact ⟨.functor name f, rfl, rfl⟩
      · cases h
  | pair kind dim =>
      simp only [Cubico.aggMeasureStep] at h
      cases hagg : Cubico.getAggregation c kind dim with
      | error e => simp only [hagg] at h; cases h
      | ok f =>
          simp only [hagg] at h
          split at h
          · cases h
            exact ⟨.functor (kind ++ "_" ++ dim) f, rfl, rfl⟩
          · cases h

/-- A successful measure resolution fold replaces every measure by a
functor, preserving count. -/
theorem aggMeasureFold_spec (c : Cubico) :
    ∀ (ms : List Cubico.Measure) (acc res : Cubico × List Cubico.Measure),
      ms.foldlM (Cubico.aggMeasureStep c) acc = .ok res →
      ∃ new : List Cubico.Measure, res.2 = new ++ acc.2 ∧ new.length = ms.length ∧
        ∀ m ∈ new, m.isFunctor = true := by
  intro ms
  induction ms with
  | nil =>
      intro acc res hok
      simp [List.foldlM_nil, pure, Except.pure] at hok
      exact ⟨[], by simp [hok], rfl, by simp⟩
  | cons m rest ih =>
      intro acc res hok
      rw [List.foldlM_cons] at hok
      cases hstep : Cubico.aggMeasureStep c acc m with
      | error e => rw [hstep] at hok; simp [Bind.bind, Except.bind] at hok
      | ok acc' =>
          rw [hstep] at hok
          simp only [Bind.bind, Except.bind] at hok
          obtain ⟨new, hres, hlen, hall⟩ := ih acc' res hok
          obtain ⟨mm, hcons, hfun⟩ := aggMeasureStep_ok c acc m acc' hstep
          refine ⟨new ++ [mm], by simp [hres, hcons], by simp [hlen], ?_⟩
          intro x hx
          rcases List.mem_append.mp hx with hx | hx
          · exact hall x hx
          · rw [List.mem_singleton.mp hx]
            exact hfun

/-- C10: CONFIRMED.  `slice` and `aggregate` destructively rewrite their
array arguments: after a successful `slice`, every slot of the caller's
criteria array holds a compiled predicate functor (the transient
name-to-index overwrite having been superseded); after a successful
`aggregate`, every slot of `groupByDimensions` holds the resolved
numeric dimension index and every measure slot holds a resolved functor
— the original tuples are gone from the caller's arrays. -/
theorem slice_aggregate_overwrite_arguments :
    (∀ (h : Heap) (c : Cubico) (criteria : List Cubico.Criterion),
      ∀ x ∈ (Cubico.slice h c criteria).toOption,
        x.2.length = criteria.length ∧ ∀ e ∈ x.2, e.isFunctor = true) ∧
    (∀ (h : Heap) (c : Cubico) (dims : List String) (ms : List Cubico.Measure),
      ∀ x ∈ (Cubico.aggregate h c dims ms).toOption,
        dims.mapM c.getDimensionIndex = .ok x.2.2.1 ∧
        x.2.2.2.length = ms.length ∧ ∀ m ∈ x.2.2.2, m.isFunctor = true) := by
  constructor
  · intro h c criteria x hx
    cases hs : Cubico.slice h c criteria with
    | error e => rw [hs] at hx; simp [Except.toOption] at hx
    | ok y =>
        rw [hs] at hx
        simp [Except.toOption] at hx
        subst hx
        simp only [Cubico.slice] at hs
        cases hpc : Cubico.processCriteria c criteria none none with
        | error e => simp only [hpc] at hs; cases hs
        | ok pr =>
            obtain ⟨processed, smaller⟩ := pr
            simp only [hpc] at hs
            obtain ⟨hlen, hall⟩ :=
              processCriteria_functors c criteria none none processed smaller hpc
            split at hs
            · cases hs
            · split at hs
              · cases hs
              · cases hs
                exact ⟨hlen, hall⟩
  · intro h c dims ms x hx
    cases hs : Cubico.aggregate h c dims ms with
    | error e => rw [hs] at hx; simp [Except.toOption] at hx
    | ok y =>
        rw [hs] at hx
        simp [Except.toOption] at hx
        subst hx
        simp only [Cubico.aggregate] at hs
        cases hdf : dims.foldlM (Cubico.aggDimStep c) (({} : Cubico), []) with
        | error e => simp only [hdf] at hs; cases hs
        | ok dres =>
            obtain ⟨dcub, dIdxRev⟩ := dres
            simp only [hdf] at hs
            obtain ⟨idxs, hmap, hrev⟩ := aggDimFold_spec c dims _ _ hdf
            simp at hrev
            cases hmf : ms.foldlM (Cubico.aggMeasureStep c) (dcub, []) with
            | error e => simp only [hmf] at hs; cases hs
            | ok mres =>
                obtain ⟨mcub, mRev⟩ := mres
                simp only [hmf] at hs
                obtain ⟨new, hnew, hnlen, hnall⟩ := aggMeasureFold_spec c ms _ _ hmf
                simp at hnew
                split at hs
                · cases hs
                · split at hs
                  · cases hs
                  · cases hs
                    refine ⟨?_, ?_, ?_⟩
                    · rw [hmap]
                      subst hrev
                      simp
                    · subst hnew
                      simp [hnlen]
                    · intro m hm
                      subst hnew
                      rw [List.mem_reverse] at hm
                      exact hnall m hm

/-- Witness for C10 at a concrete slice and aggregate call. -/
theorem slice_aggregate_overwrite_arguments_witness :
    (Cubico.slice c10World.heap (c10World.cubes.getD 0 {})
      [.triple "country" "=" (some (.str "AR"))]).toOption.isSome = true ∧
    (∀ x ∈ (Cubico.slice c10World.heap (c10World.cubes.getD 0 {})
        [.triple "country" "=" (some (.str "AR"))]).toOption,
      x.2.length = [Cubico.Criterion.triple "country" "=" (some (.str "AR"))].length ∧
      ∀ e ∈ x.2, e.isFunctor = true) ∧
    (Cubico.aggregate c10World.heap (c10World.cubes.getD 0 {}) ["country"]
      [.pair "count" "*"]).toOption.isSome = true ∧
    (∀ x ∈ (Cubico.aggregate c10World.heap (c10World.cubes.getD 0 {}) ["country"]
        [.pair "count" "*"]).toOption,
      ["country"].mapM (c10World.cubes.getD 0 {}).getDimensionIndex = .ok x.2.2.1 ∧
      x.2.2.2.length = [Cubico.Measure.pair "count" "*"].length ∧
      ∀ m ∈ x.2.2.2, m.isFunctor = true) :=
  ⟨rfl,
    fun x hx => slice_aggregate_overwrite_arguments.1 c10World.heap
      (c10World.cubes.getD 0 {}) [.triple "country" "=" (some (.str "AR"))] x hx,
    rfl,
    fun x hx => slice_aggregate_overwrite_arguments.2 c10World.heap
      (c10World.cubes.getD 0 {}) ["country"] [.pair "count" "*"] x hx⟩

/-- Keys are preserved by `vmPush`'s in-place update branch. -/
theorem find?_map_update (vm : List (String × List Nat)) (k k' : String) (id : Nat) :
    ((vm.map fun p => if p.1 = k then (p.1, p.2 ++ [id]) else p).find? (·.1 = k')) =
      (vm.find? (·.1 = k')).map fun p => if p.1 = k then (p.1, p.2 ++ [id]) else p := by
  induction vm with
  | nil => rfl
  | cons p rest ih =>
      obtain ⟨pk, pv⟩ := p
      have hfst : ((if pk = k then (pk, pv ++ [id]) else (pk, pv)) : String × List Nat).1 = pk := by
        split <;> rfl
      simp only [List.map_cons]
      by_cases hp : pk = k'
      · subst hp
        simp [List.find?_cons, hfst]
      · simp [List.find?_cons, hfst, hp, ih]

/-- Looking up the pushed key after `vmPush`. -/
theorem vmPush_find_self (vm : List (String × List Nat)) (k : String) (id : Nat) :
    ((Cubico.vmPush vm k id).find? (·.1 = k)).map (·.2) =
      some ((((vm.find? (·.1 = k)).map (·.2)).getD []) ++ [id]) := by
  unfold Cubico.vmPush
  by_cases hp : vm.any (·.1 = k)
  · simp only [hp, if_true]
    rw [find?_map_update]
    obtain ⟨x, hx, hpx⟩ := List.any_eq_true.mp hp
    have hsome : (vm.find? (·.1 = k)).isSome := List.find?_isSome.mpr ⟨x, hx, hpx⟩
    obtain ⟨y, hy⟩ := Option.isSome_iff_exists.mp hsome
    have hky : y.1 = k := by
      have := List.find?_some hy
      simpa using this
    simp [hy, hky]
  · have hp' : (vm.any (·.1 = k)) = false := Bool.eq_false_iff.mpr hp
    simp only [hp', Bool.false_eq_true, if_false]
    rw [List.find?_append]
    have hnone : vm.find? (·.1 = k) = none := by
      rw [List.find?_eq_none]
      intro x hx
      simp only [Bool.not_eq_true]
      by_contra hc
      exact hp (List.any_eq_true.mpr ⟨x, hx, by simpa using hc⟩)
    simp [hnone]

/-- Looking up a different key after `vmPush`. -/
theorem vmPush_find_ne (vm : List (String × List Nat)) (k k' : String) (id : Nat)
    (hne : k' ≠ k) :
    (Cubico.vmPush vm k id).find? (·.1 = k') = vm.find? (·.1 = k') := by
  unfold Cubico.vmPush
  by_cases hp : vm.any (·.1 = k)
  · simp only [hp, if_true]
    rw [find?_map_update]
    cases hf : vm.find? (·.1 = k') with
    | none => rfl
    | some y =>
        have hky : y.1 = k' := by simpa using List.find?_some hf
        simp [hky, hne]
  · have hp' : (vm.any (·.1 = k)) = false := Bool.eq_false_iff.mpr hp
    simp only [hp', Bool.false_eq_true, if_false]
    rw [List.find?_append]
    cases hf : vm.find? (·.1 = k') with
    | none => simp [Ne.symm hne]
    | some y => simp

/-- `vmPush` makes the pushed key present. -/
theorem vmPush_any_self (vm : List (String × List Nat)) (k : String) (id : Nat) :
    (Cubico.vmPush vm k id).any (·.1 = k) = true := by
  unfold Cubico.vmPush
  by_cases hp : vm.any (·.1 = k)
  · simp only [hp, if_true]
    obtain ⟨x, hx, hpx⟩ := List.any_eq_true.mp hp
    refine List.any_eq_true.mpr ⟨if x.1 = k then (x.1, x.2 ++ [id]) else x, List.mem_map.mpr ⟨x, hx, rfl⟩, ?_⟩
    have hfst : (if x.1 = k then (x.1, x.2 ++ [id]) else x).1 = x.1 := by split <;> rfl
    simp only [decide_eq_true_eq] at hpx
    simp only [decide_eq_true_eq]
    rw [hfst]
    exact hpx
  · have hp' : (vm.any (·.1 = k)) = false := Bool.eq_false_iff.mpr hp
    simp only [hp', Bool.false_eq_true, if_false]
    exact List.any_eq_true.mpr ⟨(k, [id]), by simp, by simp⟩

/-- `vmPush` preserves key presence. -/
theorem vmPush_any_mono (vm : List (String × List Nat)) (k k' : String) (id : Nat)
    (h : vm.any (·.1 = k') = true) :
    (Cubico.vmPush vm k id).any (·.1 = k') = true := by
  unfold Cubico.vmPush
  by_cases hp : vm.any (·.1 = k)
  · simp only [hp, if_true]
    obtain ⟨x, hx, hpx⟩ := List.any_eq_true.mp h
    refine List.any_eq_true.mpr ⟨if x.1 = k then (x.1, x.2 ++ [id]) else x, List.mem_map.mpr ⟨x, hx, rfl⟩, ?_⟩
    have hfst : (if x.1 = k then (x.1, x.2 ++ [id]) else x).1 = x.1 := by split <;> rfl
    simp only [decide_eq_true_eq] at hpx
    simp only [decide_eq_true_eq]
    rw [hfst]
    exact hpx
  · have hp' : (vm.any (·.1 = k)) = false := Bool.eq_false_iff.mpr hp
    simp only [hp', Bool.false_eq_true, if_false]
    obtain ⟨x, hx, hpx⟩ := List.any_eq_true.mp h
    exact List.any_eq_true.mpr ⟨x, List.mem_append_left _ hx, hpx⟩

/-- `observeValue` only touches statistics and the value index. -/
theorem observeValue_fields (d : CubicoDimension) (v : Value) (id : Nat) :
    (Cubico.observeValue d v id).index = d.index ∧
    (Cubico.observeValue d v id).name = d.name ∧
    (Cubico.observeValue d v id).dataType = d.dataType ∧
    (Cubico.observeValue d v id).valuesMap = Cubico.vmPush d.valuesMap v.toStr id := by
  unfold Cubico.observeValue
  cases v with
  | num q => by_cases hn : d.dataType = Cubico.NUMERIC <;> simp [hn]
  | str s => simp

/-- `observeStep` when the slot is null. -/
theorem observeStep_none (r : Rec) (id : Nat) (dims : List CubicoDimension) (i : Nat)
    (hv : r.getD i none = none) : Cubico.observeStep r id dims i = dims := by
  unfold Cubico.observeStep
  rw [hv]

/-- `observeStep` when the slot holds a value. -/
theorem observeStep_some (r : Rec) (id : Nat) (dims : List CubicoDimension) (i : Nat)
    (v : Value) (hv : r.getD i none = some v) :
    Cubico.observeStep r id dims i =
      dims.set i (Cubico.observeValue (dims.getD i default) v id) := by
  unfold Cubico.observeStep
  rw [hv]

/-- `observeStep` preserves the registry length. -/
theorem observeStep_length (r : Rec) (id : Nat) (dims : List CubicoDimension) (i : Nat) :
    (Cubico.observeStep r id dims i).length = dims.length := by
  unfold Cubico.observeStep
  split <;> simp

/-- The accumulation fold preserves the registry length. -/
theorem foldl_observe_length (r : Rec) (id : Nat) :
    ∀ (n : Nat) (l : List CubicoDimension),
      ((List.range n).foldl (Cubico.observeStep r id) l).length = l.length := by
  intro n
  induction n with
  | zero => intro l; rfl
  | succ n ih =>
      intro l
      rw [List.range_succ, List.foldl_append, List.foldl_cons, List.foldl_nil,
        observeStep_length, ih]

/-- The accumulation fold updates each registry slot independently:
slot `j` is touched exactly when `j < n` and the record holds a
non-null value at `j`. -/
theorem foldl_observe_getD (r : Rec) (id : Nat) :
    ∀ (n : Nat) (l : List CubicoDimension) (j : Nat), j < l.length →
      ((List.range n).foldl (Cubico.observeStep r id) l).getD j default
      = if j < n then
          Cubico.observeStep r id l j |>.getD j default
        else l.getD j default := by
  intro n
  induction n with
  | zero => intro l j hj; simp
  | succ n ih =>
      intro l j hj
      rw [List.range_succ, List.foldl_append, List.foldl_cons, List.foldl_nil]
      have hlen := foldl_observe_length r id n l
      by_cases hje : j = n
      · subst hje
        cases hv : r.getD j none with
        | none =>
            rw [observeStep_none r id _ j hv, observeStep_none r id l j hv,
              ih l j hj]
            simp
        | some v =>
            rw [observeStep_some r id _ j v hv, observeStep_some r id l j v hv,
              if_pos (Nat.lt_succ_self j)]
            have hMj : (List.foldl (Cubico.observeStep r id) l (List.range j))[j]?.getD default
                = l[j]?.getD default := by
              have hthis := ih l j hj
              simp only [lt_irrefl, if_false] at hthis
              simpa [List.getD_eq_getElem?_getD] using hthis
            simp only [List.getD_eq_getElem?_getD,
              List.getElem?_set_self (show j <
                (List.foldl (Cubico.observeStep r id) l (List.range j)).length by omega),
              List.getElem?_set_self hj, Option.getD_some, hMj]
      · cases hv : r.getD n none with
        | none =>
            rw [observeStep_none r id _ n hv, ih l j hj]
            by_cases hjn : j < n
            · simp [hjn, Nat.lt_succ_of_lt hjn]
            · have hns : ¬ j < n + 1 := by omega
              simp [hjn, hns]
        | some v =>
            rw [observeStep_some r id _ n v hv]
            rw [List.getD_eq_getElem?_getD, List.getElem?_set_ne (Ne.symm hje),
              ← List.getD_eq_getElem?_getD, ih l j hj]
            by_cases hjn : j < n
            · simp [hjn, Nat.lt_succ_of_lt hjn]
            · have hns : ¬ j < n + 1 := by omega
              simp [hjn, hns]

/-- The accumulation of one record only touches the registry. -/
theorem accumulate_fields (h : Heap) (c : Cubico) (id : Nat) :
    (Cubico.accumulateRecordValues h c id).storage = c.storage ∧
    (Cubico.accumulateRecordValues h c id).nbrOfRecords = c.nbrOfRecords ∧
    (Cubico.accumulateRecordValues h c id).nbrOfDimensions = c.nbrOfDimensions ∧
    (Cubico.accumulateRecordValues h c id).dimensions.length = c.dimensions.length := by
  refine ⟨rfl, rfl, rfl, ?_⟩
  unfold Cubico.accumulateRecordValues
  exact foldl_observe_length _ _ _ _

/-- Registry slot `j` after accumulating one record. -/
theorem accumulate_getD (h : Heap) (c : Cubico) (id : Nat) (j : Nat)
    (hj : j < c.dimensions.length) (hn : c.nbrOfDimensions = c.dimensions.length) :
    (Cubico.accumulateRecordValues h c id).dimensions.getD j default
      = match (h.getD id []).getD j none with
        | none => c.dimensions.getD j default
        | some v => Cubico.observeValue (c.dimensions.getD j default) v id := by
  unfold Cubico.accumulateRecordValues
  simp only
  rw [foldl_observe_getD _ _ _ _ _ hj, if_pos (by omega)]
  cases hv : (h.getD id []).getD j none with
  | none => rw [observeStep_none _ _ _ _ hv]
  | some v =>
      rw [observeStep_some _ _ _ _ _ hv]
      rw [List.getD_eq_getElem?_getD, List.getElem?_set_self hj, Option.getD_some]

/-- The storage and counters after `addRecordCore`. -/
theorem addRecordCore_fields (h : Heap) (c : Cubico) (id : Nat) :
    (Cubico.addRecordCore h c id).storage = c.storage ++ [id] ∧
    (Cubico.addRecordCore h c id).nbrOfRecords = c.nbrOfRecords + 1 ∧
    (Cubico.addRecordCore h c id).nbrOfDimensions = c.nbrOfDimensions ∧
    (Cubico.addRecordCore h c id).dimensions.length = c.dimensions.length := by
  unfold Cubico.addRecordCore
  refine ⟨rfl, rfl, rfl, ?_⟩
  exact (accumulate_fields h _ _).2.2.2

/-- Registry slot `j` after `addRecordCore`, when the store counter is
coherent: the accumulated array is exactly the pushed one. -/
theorem addRecordCore_getD (h : Heap) (c : Cubico) (id : Nat) (j : Nat)
    (hj : j < c.dimensions.length) (hn : c.nbrOfDimensions = c.dimensions.length)
    (hrec : c.nbrOfRecords = c.storage.length) :
    (Cubico.addRecordCore h c id).dimensions.getD j default
      = match (h.getD id []).getD j none with
        | none => c.dimensions.getD j default
        | some v => Cubico.observeValue (c.dimensions.getD j default) v id := by
  unfold Cubico.addRecordCore
  simp only
  have hid : (c.storage ++ [id]).getD c.nbrOfRecords 0 = id := by
    rw [hrec, List.getD_eq_getElem?_getD, List.getElem?_append_right (le_refl _)]
    simp
  rw [hid]
  exact accumulate_getD h _ id j hj hn

/-- A `getD` read past the end of a list gives the default. -/
theorem getD_of_le (l : List JSVal) (p : Nat) (hp : l.length ≤ p) :
    l.getD p none = none := by
  rw [List.getD_eq_getElem?_getD, List.getElem?_eq_none hp]
  rfl

/-- `addRecordCore` preserves the per-cube invariant when the pushed
heap id is valid, fresh, and points at an array of exactly the cube's
width. -/
theorem cubeInv_addRecordCore (h : Heap) (c : Cubico) (id : Nat)
    (hc : CubeInv h c) (hid : id < h.length)
    (hlen : (h.getD id []).length = c.nbrOfDimensions)
    (hnotin : id ∉ c.storage) :
    CubeInv h (Cubico.addRecordCore h c id) := by
  obtain ⟨hf1, hf2, hf3, hf4⟩ := addRecordCore_fields h c id
  have hgetD := fun (j : Nat) (hj : j < c.dimensions.length) =>
    addRecordCore_getD h c id j hj hc.dimsLen hc.recsLen
  constructor
  · rw [hf3, hf4]; exact hc.dimsLen
  · intro j hj
    rw [hf4] at hj
    rw [hgetD j hj]
    cases hv : (h.getD id []).getD j none with
    | none => exact hc.dimIndex j hj
    | some v =>
        rw [(observeValue_fields (c.dimensions.getD j default) v id).1]
        exact hc.dimIndex j hj
  · rw [hf2, hf1]
    simp [hc.recsLen]
  · rw [hf1, ← List.concat_eq_append]
    exact List.Nodup.concat hnotin hc.nodup
  · intro x hx
    rw [hf1] at hx
    rcases List.mem_append.mp hx with hx | hx
    · exact hc.idsValid x hx
    · rw [List.mem_singleton.mp hx]; exact hid
  · intro x hx
    rw [hf1] at hx
    rw [hf3]
    rcases List.mem_append.mp hx with hx | hx
    · exact hc.cellLen x hx
    · rw [List.mem_singleton.mp hx, hlen]
  · intro x hx p hp
    rw [hf1] at hx
    rw [hf3] at hp
    rcases List.mem_append.mp hx with hx | hx
    · exact hc.highNone x hx p hp
    · rw [List.mem_singleton.mp hx]
      exact getD_of_le _ _ (by omega)
  · intro j hj x hx v hv
    rw [hf4] at hj
    rw [hf1] at hx
    rw [hgetD j hj]
    cases hcell : (h.getD id []).getD j none with
    | none =>
        rcases List.mem_append.mp hx with hx | hx
        · exact hc.valuesComplete j hj x hx v hv
        · rw [List.mem_singleton.mp hx] at hv
          rw [hv] at hcell
          cases hcell
    | some w =>
        rw [(observeValue_fields (c.dimensions.getD j default) w id).2.2.2]
        rcases List.mem_append.mp hx with hx | hx
        · exact vmPush_any_mono _ _ _ _ (hc.valuesComplete j hj x hx v hv)
        · rw [List.mem_singleton.mp hx] at hv
          rw [hv] at hcell
          cases hcell
          exact vmPush_any_self _ _ _
  · intro j hj key ids hlook
    rw [hf4] at hj
    rw [hf1]
    rw [List.filter_append]
    unfold Cubico.vmLookup at hlook
    cases hcell : (h.getD id []).getD j none with
    | none =>
        have hdim : (Cubico.addRecordCore h c id).dimensions.getD j default
            = c.dimensions.getD j default := by
          rw [hgetD j hj, hcell]
        rw [hdim] at hlook
        have hold := hc.valuesSound j hj key ids (by
          unfold Cubico.vmLookup
          exact hlook)
        have hnew : matchesKey h j key id = false := by
          unfold matchesKey
          rw [hcell]
        rw [hold]
        simp [hnew]
    | some w =>
        have hdim : (Cubico.addRecordCore h c id).dimensions.getD j default
            = Cubico.observeValue (c.dimensions.getD j default) w id := by
          rw [hgetD j hj, hcell]
        rw [hdim] at hlook
        rw [(observeValue_fields (c.dimensions.getD j default) w id).2.2.2] at hlook
        by_cases hkey : key = w.toStr
        · subst hkey
          rw [vmPush_find_self] at hlook
          have hids : ids = (((c.dimensions.getD j default).valuesMap.find?
              (·.1 = w.toStr)).map (·.2)).getD [] ++ [id] := by
            injection hlook with hh
            exact hh.symm
          have hnew : matchesKey h j w.toStr id = true := by
            unfold matchesKey
            rw [hcell]
            simp
          cases hfind : ((c.dimensions.getD j default).valuesMap.find? (·.1 = w.toStr)) with
          | some entry =>
              have hold := hc.valuesSound j hj w.toStr entry.2 (by
                unfold Cubico.vmLookup
                rw [hfind]
                exact rfl)
              rw [hids, hfind]
              have hmap : (Option.map (fun x => (x : String × List Nat).2)
                  (some entry)).getD [] = entry.2 := rfl
              rw [hmap, hold]
              simp [hnew]
          | none =>
              have hempty : c.storage.filter (matchesKey h j w.toStr) = [] := by
                rw [List.filter_eq_nil_iff]
                intro x hx hmk
                unfold matchesKey at hmk
                cases hcx : (h.getD x []).getD j none with
                | none => rw [hcx] at hmk; cases hmk
                | some vx =>
                    rw [hcx] at hmk
                    simp only [decide_eq_true_eq] at hmk
                    have hany := hc.valuesComplete j hj x hx vx hcx
                    rw [hmk] at hany
                    obtain ⟨y, hy, hpy⟩ := List.any_eq_true.mp hany
                    have hsome : ((c.dimensions.getD j default).valuesMap.find?
                        (·.1 = w.toStr)).isSome := List.find?_isSome.mpr ⟨y, hy, hpy⟩
                    rw [hfind] at hsome
                    cases hsome
              rw [hids, hfind, hempty]
              simp [hnew]
        · rw [vmPush_find_ne _ _ _ _ hkey] at hlook
          have hold := hc.valuesSound j hj key ids (by
            unfold Cubico.vmLookup
            exact hlook)
          have hnew : matchesKey h j key id = false := by
            unfold matchesKey
            rw [hcell]
            simp [show ¬ w.toStr = key from fun hh => hkey hh.symm]
          rw [hold]
          simp [hnew]

/-- Appending fresh cells to the heap does not disturb a coherent
cube. -/
theorem cubeInv_heap_append (h h2 : Heap) (c : Cubico) (hc : CubeInv h c) :
    CubeInv (h ++ h2) c := by
  have hcell : ∀ x ∈ c.storage, (h ++ h2).getD x [] = h.getD x [] := by
    intro x hx
    exact List.getD_append _ _ _ _ (hc.idsValid x hx)
  refine ⟨hc.dimsLen, hc.dimIndex, hc.recsLen, hc.nodup, ?_, ?_, ?_, ?_, ?_⟩
  · intro x hx
    calc x < h.length := hc.idsValid x hx
    _ ≤ (h ++ h2).length := by simp
  · intro x hx
    rw [hcell x hx]
    exact hc.cellLen x hx
  · intro x hx p hp
    rw [hcell x hx]
    exact hc.highNone x hx p hp
  · intro j hj x hx v hv
    rw [hcell x hx] at hv
    exact hc.valuesComplete j hj x hx v hv
  · intro j hj key ids hlook
    rw [hc.valuesSound j hj key ids hlook]
    apply List.filter_congr
    intro x hx
    unfold matchesKey
    rw [hcell x hx]

/-- Length is preserved by the record-extension fold of
`addDimension`. -/
theorem extend_length (ids : List Nat) :
    ∀ (h : Heap),
      (ids.foldl (fun hh id => hh.set id ((hh.getD id []) ++ [none])) h).length
        = h.length := by
  induction ids with
  | nil => intro h; rfl
  | cons i rest ih => intro h; rw [List.foldl_cons, ih]; simp

/-- Cells not referenced by the extension fold are untouched. -/
theorem extend_getD_notmem (ids : List Nat) :
    ∀ (h : Heap) (x : Nat), x ∉ ids →
      (ids.foldl (fun hh id => hh.set id ((hh.getD id []) ++ [none])) h).getD x []
        = h.getD x [] := by
  induction ids with
  | nil => intro h x _; rfl
  | cons i rest ih =>
      intro h x hx
      rw [List.foldl_cons, ih _ _ (fun hmem => hx (List.mem_cons_of_mem _ hmem))]
      have hne : i ≠ x := by
        intro he
        exact hx (by rw [← he]; exact List.mem_cons_self i rest)
      rw [List.getD_eq_getElem?_getD, List.getElem?_set_ne hne,
        ← List.getD_eq_getElem?_getD]

/-- Each referenced cell is extended by exactly one `null` when the
reference list has no duplicates and every reference is valid. -/
theorem extend_getD_mem (ids : List Nat) :
    ∀ (h : Heap) (x : Nat), ids.Nodup → (∀ i ∈ ids, i < h.length) → x ∈ ids →
      (ids.foldl (fun hh id => hh.set id ((hh.getD id []) ++ [none])) h).getD x []
        = h.getD x [] ++ [none] := by
  induction ids with
  | nil => intro h x _ _ hx; cases hx
  | cons i rest ih =>
      intro h x hnd hvalid hx
      rw [List.foldl_cons]
      by_cases hix : x = i
      · subst hix
        have hxrest : x ∉ rest := (List.nodup_cons.mp hnd).1
        rw [extend_getD_notmem rest _ x hxrest]
        rw [List.getD_eq_getElem?_getD, List.getElem?_set_self (hvalid x hx),
          Option.getD_some]
      · have hxrest : x ∈ rest := by
          rcases List.mem_cons.mp hx with hh | hh
          · exact absurd hh hix
          · exact hh
        rw [ih _ x (List.nodup_cons.mp hnd).2
          (fun y hy => by rw [List.length_set]; exact hvalid y (List.mem_cons_of_mem _ hy)) hxrest]
        have hne : i ≠ x := fun he => hix he.symm
        rw [List.getD_eq_getElem?_getD, List.getElem?_set_ne hne,
          ← List.getD_eq_getElem?_getD]

/-- Characterization of a successful `addDimension`. -/
theorem addDimension_ok (h : Heap) (c : Cubico) (name : String) (dt : Nat)
    (h' : Heap) (c' : Cubico)
    (hsucc : Cubico.addDimension h c name dt = (h', c', none)) :
    c'.dimensions = c.dimensions ++ [{ name := name, dataType := dt, index := c.nbrOfDimensions }] ∧
    c'.nbrOfDimensions = c.nbrOfDimensions + 1 ∧
    c'.storage = c.storage ∧ c'.nbrOfRecords = c.nbrOfRecords ∧
    h' = (c.storage.take c.nbrOfRecords).foldl
      (fun hh id => hh.set id ((hh.getD id []) ++ [none])) h := by
  unfold Cubico.addDimension at hsucc
  split at hsucc
  · cases hsucc
  · split at hsucc
    · cases hsucc
    · injection hsucc with hh hrest
      injection hrest with hc hnone
      subst hh
      subst hc
      exact ⟨rfl, rfl, rfl, rfl, rfl⟩

/-- A cube stays coherent when every heap cell either stays unchanged or
is extended with one trailing `null`, lengths preserved. -/
theorem cubeInv_cells_extended (h h' : Heap) (c : Cubico)
    (hc : CubeInv h c) (hlen : h'.length = h.length)
    (hext : ∀ x, h'.getD x [] = h.getD x [] ∨ h'.getD x [] = h.getD x [] ++ [none]) :
    CubeInv h' c := by
  have hcelllen : ∀ x, (h.getD x []).length ≤ (h'.getD x []).length := by
    intro x
    rcases hext x with he | he <;> rw [he] <;> simp
  have hstable : ∀ x (j : Nat), j < (h.getD x []).length →
      (h'.getD x []).getD j none = (h.getD x []).getD j none := by
    intro x j hj
    rcases hext x with he | he
    · rw [he]
    · rw [he]
      exact List.getD_append _ _ _ _ hj
  refine ⟨hc.dimsLen, hc.dimIndex, hc.recsLen, hc.nodup, ?_, ?_, ?_, ?_, ?_⟩
  · intro x hx
    rw [hlen]
    exact hc.idsValid x hx
  · intro x hx
    exact le_trans (hc.cellLen x hx) (hcelllen x)
  · intro x hx p hp
    rcases hext x with he | he
    · rw [he]
      exact hc.highNone x hx p hp
    · rw [he]
      by_cases hplen : p < (h.getD x []).length
      · rw [List.getD_append _ _ _ _ hplen]
        exact hc.highNone x hx p hp
      · rw [List.getD_eq_getElem?_getD, List.getElem?_append_right (by omega),
          ← List.getD_eq_getElem?_getD]
        generalize (p - (List.getD h x []).length) = q
        cases q <;> rfl
  · intro j hj x hx v hv
    have hjlt : j < (h.getD x []).length := lt_of_lt_of_le (hc.dimsLen ▸ hj) (hc.cellLen x hx)
    rw [hstable x j hjlt] at hv
    exact hc.valuesComplete j hj x hx v hv
  · intro j hj key ids hlook
    rw [hc.valuesSound j hj key ids hlook]
    apply List.filter_congr
    intro x hx
    unfold matchesKey
    have hjlt : j < (h.getD x []).length := lt_of_lt_of_le (hc.dimsLen ▸ hj) (hc.cellLen x hx)
    rw [hstable x j hjlt]

/-- Reading at or past the original length of a cell extended with one
`null` gives `null`. -/
theorem getD_append_single_none (l : Rec) (p : Nat) (hp : l.length ≤ p) :
    (l ++ [(none : JSVal)]).getD p none = none := by
  rw [List.getD_eq_getElem?_getD, List.getElem?_append_right hp,
    ← List.getD_eq_getElem?_getD]
  generalize (p - l.length) = q
  cases q <;> rfl

/-- A successful `addDimension` keeps its cube coherent, and its heap
change is exactly one trailing `null` on each of the cube's cells. -/
theorem cubeInv_addDimension_target (h : Heap) (c : Cubico) (name : String)
    (dt : Nat) (h' : Heap) (c' : Cubico) (hc : CubeInv h c)
    (hsucc : Cubico.addDimension h c name dt = (h', c', none)) :
    CubeInv h' c' ∧ h'.length = h.length ∧
    (∀ x, x ∉ c.storage → h'.getD x [] = h.getD x []) ∧
    (∀ x, x ∈ c.storage → h'.getD x [] = h.getD x [] ++ [none]) := by
  obtain ⟨hdims, hnbr, hstor, hrecs, hheap⟩ := addDimension_ok h c name dt h' c' hsucc
  have htake : c.storage.take c.nbrOfRecords = c.storage := by
    rw [hc.recsLen]
    exact List.take_length _
  rw [htake] at hheap
  have hlen : h'.length = h.length := by rw [hheap]; exact extend_length _ _
  have hnot : ∀ x, x ∉ c.storage → h'.getD x [] = h.getD x [] := by
    intro x hx
    rw [hheap]
    exact extend_getD_notmem _ _ _ hx
  have hmem : ∀ x, x ∈ c.storage → h'.getD x [] = h.getD x [] ++ [none] := by
    intro x hx
    rw [hheap]
    exact extend_getD_mem _ _ _ hc.nodup hc.idsValid hx
  have hdlen : c.nbrOfDimensions = c.dimensions.length := hc.dimsLen
  have hgetDdim : ∀ j, j < c.dimensions.length →
      c'.dimensions.getD j default = c.dimensions.getD j default := by
    intro j hj
    rw [hdims]
    exact List.getD_append _ _ _ _ hj
  have hstable : ∀ x ∈ c.storage, ∀ j, j < c.nbrOfDimensions →
      (h'.getD x []).getD j none = (h.getD x []).getD j none := by
    intro x hx j hj
    rw [hmem x hx]
    exact List.getD_append _ _ _ _ (lt_of_lt_of_le hj (hc.cellLen x hx))
  refine ⟨⟨?_, ?_, ?_, ?_, ?_, ?_, ?_, ?_, ?_⟩, hlen, hnot, hmem⟩
  · rw [hnbr, hdims]
    simp [hdlen]
  · intro j hj
    rw [hdims] at hj
    simp at hj
    by_cases hjl : j < c.dimensions.length
    · rw [hgetDdim j hjl]
      exact hc.dimIndex j hjl
    · have hje : j = c.dimensions.length := by omega
      subst hje
      rw [hdims, List.getD_eq_getElem?_getD, List.getElem?_append_right (le_refl _)]
      simp [hdlen]
  · rw [hrecs, hstor]
    exact hc.recsLen
  · rw [hstor]
    exact hc.nodup
  · intro x hx
    rw [hstor] at hx
    rw [hlen]
    exact hc.idsValid x hx
  · intro x hx
    rw [hstor] at hx
    rw [hnbr, hmem x hx]
    simp only [List.length_append, List.length_cons, List.length_nil]
    have := hc.cellLen x hx
    omega
  · intro x hx p hp
    rw [hstor] at hx
    rw [hnbr] at hp
    rw [hmem x hx]
    by_cases hplen : p < (h.getD x []).length
    · rw [List.getD_append _ _ _ _ hplen]
      exact hc.highNone x hx p (by omega)
    · exact getD_append_single_none _ _ (by omega)
  · intro j hj x hx v hv
    rw [hstor] at hx
    rw [hdims] at hj
    simp at hj
    by_cases hjl : j < c.dimensions.length
    · rw [hgetDdim j hjl]
      rw [hstable x hx j (hdlen ▸ hjl)] at hv
      exact hc.valuesComplete j hjl x hx v hv
    · have hje : j = c.dimensions.length := by omega
      subst hje
      exfalso
      rw [hmem x hx] at hv
      by_cases hplen : c.dimensions.length < (h.getD x []).length
      · rw [List.getD_append _ _ _ _ hplen] at hv
        rw [hc.highNone x hx _ (le_of_eq hdlen)] at hv
        cases hv
      · rw [getD_append_single_none _ _ (by omega)] at hv
        cases hv
  · intro j hj key ids hlook
    rw [hdims] at hj
    simp at hj
    by_cases hjl : j < c.dimensions.length
    · rw [hgetDdim j hjl] at hlook
      rw [hstor]
      rw [hc.valuesSound j hjl key ids hlook]
      apply List.filter_congr
      intro x hx
      unfold matchesKey
      rw [hstable x hx j (hdlen ▸ hjl)]
    · have hje : j = c.dimensions.length := by omega
      subst hje
      exfalso
      unfold Cubico.vmLookup at hlook
      rw [hdims, List.getD_eq_getElem?_getD, List.getElem?_append_right (le_refl _)] at hlook
      simp at hlook

/-- The empty cube is coherent over any heap. -/
theorem cubeInv_empty (h : Heap) : CubeInv h ({} : Cubico) := by
  refine ⟨rfl, ?_, rfl, List.nodup_nil, ?_, ?_, ?_, ?_, ?_⟩ <;>
    intro j hj <;> simp at hj

/-- A successful fresh-array `addRecordFromArray` appends one heap cell
and keeps the cube coherent. -/
theorem cubeInv_addRecordFromArray (h : Heap) (c : Cubico) (r : Rec)
    (h' : Heap) (c' : Cubico) (hc : CubeInv h c)
    (hsucc : Cubico.addRecordFromArray h c r = (h', c', none)) :
    CubeInv h' c' ∧ h' = h ++ [r] := by
  unfold Cubico.addRecordFromArray at hsucc
  split at hsucc
  · cases hsucc
  · rename_i hlen
    simp only [Ne, Decidable.not_not] at hlen
    injection hsucc with hh hrest
    injection hrest with hcc hnone
    subst hh
    subst hcc
    refine ⟨?_, rfl⟩
    have hc2 : CubeInv (h ++ [r]) c := cubeInv_heap_append h [r] c hc
    have hcell : (h ++ [r]).getD h.length [] = r := by
      rw [List.getD_eq_getElem?_getD, List.getElem?_append_right (le_refl _)]
      simp
    apply cubeInv_addRecordCore (h ++ [r]) c h.length hc2
    · simp
    · rw [hcell, hlen]
    · intro hmem
      exact absurd (hc.idsValid _ hmem) (lt_irrefl _)

/-- The schema-only predicate maintained while replaying `addDimension`
on a fresh cube (`cloneWithoutStorage`, and `aggregate`'s schema
phase). -/
def SchemaOnly (c : Cubico) : Prop :=
  c.storage = [] ∧ c.nbrOfRecords = 0 ∧ c.nbrOfDimensions = c.dimensions.length ∧
  (∀ j, j < c.dimensions.length →
    (c.dimensions.getD j default).index = j ∧
    (c.dimensions.getD j default).valuesMap = [])

/-- The empty cube is schema-only. -/
theorem schemaOnly_empty : SchemaOnly ({} : Cubico) := by
  refine ⟨rfl, rfl, rfl, ?_⟩
  intro j hj
  simp at hj

/-- `addDimension` preserves the schema-only predicate. -/
theorem schemaOnly_addDimension (hp : Heap) (c : Cubico) (name : String) (dt : Nat)
    (h' : Heap) (c' : Cubico) (hc : SchemaOnly c)
    (hsucc : Cubico.addDimension hp c name dt = (h', c', none)) :
    SchemaOnly c' := by
  obtain ⟨hstor, hrec, hdim, hidx⟩ := hc
  obtain ⟨hdims, hnbr, hstor', hrec', _⟩ := addDimension_ok hp c name dt h' c' hsucc
  refine ⟨by rw [hstor', hstor], by rw [hrec', hrec], ?_, ?_⟩
  · rw [hnbr, hdims]
    simp [hdim]
  · intro j hj
    rw [hdims] at hj
    simp at hj
    by_cases hjl : j < c.dimensions.length
    · rw [hdims, List.getD_append _ _ _ _ hjl]
      exact hidx j hjl
    · have hje : j = c.dimensions.length := by omega
      subst hje
      rw [hdims, List.getD_eq_getElem?_getD, List.getElem?_append_right (le_refl _)]
      simp [hdim]

/-- A schema-only cube is coherent over any heap. -/
theorem cubeInv_of_schemaOnly (h : Heap) (c : Cubico) (hc : SchemaOnly c) :
    CubeInv h c := by
  obtain ⟨hstor, hrec, hdim, hidx⟩ := hc
  refine ⟨hdim, fun j hj => (hidx j hj).1, by simp [hrec, hstor], by rw [hstor]; exact List.nodup_nil,
    ?_, ?_, ?_, ?_, ?_⟩
  · intro x hx; rw [hstor] at hx; cases hx
  · intro x hx; rw [hstor] at hx; cases hx
  · intro x hx; rw [hstor] at hx; cases hx
  · intro j hj x hx; rw [hstor] at hx; cases hx
  · intro j hj key ids hlook
    unfold Cubico.vmLookup at hlook
    rw [(hidx j hj).2] at hlook
    cases hlook

/-- `cloneWithoutStorage` yields a schema-only cube. -/
theorem cloneWithoutStorage_schemaOnly (c : Cubico) (c' : Cubico)
    (hsucc : Cubico.cloneWithoutStorage c = .ok c') : SchemaOnly c' := by
  unfold Cubico.cloneWithoutStorage at hsucc
  have : ∀ (l : List CubicoDimension) (acc res : Cubico), SchemaOnly acc →
      l.foldlM (fun acc d =>
        match Cubico.addDimension [] acc d.name d.dataType with
        | (_, c', none) => Except.ok c'
        | (_, _, some e) => Except.error e) acc = .ok res → SchemaOnly res := by
    intro l
    induction l with
    | nil =>
        intro acc res hacc hok
        simp [List.foldlM_nil, pure, Except.pure] at hok
        rw [← hok]
        exact hacc
    | cons d rest ih =>
        intro acc res hacc hok
        rw [List.foldlM_cons] at hok
        cases hstep : Cubico.addDimension [] acc d.name d.dataType with
        | mk h1 rest1 =>
            obtain ⟨c1, e1⟩ := rest1
            cases e1 with
            | none =>
                rw [hstep] at hok
                simp only [Bind.bind, Except.bind] at hok
                exact ih c1 res (schemaOnly_addDimension [] acc d.name d.dataType h1 c1 hacc hstep) hok
            | some e =>
                rw [hstep] at hok
                simp only [Bind.bind, Except.bind] at hok
                cases hok
  exact this c.dimensions {} c' schemaOnly_empty hsucc

/-- Candidates failing the compiled predicates contribute nothing:
the populating loop of `slice` behaves as if run on the pre-filtered
candidate list. -/
theorem sliceLoop_filter (h : Heap) (ps : List Cubico.Criterion) :
    ∀ (l : List Nat) (cub : Cubico),
    Cubico.sliceLoop h ps cub l =
      Cubico.sliceLoop h ps cub
        (l.filter (fun id => Cubico.recordMatchesCriteria (h.getD id []) ps)) := by
  intro l
  induction l with
  | nil => intro cub; rfl
  | cons a rest ih =>
      intro cub
      by_cases hm : Cubico.recordMatchesCriteria (h.getD a []) ps = true
      · simp only [List.filter_cons]
        rw [if_pos hm]
        unfold Cubico.sliceLoop
        rw [List.foldlM_cons, List.foldlM_cons]
        simp only [hm, if_true]
        cases hstep : Cubico.addRecordFromArrayRef h cub a with
        | mk cub1 e =>
            cases e with
            | none =>
                simp only [Bind.bind, Except.bind]
                exact ih cub1
            | some e => simp only [Bind.bind, Except.bind]
      · simp only [List.filter_cons]
        rw [if_neg hm]
        unfold Cubico.sliceLoop
        rw [List.foldlM_cons]
        simp only [hm, Bool.false_eq_true, if_false, Bind.bind, Except.bind]
        exact ih cub

/-- Running the populating loop of `slice` over fresh, valid, duplicate-free
candidate ids preserves cube coherence. -/
theorem sliceLoop_inv (h : Heap) (ps : List Cubico.Criterion) :
    ∀ (l : List Nat) (cub cub' : Cubico),
    CubeInv h cub → (∀ x ∈ l, x < h.length) → (∀ x ∈ l, x ∉ cub.storage) →
    l.Nodup → Cubico.sliceLoop h ps cub l = .ok cub' →
    CubeInv h cub' ∧ ∃ tail, cub'.storage = cub.storage ++ tail ∧ tail ⊆ l := by
  intro l
  induction l with
  | nil =>
      intro cub cub' hc _ _ _ hok
      unfold Cubico.sliceLoop at hok
      simp [List.foldlM_nil, pure, Except.pure] at hok
      rw [← hok]
      exact ⟨hc, [], by simp, by simp⟩
  | cons a rest ih =>
      intro cub cub' hc hval hdis hnd hok
      unfold Cubico.sliceLoop at hok
      rw [List.foldlM_cons] at hok
      by_cases hm : Cubico.recordMatchesCriteria (h.getD a []) ps = true
      · simp only [hm, if_true] at hok
        cases hstep : Cubico.addRecordFromArrayRef h cub a with
        | mk cub1 e =>
            cases e with
            | none =>
                simp only [hstep, Bind.bind, Except.bind] at hok
                have hstep' := hstep
                simp only [Cubico.addRecordFromArrayRef] at hstep'
                split at hstep'
                · cases hstep'
                · rename_i hlen
                  simp only [Ne, Decidable.not_not] at hlen
                  injection hstep' with hcc _
                  have hinv1 : CubeInv h cub1 := by
                    rw [← hcc]
                    exact cubeInv_addRecordCore h cub a hc
                      (hval a (List.mem_cons_self a rest)) hlen
                      (hdis a (List.mem_cons_self a rest))
                  have hstor1 : cub1.storage = cub.storage ++ [a] := by
                    rw [← hcc]
                    exact (addRecordCore_fields h cub a).1
                  have hrec : Cubico.sliceLoop h ps cub1 rest = .ok cub' := by
                    unfold Cubico.sliceLoop
                    exact hok
                  obtain ⟨hinv', tail, htail, hsub⟩ := ih cub1 cub' hinv1
                    (fun x hx => hval x (List.mem_cons_of_mem a hx))
                    (by
                      intro x hx hmem
                      rw [hstor1] at hmem
                      rcases List.mem_append.mp hmem with h1 | h1
                      · exact hdis x (List.mem_cons_of_mem a hx) h1
                      · have hxa : x = a := by simpa using h1
                        exact (List.nodup_cons.mp hnd).1 (hxa ▸ hx))
                    (List.nodup_cons.mp hnd).2 hrec
                  refine ⟨hinv', a :: tail, ?_, ?_⟩
                  · rw [htail, hstor1, List.append_assoc]
                    rfl
                  · intro x hx
                    rcases List.mem_cons.mp hx with he | hx2
                    · rw [he]
                      exact List.mem_cons_self a rest
                    · exact List.mem_cons_of_mem a (hsub hx2)
            | some e =>
                simp only [hstep, Bind.bind, Except.bind] at hok
                cases hok
      · simp only [hm, Bool.false_eq_true, if_false, Bind.bind, Except.bind] at hok
        have hrec : Cubico.sliceLoop h ps cub rest = .ok cub' := by
          unfold Cubico.sliceLoop
          exact hok
        obtain ⟨hinv', tail, htail, hsub⟩ := ih cub cub' hc
          (fun x hx => hval x (List.mem_cons_of_mem a hx))
          (fun x hx => hdis x (List.mem_cons_of_mem a hx))
          (List.nodup_cons.mp hnd).2 hrec
        exact ⟨hinv', tail, htail, fun x hx => List.mem_cons_of_mem a (hsub hx)⟩

/-- Provenance of a selected `(dimensionIndex, key)` pair in
`processCriteria`: it came from an equality criterion on an existing
dimension whose key is present in that dimension's value index, and the
compiled equality predicate is among the returned functors. -/
def SelGood (c : Cubico) (cs ps : List Cubico.Criterion) (jk : Nat × String) : Prop :=
  ∃ (name : String) (v : JSVal) (d : CubicoDimension),
    c.dimByName name = some d ∧
    jk.1 = d.index ∧ jk.2 = jsKeyOf v ∧
    (Cubico.vmLookup (c.dimensions.getD jk.1 default) jk.2).isSome = true ∧
    Cubico.Criterion.triple name "=" v ∈ cs ∧
    Cubico.Criterion.functor (Cubico.equalTo jk.1 v) ∈ ps

/-- `SelGood` is stable under extending both lists at the head. -/
theorem selGood_lift (c : Cubico) (cr p : Cubico.Criterion)
    (cs ps : List Cubico.Criterion) (jk : Nat × String)
    (hg : SelGood c cs ps jk) : SelGood c (cr :: cs) (p :: ps) jk := by
  obtain ⟨name, v, d, h1, h2, h3, h4, h5, h6⟩ := hg
  exact ⟨name, v, d, h1, h2, h3, h4, List.mem_cons_of_mem _ h5, List.mem_cons_of_mem _ h6⟩

/-- Any selection produced by `processCriteria` either was already the
incoming candidate or is accounted for by `SelGood`. -/
theorem processCriteria_sel_spec (c : Cubico) :
    ∀ (cs : List Cubico.Criterion) (sc : Option Nat) (sm : Option (Nat × String))
      (ps : List Cubico.Criterion) (sel : Option (Nat × String)),
    Cubico.processCriteria c cs sc sm = .ok (ps, sel) →
    ∀ jk, sel = some jk → sm = some jk ∨ SelGood c cs ps jk := by
  intro cs
  induction cs with
  | nil =>
      intro sc sm ps sel hok jk hjk
      simp only [Cubico.processCriteria] at hok
      injection hok with h1
      injection h1 with hps hsel
      exact Or.inl (hsel.trans hjk)
  | cons cr rest ih =>
      intro sc sm ps sel hok jk hjk
      cases cr with
      | functor f =>
          simp only [Cubico.processCriteria] at hok
          cases hrec : Cubico.processCriteria c rest sc sm with
          | error e =>
              simp only [hrec] at hok
              exact (Except.noConfusion hok)
          | ok pr =>
              obtain ⟨ps', sel'⟩ := pr
              simp only [hrec] at hok
              injection hok with h1
              injection h1 with hps hsel
              subst hps
              rcases ih sc sm ps' sel' hrec jk (hsel.trans hjk) with hl | hg
              · exact Or.inl hl
              · exact Or.inr (selGood_lift c _ _ _ _ jk hg)
      | triple dim op v =>
          simp only [Cubico.processCriteria] at hok
          split at hok
          · exact (Except.noConfusion hok)
          · split at hok
            · exact (Except.noConfusion hok)
            · rename_i hd hvo
              split at hok
              · exact (Except.noConfusion hok)
              · rename_i f hgf
                split at hok
                · exact (Except.noConfusion hok)
                · rename_i ps' sel' hrec
                  cases hok
                  have hdt : c.hasDimension dim = true := by
                    rcases Bool.eq_false_or_eq_true (c.hasDimension dim) with hb | hb
                    · exact hb
                    · exact absurd hb hd
                  by_cases hoe : op = "="
                  · subst hoe
                    rw [if_pos (show ("=" : String) = "=" from rfl)] at hrec
                    cases hlook : Cubico.vmLookup
                        (c.dimensions.getD ((c.dimByName dim).getD default).index default)
                        (jsKeyOf v) with
                    | none =>
                        simp only [hlook] at hrec
                        rcases ih sc sm ps' sel hrec jk hjk with hl | hg
                        · exact Or.inl hl
                        · exact Or.inr (selGood_lift c _ _ _ _ jk hg)
                    | some lst =>
                        by_cases hlt : Cubico.ltCount lst.length sc = true
                        · simp only [hlook, hlt, if_true] at hrec
                          rcases ih _ _ ps' sel hrec jk hjk with hl | hg
                          · right
                            have hgf2 : f = Cubico.equalTo ((c.dimByName dim).getD default).index v := by
                              simp only [Cubico.getFilter] at hgf
                              injection hgf with h3
                              exact h3.symm
                            subst hgf2
                            injection hl with h2
                            obtain ⟨d, hdx⟩ := Option.isSome_iff_exists.mp hdt
                            subst h2
                            refine ⟨dim, v, d, hdx, ?_, rfl, ?_,
                              List.mem_cons_self _ _, List.mem_cons_self _ _⟩
                            · rw [hdx]
                              rfl
                            · rw [show ((((c.dimByName dim).getD default).index, jsKeyOf v) :
                                  Nat × String).1 = ((c.dimByName dim).getD default).index from rfl]
                              rw [hlook]
                              rfl
                          · right
                            have hgf2 : f = Cubico.equalTo ((c.dimByName dim).getD default).index v := by
                              simp only [Cubico.getFilter] at hgf
                              injection hgf with h3
                              exact h3.symm
                            rw [hgf2]
                            exact selGood_lift c _ _ _ _ jk hg
                        · have hlt' : Cubico.ltCount lst.length sc = false :=
                            Bool.eq_false_iff.mpr hlt
                          simp only [hlook, hlt', Bool.false_eq_true, if_false] at hrec
                          rcases ih sc sm ps' sel hrec jk hjk with hl | hg
                          · exact Or.inl hl
                          · exact Or.inr (selGood_lift c _ _ _ _ jk hg)
                  · rw [if_neg hoe] at hrec
                    rcases ih sc sm ps' sel hrec jk hjk with hl | hg
                    · exact Or.inl hl
                    · exact Or.inr (selGood_lift c _ _ _ _ jk hg)

/-- A dimension found by name sits at the position its `index` field
records, provided the cube's index fields are coherent. -/
theorem dimByName_index (c : Cubico) (name : String) (d : CubicoDimension)
    (hinv : ∀ j, j < c.dimensions.length → (c.dimensions.getD j default).index = j)
    (hfind : c.dimByName name = some d) :
    d.index < c.dimensions.length ∧ c.dimensions.getD d.index default = d := by
  have hmem : d ∈ c.dimensions := List.mem_of_find?_eq_some hfind
  obtain ⟨k, hk, hdk⟩ := List.mem_iff_getElem.mp hmem
  have hgetD : c.dimensions.getD k default = d := by
    rw [List.getD_eq_getElem?_getD, List.getElem?_eq_getElem hk, hdk]
    rfl
  have hidx : d.index = k := by
    have := hinv k hk
    rw [hgetD] at this
    exact this
  rw [hidx]
  exact ⟨hk, hgetD⟩

/-- A successful `slice` of a coherent cube yields a coherent cube over
the same heap, its store drawn from the source's. -/
theorem slice_cubeInv (h : Heap) (c : Cubico) (criteria : List Cubico.Criterion)
    (cub : Cubico) (ps : List Cubico.Criterion) (hc : CubeInv h c)
    (hok : Cubico.slice h c criteria = .ok (cub, ps)) :
    CubeInv h cub ∧ cub.storage ⊆ c.storage := by
  unfold Cubico.slice at hok
  split at hok
  · exact (Except.noConfusion hok)
  · rename_i processed smaller hpc
    split at hok
    · exact (Except.noConfusion hok)
    · rename_i cub₀ hclone
      split at hok
      · rename_i j key
        have hschema := cloneWithoutStorage_schemaOnly c cub₀ hclone
        have hinv₀ : CubeInv h cub₀ := cubeInv_of_schemaOnly h cub₀ hschema
        have hstor₀ : cub₀.storage = [] := hschema.1
        have hmain : ∀ (cand : List Nat) (cubx : Cubico), cand.Nodup →
            (∀ x ∈ cand, x ∈ c.storage) →
            Cubico.sliceLoop h processed cub₀ cand = .ok cubx →
            CubeInv h cubx ∧ cubx.storage ⊆ c.storage := by
          intro cand cubx hnd hsubset hloop'
          obtain ⟨hinv', tail, htail, hsub⟩ := sliceLoop_inv h processed cand cub₀ cubx hinv₀
            (fun x hx => hc.idsValid x (hsubset x hx))
            (fun x _ hmem => by rw [hstor₀] at hmem; cases hmem)
            hnd hloop'
          refine ⟨hinv', ?_⟩
          intro x hx
          rw [htail, hstor₀] at hx
          simp only [List.nil_append] at hx
          exact hsubset x (hsub hx)
        simp only [] at hok
        split at hok
        · exact (Except.noConfusion hok)
        · rename_i cubr hloop
          cases hok
          rcases processCriteria_sel_spec c criteria none none ps (some (j, key))
            hpc (j, key) rfl with hl | hg
          · exact (Option.noConfusion hl)
          · obtain ⟨name, v, d, hdx, hj1, hj2, hsome, _, _⟩ := hg
            obtain ⟨ids, hids⟩ := Option.isSome_iff_exists.mp hsome
            obtain ⟨hjlt, hjget⟩ := dimByName_index c name d hc.dimIndex hdx
            have hjlt' : j < c.dimensions.length := by
              rw [show j = ((j, key).1 : Nat) from rfl, hj1]
              exact hjlt
            have hfilter : ids = c.storage.filter (matchesKey h j key) :=
              hc.valuesSound j hjlt' key ids hids
            rw [hids] at hloop
            simp only [Option.getD_some] at hloop
            apply hmain ids cub _ _ hloop
            · rw [hfilter]
              exact hc.nodup.filter _
            · intro x hx
              rw [hfilter] at hx
              exact (List.mem_filter.mp hx).1
      · have hschema := cloneWithoutStorage_schemaOnly c cub₀ hclone
        have hinv₀ : CubeInv h cub₀ := cubeInv_of_schemaOnly h cub₀ hschema
        have hstor₀ : cub₀.storage = [] := hschema.1
        simp only [] at hok
        split at hok
        · exact (Except.noConfusion hok)
        · rename_i cubr hloop
          cases hok
          obtain ⟨hinv', tail, htail, hsub⟩ := sliceLoop_inv h ps c.storage cub₀ cub hinv₀
            (fun x hx => hc.idsValid x hx)
            (fun x _ hmem => by rw [hstor₀] at hmem; cases hmem)
            hc.nodup hloop
          refine ⟨hinv', ?_⟩
          intro x hx
          rw [htail, hstor₀] at hx
          simp only [List.nil_append] at hx
          exact hsub hx

/-- The group-by phase of `aggregate` builds a schema-only cube. -/
theorem aggDimFold_schemaOnly (c : Cubico) :
    ∀ (l : List String) (acc : Cubico × List Nat) (res : Cubico × List Nat),
    SchemaOnly acc.1 → l.foldlM (Cubico.aggDimStep c) acc = .ok res →
    SchemaOnly res.1 := by
  intro l
  induction l with
  | nil =>
      intro acc res hacc hok
      simp [List.foldlM_nil, pure, Except.pure] at hok
      rw [← hok]
      exact hacc
  | cons a rest ih =>
      intro acc res hacc hok
      rw [List.foldlM_cons] at hok
      cases hstep : Cubico.aggDimStep c acc a with
      | error e =>
          rw [hstep] at hok
          simp only [Bind.bind, Except.bind] at hok
          cases hok
      | ok acc1 =>
          rw [hstep] at hok
          simp only [Bind.bind, Except.bind] at hok
          apply ih acc1 res _ hok
          unfold Cubico.aggDimStep at hstep
          split at hstep
          · cases hstep
          · simp only [] at hstep
            split at hstep
            · rename_i hadd
              injection hstep with h1
              rw [← h1]
              exact schemaOnly_addDimension _ _ _ _ _ _ hacc hadd
            · cases hstep

/-- The measure-resolution phase of `aggregate` keeps the result cube
schema-only. -/
theorem aggMeasureFold_schemaOnly (c : Cubico) :
    ∀ (l : List Cubico.Measure) (acc res : Cubico × List Cubico.Measure),
    SchemaOnly acc.1 → l.foldlM (Cubico.aggMeasureStep c) acc = .ok res →
    SchemaOnly res.1 := by
  intro l
  induction l with
  | nil =>
      intro acc res hacc hok
      simp [List.foldlM_nil, pure, Except.pure] at hok
      rw [← hok]
      exact hacc
  | cons a rest ih =>
      intro acc res hacc hok
      rw [List.foldlM_cons] at hok
      cases hstep : Cubico.aggMeasureStep c acc a with
      | error e =>
          rw [hstep] at hok
          simp only [Bind.bind, Except.bind] at hok
          cases hok
      | ok acc1 =>
          rw [hstep] at hok
          simp only [Bind.bind, Except.bind] at hok
          apply ih acc1 res _ hok
          unfold Cubico.aggMeasureStep at hstep
          split at hstep
          · split at hstep
            · rename_i hadd
              injection hstep with h1
              rw [← h1]
              exact schemaOnly_addDimension _ _ _ _ _ _ hacc hadd
            · cases hstep
          · split at hstep
            · cases hstep
            · split at hstep
              · rename_i hadd
                injection hstep with h1
                rw [← h1]
                exact schemaOnly_addDimension _ _ _ _ _ _ hacc hadd
              · cases hstep

/-- The emission phase of `aggregate` only appends fresh cells to the
heap and keeps the result cube coherent. -/
theorem aggEmitFold_inv :
    ∀ (entries : List (String × Cubico.GroupEntry)) (h : Heap) (cub : Cubico)
      (h' : Heap) (cub' : Cubico),
    CubeInv h cub → entries.foldlM Cubico.aggEmitStep (h, cub) = .ok (h', cub') →
    CubeInv h' cub' ∧ ∃ tail, h' = h ++ tail := by
  intro entries
  induction entries with
  | nil =>
      intro h cub h' cub' hc hok
      simp [List.foldlM_nil, pure, Except.pure] at hok
      obtain ⟨hh, hcc⟩ := hok
      rw [← hh, ← hcc]
      exact ⟨hc, [], by simp⟩
  | cons p rest ih =>
      intro h cub h' cub' hc hok
      rw [List.foldlM_cons] at hok
      cases hstep : Cubico.aggEmitStep (h, cub) p with
      | error e =>
          rw [hstep] at hok
          simp only [Bind.bind, Except.bind] at hok
          cases hok
      | ok acc1 =>
          obtain ⟨h1, cub1⟩ := acc1
          rw [hstep] at hok
          simp only [Bind.bind, Except.bind] at hok
          unfold Cubico.aggEmitStep at hstep
          split at hstep
          · rename_i hadd
            injection hstep with h2
            injection h2 with hh1 hcub1
            obtain ⟨hinv1, happend⟩ := cubeInv_addRecordFromArray h cub p.2.record _ _ hc
              (by rw [hadd, hh1, hcub1])
            obtain ⟨hinv', tail, htail⟩ := ih h1 cub1 h' cub' hinv1 hok
            refine ⟨hinv', p.2.record :: tail, ?_⟩
            rw [htail, happend, List.append_assoc]
            rfl
          · cases hstep

/-- A successful `aggregate` of any cube yields a coherent result cube,
and only ever appends to the heap. -/
theorem aggregate_cubeInv (h : Heap) (c : Cubico) (dims : List String)
    (ms : List Cubico.Measure) (h' : Heap) (cub : Cubico) (di : List Nat)
    (pm : List Cubico.Measure)
    (hok : Cubico.aggregate h c dims ms = .ok (h', cub, di, pm)) :
    CubeInv h' cub ∧ ∃ tail, h' = h ++ tail := by
  unfold Cubico.aggregate at hok
  split at hok
  · exact (Except.noConfusion hok)
  · rename_i cubD dimsIdxRev hfoldD
    split at hok
    · exact (Except.noConfusion hok)
    · rename_i cubM measuresRev hfoldM
      have hok2 : (match List.foldlM
            (Cubico.aggregateStep h dimsIdxRev.reverse
              (List.map (fun m => match m with
                | Cubico.Measure.functor _ f => f
                | Cubico.Measure.pair _ _ => fun _ st => (st, 0)) measuresRev.reverse))
            ([], []) (List.take c.nbrOfRecords c.storage) with
        | Except.error e => Except.error e
        | Except.ok (storageMap, _) =>
          match List.foldlM Cubico.aggEmitStep (h, cubM) storageMap with
          | Except.error e => Except.error e
          | Except.ok (hE, cubE) =>
              Except.ok (hE, cubE, dimsIdxRev.reverse, measuresRev.reverse)) =
          Except.ok (h', cub, di, pm) := hok
      clear hok
      split at hok2
      · exact (Except.noConfusion hok2)
      · rename_i storageMap stat hfoldS
        split at hok2
        · exact (Except.noConfusion hok2)
        · rename_i hE cubE hfoldE
          cases hok2
          have hsD : SchemaOnly cubD :=
            aggDimFold_schemaOnly c dims (({} : Cubico), []) (cubD, dimsIdxRev)
              schemaOnly_empty hfoldD
          have hsM : SchemaOnly cubM :=
            aggMeasureFold_schemaOnly c ms (cubD, []) (cubM, measuresRev) hsD hfoldM
          exact aggEmitFold_inv storageMap h cubM h' cub
            (cubeInv_of_schemaOnly h cubM hsM) hfoldE

/-- Reading past a one-element extension of the cube list yields the
default empty cube or the appended cube. -/
theorem cubes_append_getD (l : List Cubico) (x : Cubico) (k : Nat)
    (hk : ¬ k < l.length) : (l ++ [x]).getD k {} = if k = l.length then x else {} := by
  rcases Nat.lt_or_ge k (l.length + 1) with hk2 | hk2
  · have hk3 : k = l.length := by omega
    subst hk3
    rw [if_pos rfl, List.getD_eq_getElem?_getD, List.getElem?_append_right (le_refl _)]
    simp
  · rw [if_neg (by omega), List.getD_eq_getElem?_getD,
      List.getElem?_eq_none (by simp; omega)]
    rfl

/-- The empty world is coherent. -/
theorem worldInv_empty : WorldInv ({} : World) := by
  intro i
  have : (({} : World).cubes).getD i {} = ({} : Cubico) := by
    cases i <;> rfl
  rw [this]
  exact cubeInv_empty _

/-- Every public operation preserves world coherence. -/
theorem worldInv_applyOp (w : World) (op : Op) (hw : WorldInv w) :
    WorldInv (applyOp w op) := by
  cases op with
  | newCube =>
      intro k
      simp only [applyOp]
      by_cases hk : k < w.cubes.length
      · rw [List.getD_append _ _ _ _ hk]
        exact hw k
      · rw [cubes_append_getD w.cubes {} k hk]
        split
        · exact cubeInv_empty w.heap
        · exact cubeInv_empty w.heap
  | addDimension i name dt =>
      intro k
      simp only [applyOp]
      by_cases hi : i < w.cubes.length
      · rw [if_pos hi]
        cases haD : Cubico.addDimension w.heap (w.cubes.getD i {}) name dt with
        | mk h' rest =>
            obtain ⟨c', e⟩ := rest
            cases e with
            | none =>
                obtain ⟨hinv', hlen', hnot, hmem⟩ := cubeInv_addDimension_target
                  w.heap (w.cubes.getD i {}) name dt h' c' (hw i) haD
                by_cases hk : k = i
                · subst hk
                  have hget : (w.cubes.set k c').getD k {} = c' := by
                    rw [List.getD_eq_getElem?_getD, List.getElem?_set_self hi]
                    rfl
                  show CubeInv h' ((w.cubes.set k c').getD k {})
                  rw [hget]
                  exact hinv'
                · have hget : (w.cubes.set i c').getD k {} = w.cubes.getD k {} := by
                    rw [List.getD_eq_getElem?_getD,
                      List.getElem?_set_ne (fun he => hk he.symm), ← List.getD_eq_getElem?_getD]
                  show CubeInv h' ((w.cubes.set i c').getD k {})
                  rw [hget]
                  apply cubeInv_cells_extended w.heap h' (w.cubes.getD k {}) (hw k) hlen'
                  intro x
                  by_cases hx : x ∈ (w.cubes.getD i {}).storage
                  · exact Or.inr (hmem x hx)
                  · exact Or.inl (hnot x hx)
            | some e =>
                exact hw k
      · rw [if_neg hi]
        exact hw k
  | addRecord i r =>
      intro k
      simp only [applyOp]
      by_cases hi : i < w.cubes.length
      · rw [if_pos hi]
        cases haR : Cubico.addRecordFromArray w.heap (w.cubes.getD i {}) r with
        | mk h' rest =>
            obtain ⟨c', e⟩ := rest
            cases e with
            | none =>
                obtain ⟨hinv', happ⟩ := cubeInv_addRecordFromArray w.heap
                  (w.cubes.getD i {}) r h' c' (hw i) haR
                by_cases hk : k = i
                · subst hk
                  have hget : (w.cubes.set k c').getD k {} = c' := by
                    rw [List.getD_eq_getElem?_getD, List.getElem?_set_self hi]
                    rfl
                  show CubeInv h' ((w.cubes.set k c').getD k {})
                  rw [hget]
                  exact hinv'
                · have hget : (w.cubes.set i c').getD k {} = w.cubes.getD k {} := by
                    rw [List.getD_eq_getElem?_getD,
                      List.getElem?_set_ne (fun he => hk he.symm), ← List.getD_eq_getElem?_getD]
                  show CubeInv h' ((w.cubes.set i c').getD k {})
                  rw [hget, happ]
                  exact cubeInv_heap_append w.heap [r] _ (hw k)
            | some e =>
                exact hw k
      · rw [if_neg hi]
        exact hw k
  | slice i criteria =>
      intro k
      simp only [applyOp]
      by_cases hi : i < w.cubes.length
      · rw [if_pos hi]
        cases hsl : Cubico.slice w.heap (w.cubes.getD i {}) criteria with
        | error e =>
            exact hw k
        | ok pr =>
            obtain ⟨cub, ps⟩ := pr
            obtain ⟨hinv', _⟩ := slice_cubeInv w.heap (w.cubes.getD i {}) criteria cub ps
              (hw i) hsl
            show CubeInv w.heap ((w.cubes ++ [cub]).getD k {})
            by_cases hk : k < w.cubes.length
            · rw [List.getD_append _ _ _ _ hk]
              exact hw k
            · rw [cubes_append_getD w.cubes cub k hk]
              split
              · exact hinv'
              · exact cubeInv_empty w.heap
      · rw [if_neg hi]
        exact hw k
  | aggregate i dims ms =>
      intro k
      simp only [applyOp]
      by_cases hi : i < w.cubes.length
      · rw [if_pos hi]
        cases hag : Cubico.aggregate w.heap (w.cubes.getD i {}) dims ms with
        | error e =>
            exact hw k
        | ok r =>
            obtain ⟨h', cub, di, pm⟩ := r
            obtain ⟨hinv', tail, htail⟩ := aggregate_cubeInv w.heap (w.cubes.getD i {})
              dims ms h' cub di pm hag
            show CubeInv h' ((w.cubes ++ [cub]).getD k {})
            by_cases hk : k < w.cubes.length
            · rw [List.getD_append _ _ _ _ hk, htail]
              exact cubeInv_heap_append w.heap tail _ (hw k)
            · rw [cubes_append_getD w.cubes cub k hk]
              split
              · exact hinv'
              · rw [htail]
                exact cubeInv_empty _
      · rw [if_neg hi]
        exact hw k

/-- World coherence holds after any sequence of operations from a
coherent start. -/
theorem worldInv_foldl : ∀ (ops : List Op) (w : World), WorldInv w →
    WorldInv (ops.foldl applyOp w) := by
  intro ops
  induction ops with
  | nil => intro w hw; exact hw
  | cons op rest ih =>
      intro w hw
      rw [List.foldl_cons]
      exact ih (applyOp w op) (worldInv_applyOp w op hw)

/-- Every reachable world is coherent. -/
theorem worldInv_applyOps (ops : List Op) : WorldInv (applyOps ops) :=
  worldInv_foldl ops {} worldInv_empty

/-- When every equality criterion carries a non-null value, the
index-optimized `slice` agrees with the full-scan reference semantics on
any coherent cube. -/
theorem slice_eq_fullScan (h : Heap) (c : Cubico) (criteria : List Cubico.Criterion)
    (hc : CubeInv h c)
    (hnn : ∀ dim v, Cubico.Criterion.triple dim "=" v ∈ criteria → v ≠ none) :
    Cubico.slice h c criteria = Cubico.sliceFullScan h c criteria := by
  unfold Cubico.slice Cubico.sliceFullScan
  cases hpc : Cubico.processCriteria c criteria none none with
  | error e => rfl
  | ok pr =>
      obtain ⟨processed, smaller⟩ := pr
      cases hclone : Cubico.cloneWithoutStorage c with
      | error e => rfl
      | ok cub₀ =>
          cases smaller with
          | none => rfl
          | some jk =>
              obtain ⟨j, key⟩ := jk
              rcases processCriteria_sel_spec c criteria none none processed (some (j, key))
                hpc (j, key) rfl with hl | hg
              · exact (Option.noConfusion hl)
              · obtain ⟨name, v, d, hdx, hj1, hj2, hsome, hmemcs, hmemps⟩ := hg
                obtain ⟨ids, hids⟩ := Option.isSome_iff_exists.mp hsome
                obtain ⟨hjlt, hjget⟩ := dimByName_index c name d hc.dimIndex hdx
                have hjlt' : j < c.dimensions.length := by
                  rw [show j = ((j, key).1 : Nat) from rfl, hj1]
                  exact hjlt
                have hfilter : ids = c.storage.filter (matchesKey h j key) :=
                  hc.valuesSound j hjlt' key ids hids
                obtain ⟨val, hval⟩ : ∃ val, v = some val := by
                  cases hv : v with
                  | none => exact absurd rfl (hv ▸ hnn name v hmemcs)
                  | some val => exact ⟨val, rfl⟩
                have hpoint : ∀ id ∈ c.storage,
                    Cubico.recordMatchesCriteria (h.getD id []) processed = true →
                    matchesKey h j key id = true := by
                  intro id _ hmatch
                  have heq := List.all_eq_true.mp hmatch _ hmemps
                  simp only [jsStrictEq, Cubico.equalTo, decide_eq_true_eq] at heq
                  unfold matchesKey
                  rw [heq, hval]
                  rw [show key = ((j, key).2 : String) from rfl, hj2, hval]
                  simp [jsKeyOf]
                have hloopeq :
                    Cubico.sliceLoop h processed cub₀
                      ((Cubico.vmLookup (c.dimensions.getD j default) key).getD []) =
                    Cubico.sliceLoop h processed cub₀ c.storage := by
                  rw [hids]
                  simp only [Option.getD_some]
                  rw [sliceLoop_filter h processed ids cub₀,
                    sliceLoop_filter h processed c.storage cub₀, hfilter,
                    List.filter_filter]
                  congr 1
                  apply List.filter_congr
                  intro id hid
                  cases hm : Cubico.recordMatchesCriteria (h.getD id []) processed with
                  | false => simp
                  | true =>
                      simp only [Bool.true_and]
                      exact hpoint id hid hm
                show (match Cubico.sliceLoop h processed cub₀
                    ((Cubico.vmLookup (c.dimensions.getD j default) key).getD []) with
                  | Except.error e => Except.error e
                  | Except.ok cub => Except.ok (cub, processed)) =
                  (match Cubico.sliceLoop h processed cub₀ c.storage with
                  | Except.error e => Except.error e
                  | Except.ok cub => Except.ok (cub, processed))
                rw [hloopeq]

/-- C2 (amended): CORRECTED.  The index-selection optimization of
`slice` never changes the result for a criteria list of 3-tuples in
which no equality criterion carries a `null` value: on every reachable
cube, the optimized `slice` returns exactly what the full-scan reference
semantics returns (same records, same order, same mutated criteria
array, same error otherwise).  The unamended claim — "for every value
v" — is refuted by `slice_index_null_value_cx`: a `null` equality value
is coerced to the property key `"null"`, which can collide with the
string `"null"` in the value index while the compiled strict-equality
predicate distinguishes them. -/
theorem slice_index_optimization_correct (ops : List Op) (i : Nat)
    (criteria : List Cubico.Criterion)
    (hnn : ∀ dim v, Cubico.Criterion.triple dim "=" v ∈ criteria → v ≠ none) :
    Cubico.slice (applyOps ops).heap ((applyOps ops).cubes.getD i {}) criteria =
      Cubico.sliceFullScan (applyOps ops).heap ((applyOps ops).cubes.getD i {}) criteria :=
  slice_eq_fullScan _ _ criteria (worldInv_applyOps ops i) hnn

/-- Witness for the amended C2 theorem: a concrete two-record world and
a concrete equality criterion with a non-null value. -/
theorem slice_index_optimization_correct_witness :
    Cubico.slice c1World.heap (c1World.cubes.getD 0 {})
        [Cubico.Criterion.triple "country" "=" (some (.str "AR"))] =
      Cubico.sliceFullScan c1World.heap (c1World.cubes.getD 0 {})
        [Cubico.Criterion.triple "country" "=" (some (.str "AR"))] := by
  apply slice_index_optimization_correct
    [.newCube, .addDimension 0 "country" Cubico.TEXT,
      .addRecord 0 [some (.str "AR")], .addRecord 0 [some (.str "US")]] 0
  intro dim v hm
  rw [List.mem_singleton] at hm
  injection hm with h1 h2 h3
  rw [h3]
  exact fun h => Option.noConfusion h

/-- Every record admitted by the populating loop of `slice` passed the
exact dimensionality check. -/
theorem sliceLoop_shape (h : Heap) (ps : List Cubico.Criterion) :
    ∀ (l : List Nat) (cub cub' : Cubico),
    (∀ x ∈ cub.storage, (h.getD x []).length = cub.nbrOfDimensions) →
    Cubico.sliceLoop h ps cub l = .ok cub' →
    cub'.nbrOfDimensions = cub.nbrOfDimensions ∧
    ∀ x ∈ cub'.storage, (h.getD x []).length = cub'.nbrOfDimensions := by
  intro l
  induction l with
  | nil =>
      intro cub cub' hsh hok
      unfold Cubico.sliceLoop at hok
      simp [List.foldlM_nil, pure, Except.pure] at hok
      rw [← hok]
      exact ⟨rfl, hsh⟩
  | cons a rest ih =>
      intro cub cub' hsh hok
      unfold Cubico.sliceLoop at hok
      rw [List.foldlM_cons] at hok
      by_cases hm : Cubico.recordMatchesCriteria (h.getD a []) ps = true
      · simp only [hm, if_true] at hok
        cases hstep : Cubico.addRecordFromArrayRef h cub a with
        | mk cub1 e =>
            cases e with
            | none =>
                simp only [hstep, Bind.bind, Except.bind] at hok
                have hstep' := hstep
                simp only [Cubico.addRecordFromArrayRef] at hstep'
                split at hstep'
                · cases hstep'
                · rename_i hlen
                  simp only [Ne, Decidable.not_not] at hlen
                  injection hstep' with hcc _
                  obtain ⟨hf1, hf2, hf3, hf4⟩ := addRecordCore_fields h cub a
                  have hdim1 : cub1.nbrOfDimensions = cub.nbrOfDimensions := by
                    rw [← hcc]
                    exact hf3
                  have hsh1 : ∀ x ∈ cub1.storage,
                      (h.getD x []).length = cub1.nbrOfDimensions := by
                    intro x hx
                    rw [← hcc] at hx
                    rw [hf1] at hx
                    rw [hdim1]
                    rcases List.mem_append.mp hx with h1 | h1
                    · exact hsh x h1
                    · have hxa : x = a := by simpa using h1
                      rw [hxa]
                      exact hlen
                  have hrec : Cubico.sliceLoop h ps cub1 rest = .ok cub' := by
                    unfold Cubico.sliceLoop
                    exact hok
                  obtain ⟨hd, hs⟩ := ih cub1 cub' hsh1 hrec
                  exact ⟨hd.trans hdim1, hs⟩
            | some e =>
                simp only [hstep, Bind.bind, Except.bind] at hok
                cases hok
      · simp only [hm, Bool.false_eq_true, if_false, Bind.bind, Except.bind] at hok
        have hrec : Cubico.sliceLoop h ps cub rest = .ok cub' := by
          unfold Cubico.sliceLoop
          exact hok
        exact ih cub cub' hsh hrec

/-- Every group row admitted by the emission phase of `aggregate` passed
the exact dimensionality check, and prior rows are untouched by the heap
growth. -/
theorem aggEmitFold_shape :
    ∀ (entries : List (String × Cubico.GroupEntry)) (h : Heap) (cub : Cubico)
      (h' : Heap) (cub' : Cubico),
    CubeInv h cub →
    (∀ x ∈ cub.storage, (h.getD x []).length = cub.nbrOfDimensions) →
    entries.foldlM Cubico.aggEmitStep (h, cub) = .ok (h', cub') →
    cub'.nbrOfDimensions = cub.nbrOfDimensions ∧
    ∀ x ∈ cub'.storage, (h'.getD x []).length = cub'.nbrOfDimensions := by
  intro entries
  induction entries with
  | nil =>
      intro h cub h' cub' hc hsh hok
      simp [List.foldlM_nil, pure, Except.pure] at hok
      obtain ⟨hh, hcc⟩ := hok
      rw [← hh, ← hcc]
      exact ⟨rfl, hsh⟩
  | cons p rest ih =>
      intro h cub h' cub' hc hsh hok
      rw [List.foldlM_cons] at hok
      cases hstep : Cubico.aggEmitStep (h, cub) p with
      | error e =>
          rw [hstep] at hok
          simp only [Bind.bind, Except.bind] at hok
          cases hok
      | ok acc1 =>
          obtain ⟨h1, cub1⟩ := acc1
          rw [hstep] at hok
          simp only [Bind.bind, Except.bind] at hok
          unfold Cubico.aggEmitStep at hstep
          split at hstep
          · rename_i hadd
            injection hstep with h2
            injection h2 with hh1 hcub1
            have hadd' : Cubico.addRecordFromArray h cub p.2.record = (h1, cub1, none) := by
              rw [hadd, hh1, hcub1]
            obtain ⟨hinv1, happend⟩ :=
              cubeInv_addRecordFromArray h cub p.2.record h1 cub1 hc hadd'
            have hadd2 := hadd'
            unfold Cubico.addRecordFromArray at hadd2
            split at hadd2
            · cases hadd2
            · rename_i hlen
              simp only [Ne, Decidable.not_not] at hlen
              injection hadd2 with hhh hrest
              injection hrest with hccc _
              obtain ⟨hf1, hf2, hf3, hf4⟩ := addRecordCore_fields (h ++ [p.2.record]) cub h.length
              have hdim1 : cub1.nbrOfDimensions = cub.nbrOfDimensions := by
                rw [← hccc]
                exact hf3
              have hsh1 : ∀ x ∈ cub1.storage,
                  (h1.getD x []).length = cub1.nbrOfDimensions := by
                intro x hx
                rw [← hccc, hf1] at hx
                rw [hdim1, happend]
                rcases List.mem_append.mp hx with h1m | h1m
                · rw [List.getD_eq_getElem?_getD, List.getElem?_append,
                    if_pos (hc.idsValid x h1m), ← List.getD_eq_getElem?_getD]
                  exact hsh x h1m
                · have hxa : x = h.length := by simpa using h1m
                  rw [hxa, List.getD_eq_getElem?_getD,
                    List.getElem?_append_right (le_refl _)]
                  simp [hlen]
              obtain ⟨hd, hs⟩ := ih h1 cub1 h' cub' hinv1 hsh1 hok
              exact ⟨hd.trans hdim1, hs⟩
          · cases hstep

/-- Unpacking `unsharedStorage`: no other live cube references any of
cube `i`'s record cells. -/
theorem unshared_spec (w : World) (i : Nat) (hg : unsharedStorage w i = true) :
    ∀ x ∈ (w.cubes.getD i {}).storage, ∀ k, k < w.cubes.length → k ≠ i →
    x ∉ (w.cubes.getD k {}).storage := by
  intro x hx k hk hki hmem
  have h1 := List.all_eq_true.mp hg x hx
  have h2 := List.all_eq_true.mp h1 k (List.mem_range.mpr hk)
  have h4 : (!((w.cubes.getD k {}).storage.contains x)) = true := by
    simpa [hki] using h2
  have hcont : (w.cubes.getD k {}).storage.contains x = true := by
    simpa using hmem
  rw [hcont] at h4
  simp at h4

/-- Every record of a `slice` result has exactly the result's
dimensionality. -/
theorem slice_shape (h : Heap) (c : Cubico) (criteria : List Cubico.Criterion)
    (cub : Cubico) (ps : List Cubico.Criterion)
    (hok : Cubico.slice h c criteria = .ok (cub, ps)) :
    ∀ x ∈ cub.storage, (h.getD x []).length = cub.nbrOfDimensions := by
  unfold Cubico.slice at hok
  split at hok
  · exact (Except.noConfusion hok)
  · rename_i processed smaller hpc
    split at hok
    · exact (Except.noConfusion hok)
    · rename_i cub₀ hclone
      have hstor₀ : cub₀.storage = [] := (cloneWithoutStorage_schemaOnly c cub₀ hclone).1
      have hvac : ∀ x ∈ cub₀.storage, (h.getD x []).length = cub₀.nbrOfDimensions := by
        intro x hx
        rw [hstor₀] at hx
        cases hx
      split at hok
      · rename_i j key
        have hok2 : (match Cubico.sliceLoop h processed cub₀
              ((Cubico.vmLookup (c.dimensions.getD j default) key).getD []) with
          | Except.error e => Except.error e
          | Except.ok cubb => Except.ok (cubb, processed)) = Except.ok (cub, ps) := hok
        clear hok
        split at hok2
        · exact (Except.noConfusion hok2)
        · rename_i cubr hloop
          cases hok2
          exact (sliceLoop_shape h _ _ cub₀ _ hvac hloop).2
      · have hok2 : (match Cubico.sliceLoop h processed cub₀ c.storage with
          | Except.error e => Except.error e
          | Except.ok cubb => Except.ok (cubb, processed)) = Except.ok (cub, ps) := hok
        clear hok
        split at hok2
        · exact (Except.noConfusion hok2)
        · rename_i cubr hloop
          cases hok2
          exact (sliceLoop_shape h _ _ cub₀ _ hvac hloop).2

/-- Every record of an `aggregate` result has exactly the result's
dimensionality. -/
theorem aggregate_shape (h : Heap) (c : Cubico) (dims : List String)
    (ms : List Cubico.Measure) (h' : Heap) (cub : Cubico) (di : List Nat)
    (pm : List Cubico.Measure)
    (hok : Cubico.aggregate h c dims ms = .ok (h', cub, di, pm)) :
    ∀ x ∈ cub.storage, (h'.getD x []).length = cub.nbrOfDimensions := by
  unfold Cubico.aggregate at hok
  split at hok
  · exact (Except.noConfusion hok)
  · rename_i cubD dimsIdxRev hfoldD
    split at hok
    · exact (Except.noConfusion hok)
    · rename_i cubM measuresRev hfoldM
      have hok2 : (match List.foldlM
            (Cubico.aggregateStep h dimsIdxRev.reverse
              (List.map (fun m => match m with
                | Cubico.Measure.functor _ f => f
                | Cubico.Measure.pair _ _ => fun _ st => (st, 0)) measuresRev.reverse))
            ([], []) (List.take c.nbrOfRecords c.storage) with
        | Except.error e => Except.error e
        | Except.ok (storageMap, _) =>
          match List.foldlM Cubico.aggEmitStep (h, cubM) storageMap with
          | Except.error e => Except.error e
          | Except.ok (hE, cubE) =>
              Except.ok (hE, cubE, dimsIdxRev.reverse, measuresRev.reverse)) =
          Except.ok (h', cub, di, pm) := hok
      clear hok
      split at hok2
      · exact (Except.noConfusion hok2)
      · rename_i storageMap stat hfoldS
        split at hok2
        · exact (Except.noConfusion hok2)
        · rename_i hE cubE hfoldE
          cases hok2
          have hsD : SchemaOnly cubD :=
            aggDimFold_schemaOnly c dims (({} : Cubico), []) (cubD, dimsIdxRev)
              schemaOnly_empty hfoldD
          have hsM : SchemaOnly cubM :=
            aggMeasureFold_schemaOnly c ms (cubD, []) (cubM, measuresRev) hsD hfoldM
          have hvac : ∀ x ∈ cubM.storage, (h.getD x []).length = cubM.nbrOfDimensions := by
            intro x hx
            rw [hsM.1] at hx
            cases hx
          exact (aggEmitFold_shape storageMap h cubM h' cub
            (cubeInv_of_schemaOnly h cubM hsM) hvac hfoldE).2

/-- The exact shape facts for the default empty cube. -/
theorem shape_empty (h : Heap) :
    ({} : Cubico).nbrOfRecords = ({} : Cubico).storage.length ∧
    ∀ id ∈ ({} : Cubico).storage, (h.getD id []).length = ({} : Cubico).nbrOfDimensions := by
  refine ⟨rfl, ?_⟩
  intro id hid
  cases hid

/-- Reading a cube list past its length yields the empty cube. -/
theorem cubes_getD_of_ge (l : List Cubico) (k : Nat) (hk : ¬ k < l.length) :
    l.getD k {} = {} := by
  rw [List.getD_eq_getElem?_getD, List.getElem?_eq_none (by omega)]
  rfl

/-- A `goodOp` step preserves the exact record-shape invariant of every
coherent world. -/
theorem shapeInv_applyOp (w : World) (op : Op) (hw : WorldInv w) (hs : ShapeInv w)
    (hg : goodOp w op = true) : ShapeInv (applyOp w op) := by
  cases op with
  | newCube =>
      intro k
      simp only [applyOp]
      by_cases hk : k < w.cubes.length
      · rw [List.getD_append _ _ _ _ hk]
        exact hs k
      · rw [cubes_append_getD w.cubes {} k hk]
        split
        · exact shape_empty w.heap
        · exact shape_empty w.heap
  | addDimension i name dt =>
      have hG : unsharedStorage w i = true := hg
      intro k
      simp only [applyOp]
      by_cases hi : i < w.cubes.length
      · rw [if_pos hi]
        cases haD : Cubico.addDimension w.heap (w.cubes.getD i {}) name dt with
        | mk h' rest =>
            obtain ⟨c', e⟩ := rest
            cases e with
            | none =>
                obtain ⟨hinv', hlen', hnot, hmem⟩ := cubeInv_addDimension_target
                  w.heap (w.cubes.getD i {}) name dt h' c' (hw i) haD
                obtain ⟨hdims, hnbr, hstor, hrecs, _⟩ :=
                  addDimension_ok w.heap (w.cubes.getD i {}) name dt h' c' haD
                by_cases hk : k = i
                · subst hk
                  have hget : (w.cubes.set k c').getD k {} = c' := by
                    rw [List.getD_eq_getElem?_getD, List.getElem?_set_self hi]
                    rfl
                  show ((w.cubes.set k c').getD k {}).nbrOfRecords =
                      ((w.cubes.set k c').getD k {}).storage.length ∧
                    ∀ id ∈ ((w.cubes.set k c').getD k {}).storage,
                      (h'.getD id []).length = ((w.cubes.set k c').getD k {}).nbrOfDimensions
                  rw [hget]
                  refine ⟨by rw [hrecs, hstor]; exact (hs k).1, ?_⟩
                  intro id hid
                  rw [hstor] at hid
                  rw [hmem id hid, List.length_append, hnbr, (hs k).2 id hid]
                  rfl
                · have hget : (w.cubes.set i c').getD k {} = w.cubes.getD k {} := by
                    rw [List.getD_eq_getElem?_getD,
                      List.getElem?_set_ne (fun he => hk he.symm), ← List.getD_eq_getElem?_getD]
                  show ((w.cubes.set i c').getD k {}).nbrOfRecords =
                      ((w.cubes.set i c').getD k {}).storage.length ∧
                    ∀ id ∈ ((w.cubes.set i c').getD k {}).storage,
                      (h'.getD id []).length = ((w.cubes.set i c').getD k {}).nbrOfDimensions
                  rw [hget]
                  refine ⟨(hs k).1, ?_⟩
                  intro id hid
                  by_cases hk2 : k < w.cubes.length
                  · have hnotin : id ∉ (w.cubes.getD i {}).storage := by
                      intro hmem2
                      exact unshared_spec w i hG id hmem2 k hk2 hk hid
                    rw [hnot id hnotin]
                    exact (hs k).2 id hid
                  · rw [cubes_getD_of_ge w.cubes k hk2] at hid
                    cases hid
            | some e =>
                exact hs k
      · rw [if_neg hi]
        exact hs k
  | addRecord i r =>
      intro k
      simp only [applyOp]
      by_cases hi : i < w.cubes.length
      · rw [if_pos hi]
        cases haR : Cubico.addRecordFromArray w.heap (w.cubes.getD i {}) r with
        | mk h' rest =>
            obtain ⟨c', e⟩ := rest
            cases e with
            | none =>
                obtain ⟨hinv1, happend⟩ := cubeInv_addRecordFromArray w.heap
                  (w.cubes.getD i {}) r h' c' (hw i) haR
                have haR2 := haR
                unfold Cubico.addRecordFromArray at haR2
                split at haR2
                · cases haR2
                · rename_i hlenr
                  simp only [Ne, Decidable.not_not] at hlenr
                  injection haR2 with hhh hrest2
                  injection hrest2 with hccc _
                  obtain ⟨hf1, hf2, hf3, hf4⟩ := addRecordCore_fields
                    (w.heap ++ [r]) (w.cubes.getD i {}) w.heap.length
                  by_cases hk : k = i
                  · subst hk
                    have hget : (w.cubes.set k c').getD k {} = c' := by
                      rw [List.getD_eq_getElem?_getD, List.getElem?_set_self hi]
                      rfl
                    show ((w.cubes.set k c').getD k {}).nbrOfRecords =
                        ((w.cubes.set k c').getD k {}).storage.length ∧
                      ∀ id ∈ ((w.cubes.set k c').getD k {}).storage,
                        (h'.getD id []).length = ((w.cubes.set k c').getD k {}).nbrOfDimensions
                    rw [hget, ← hccc]
                    refine ⟨by rw [hf2, hf1, List.length_append, (hs k).1]; rfl, ?_⟩
                    intro id hid
                    rw [hf1] at hid
                    rw [hf3, happend]
                    rcases List.mem_append.mp hid with h1m | h1m
                    · rw [List.getD_eq_getElem?_getD, List.getElem?_append,
                        if_pos ((hw k).idsValid id h1m), ← List.getD_eq_getElem?_getD]
                      exact (hs k).2 id h1m
                    · have hxa : id = w.heap.length := by simpa using h1m
                      rw [hxa, List.getD_eq_getElem?_getD,
                        List.getElem?_append_right (le_refl _)]
                      simp [hlenr]
                  · have hget : (w.cubes.set i c').getD k {} = w.cubes.getD k {} := by
                      rw [List.getD_eq_getElem?_getD,
                        List.getElem?_set_ne (fun he => hk he.symm), ← List.getD_eq_getElem?_getD]
                    show ((w.cubes.set i c').getD k {}).nbrOfRecords =
                        ((w.cubes.set i c').getD k {}).storage.length ∧
                      ∀ id ∈ ((w.cubes.set i c').getD k {}).storage,
                        (h'.getD id []).length = ((w.cubes.set i c').getD k {}).nbrOfDimensions
                    rw [hget]
                    refine ⟨(hs k).1, ?_⟩
                    intro id hid
                    rw [happend, List.getD_eq_getElem?_getD, List.getElem?_append,
                      if_pos ((hw k).idsValid id hid), ← List.getD_eq_getElem?_getD]
                    exact (hs k).2 id hid
            | some e =>
                exact hs k
      · rw [if_neg hi]
        exact hs k
  | slice i criteria =>
      intro k
      simp only [applyOp]
      by_cases hi : i < w.cubes.length
      · rw [if_pos hi]
        cases hsl : Cubico.slice w.heap (w.cubes.getD i {}) criteria with
        | error e =>
            exact hs k
        | ok pr =>
            obtain ⟨cub, ps⟩ := pr
            show ((w.cubes ++ [cub]).getD k {}).nbrOfRecords =
                ((w.cubes ++ [cub]).getD k {}).storage.length ∧
              ∀ id ∈ ((w.cubes ++ [cub]).getD k {}).storage,
                (w.heap.getD id []).length = ((w.cubes ++ [cub]).getD k {}).nbrOfDimensions
            by_cases hk : k < w.cubes.length
            · rw [List.getD_append _ _ _ _ hk]
              exact hs k
            · rw [cubes_append_getD w.cubes cub k hk]
              split
              · exact ⟨(slice_cubeInv w.heap (w.cubes.getD i {}) criteria cub ps
                  (hw i) hsl).1.recsLen,
                  slice_shape w.heap (w.cubes.getD i {}) criteria cub ps hsl⟩
              · exact shape_empty w.heap
      · rw [if_neg hi]
        exact hs k
  | aggregate i dims ms =>
      intro k
      simp only [applyOp]
      by_cases hi : i < w.cubes.length
      · rw [if_pos hi]
        cases hag : Cubico.aggregate w.heap (w.cubes.getD i {}) dims ms with
        | error e =>
            exact hs k
        | ok r =>
            obtain ⟨h', cub, di, pm⟩ := r
            obtain ⟨hinv', tail, htail⟩ := aggregate_cubeInv w.heap (w.cubes.getD i {})
              dims ms h' cub di pm hag
            show ((w.cubes ++ [cub]).getD k {}).nbrOfRecords =
                ((w.cubes ++ [cub]).getD k {}).storage.length ∧
              ∀ id ∈ ((w.cubes ++ [cub]).getD k {}).storage,
                (h'.getD id []).length = ((w.cubes ++ [cub]).getD k {}).nbrOfDimensions
            by_cases hk : k < w.cubes.length
            · rw [List.getD_append _ _ _ _ hk]
              refine ⟨(hs k).1, ?_⟩
              intro id hid
              rw [htail, List.getD_eq_getElem?_getD, List.getElem?_append,
                if_pos ((hw k).idsValid id hid), ← List.getD_eq_getElem?_getD]
              exact (hs k).2 id hid
            · rw [cubes_append_getD w.cubes cub k hk]
              split
              · exact ⟨hinv'.recsLen,
                  aggregate_shape w.heap (w.cubes.getD i {}) dims ms h' cub di pm hag⟩
              · exact shape_empty h'
      · rw [if_neg hi]
        exact hs k

/-- The empty world satisfies the exact shape invariant. -/
theorem shapeInv_empty : ShapeInv ({} : World) := by
  intro i
  have : (({} : World).cubes).getD i {} = ({} : Cubico) := by
    cases i <;> rfl
  rw [this]
  exact shape_empty _

/-- The exact shape invariant holds along any good trace. -/
theorem shapeInv_foldl : ∀ (ops : List Op) (w : World), WorldInv w → ShapeInv w →
    goodTrace w ops = true → ShapeInv (ops.foldl applyOp w) := by
  intro ops
  induction ops with
  | nil => intro w _ hs _; exact hs
  | cons op rest ih =>
      intro w hw hs hg
      rw [List.foldl_cons]
      obtain ⟨hg1, hg2⟩ := Bool.and_eq_true_iff.mp hg
      exact ih (applyOp w op) (worldInv_applyOp w op hw)
        (shapeInv_applyOp w op hw hs hg1) hg2

/-- The executable shape check follows from the exact shape invariant. -/
theorem shapeInvariant_of_shapeInv (w : World) (hs : ShapeInv w) :
    shapeInvariant w = true := by
  unfold shapeInvariant
  rw [List.all_eq_true]
  intro c hc
  obtain ⟨k, hk, hck⟩ := List.mem_iff_getElem.mp hc
  have hget : w.cubes.getD k {} = c := by
    rw [List.getD_eq_getElem?_getD, List.getElem?_eq_getElem hk, hck]
    rfl
  obtain ⟨h1, h2⟩ := hs k
  rw [hget] at h1 h2
  rw [Bool.and_eq_true]
  refine ⟨decide_eq_true h1, ?_⟩
  rw [List.all_eq_true]
  intro id hid
  exact decide_eq_true (h2 id hid)

/-- C7 (amended): CORRECTED.  The record-shape invariant — every cube's
`nbrOfRecords` equals its store length and every stored record array has
exactly the cube's `nbrOfDimensions` — holds for every world reachable
by a trace that never calls `addDimension` on a cube whose record arrays
are shared by reference with another live cube.  The unamended claim
("including after addDimension is called on a cube whose record arrays
are shared") is refuted by `shape_invariant_violated_cx`: `slice`
shares record arrays, and `addDimension` on the source then grows the
shared arrays in place past the slice's dimensionality. -/
theorem shape_invariant_good_traces (ops : List Op)
    (hg : goodTrace {} ops = true) : shapeInvariant (applyOps ops) = true :=
  shapeInvariant_of_shapeInv _ (shapeInv_foldl ops {} worldInv_empty shapeInv_empty hg)

/-- Witness for the amended C7 theorem: a concrete good trace that
builds a cube, adds a record and slices it. -/
theorem shape_invariant_good_traces_witness :
    goodTrace {} [.newCube, .addDimension 0 "a" Cubico.TEXT,
      .addRecord 0 [some (.str "x")], .slice 0 []] = true ∧
    shapeInvariant (applyOps [.newCube, .addDimension 0 "a" Cubico.TEXT,
      .addRecord 0 [some (.str "x")], .slice 0 []]) = true :=
  ⟨by rfl, shape_invariant_good_traces _ (by rfl)⟩

/-- C7 counterexample: the unrestricted claim fails.  After `newCube;
addDimension a; addRecord ["x"]; slice []; addDimension b`, the slice
result shares the record array, which `addDimension` on the source grew
to length 2 while the slice still has `nbrOfDimensions = 1`. -/
theorem shape_invariant_violated_cx : shapeInvariant c7World = false := by rfl

/-- Fold of string append distributes over an appended seed. -/
theorem strFoldl_append : ∀ (l : List String) (x y : String),
    l.foldl (fun r s => r ++ s) (x ++ y) = x ++ l.foldl (fun r s => r ++ s) y := by
  intro l
  induction l with
  | nil => intro x y; rfl
  | cons a l ih =>
      intro x y
      rw [List.foldl_cons, List.foldl_cons, String.append_assoc]
      exact ih x (y ++ a)

/-- `String.join` unfolds one element at a time. -/
theorem strJoin_cons (a : String) (l : List String) :
    String.join (a :: l) = a ++ String.join l := by
  show (a :: l).foldl (fun r s => r ++ s) "" = a ++ l.foldl (fun r s => r ++ s) ""
  rw [List.foldl_cons]
  have h1 : ("" : String) ++ a = a ++ "" := by simp
  rw [h1]
  exact strFoldl_append l a ""

/-- The composite-key encoding unfolds one part at a time. -/
theorem encodeParts_cons (p : String) (ps : List String) :
    encodeParts (p :: ps) = p ++ "_7" ++ encodeParts ps := by
  unfold encodeParts
  rw [List.map_cons, strJoin_cons, String.append_assoc]

/-- Strings with equal character data are equal. -/
theorem string_data_inj (s t : String) (h : s.data = t.data) : s = t := by
  obtain ⟨sd⟩ := s
  obtain ⟨td⟩ := t
  have h2 : sd = td := by simpa using h
  rw [h2]

/-- Splitting at the first delimiter occurrence is unambiguous when
neither leading part contains the delimiter. -/
theorem split_first (t1 t2 : List Char) : ∀ (s1 s2 : List Char),
    ¬ (delimChars <:+: s1) → ¬ (delimChars <:+: s2) →
    s1 ++ delimChars ++ t1 = s2 ++ delimChars ++ t2 → s1 = s2 ∧ t1 = t2 := by
  intro s1
  induction s1 with
  | nil =>
      intro s2 h1 h2 heq
      cases s2 with
      | nil =>
          refine ⟨rfl, ?_⟩
          simpa [delimChars] using heq
      | cons c s2' =>
          simp only [List.nil_append, delimChars, List.cons_append] at heq
          injection heq with hc heq2
          cases s2' with
          | nil =>
              simp only [List.nil_append, List.cons_append] at heq2
              injection heq2 with hc2 heq3
              exact absurd hc2 (by decide)
          | cons c2 s2'' =>
              simp only [List.cons_append] at heq2
              injection heq2 with hc2 heq3
              exact absurd ⟨[], s2'', by simp [delimChars]; exact ⟨hc, hc2⟩⟩ h2
  | cons c s1' ih =>
      intro s2 h1 h2 heq
      cases s2 with
      | nil =>
          simp only [List.nil_append, delimChars, List.cons_append] at heq
          injection heq with hc heq2
          cases s1' with
          | nil =>
              simp only [List.nil_append, List.cons_append] at heq2
              injection heq2 with hc2 heq3
              exact absurd hc2 (by decide)
          | cons c2 s1'' =>
              simp only [List.cons_append] at heq2
              injection heq2 with hc2 heq3
              exact absurd ⟨[], s1'', by simp [delimChars]; exact ⟨hc.symm, hc2.symm⟩⟩ h1
      | cons c2 s2' =>
          simp only [List.cons_append] at heq
          injection heq with hc heq2
          have h1' : ¬ (delimChars <:+: s1') := by
            intro hin
            obtain ⟨s, t, hst⟩ := hin
            exact h1 ⟨c :: s, t, by rw [← hst]; simp⟩
          have h2' : ¬ (delimChars <:+: s2') := by
            intro hin
            obtain ⟨s, t, hst⟩ := hin
            exact h2 ⟨c2 :: s, t, by rw [← hst]; simp⟩
          obtain ⟨hs, ht⟩ := ih s2' h1' h2' heq2
          exact ⟨by rw [hc, hs], ht⟩

/-- The composite-key encoding is injective on lists of delimiter-free
parts. -/
theorem encodeParts_injective : ∀ (p1 p2 : List String),
    (∀ s ∈ p1, hasDelim s = false) → (∀ s ∈ p2, hasDelim s = false) →
    encodeParts p1 = encodeParts p2 → p1 = p2 := by
  intro p1
  induction p1 with
  | nil =>
      intro p2 _ _ heq
      cases p2 with
      | nil => rfl
      | cons s ps =>
          rw [encodeParts_cons] at heq
          have heq' : ("" : String) = s ++ "_7" ++ encodeParts ps := heq
          have hlen := congrArg String.length heq'
          rw [String.length_append, String.length_append] at hlen
          have hz : ("" : String).length = 0 := rfl
          have h2 : ("_7" : String).length = 2 := rfl
          omega
  | cons s ps ih =>
      intro p2 hf1 hf2 heq
      cases p2 with
      | nil =>
          rw [encodeParts_cons] at heq
          have heq' : s ++ "_7" ++ encodeParts ps = ("" : String) := heq
          have hlen := congrArg String.length heq'
          rw [String.length_append, String.length_append] at hlen
          have hz : ("" : String).length = 0 := rfl
          have h2 : ("_7" : String).length = 2 := rfl
          omega
      | cons s2 ps2 =>
          rw [encodeParts_cons, encodeParts_cons] at heq
          have hd := congrArg String.data heq
          simp only [String.data_append] at hd
          have hnd1 : ¬ (delimChars <:+: s.data) := by
            have := hf1 s (List.mem_cons_self _ _)
            unfold hasDelim at this
            exact of_decide_eq_false this
          have hnd2 : ¬ (delimChars <:+: s2.data) := by
            have := hf2 s2 (List.mem_cons_self _ _)
            unfold hasDelim at this
            exact of_decide_eq_false this
          have hd' : s.data ++ delimChars ++ (encodeParts ps).data =
              s2.data ++ delimChars ++ (encodeParts ps2).data := by
            simp only [delimChars]
            exact hd
          obtain ⟨hs, ht⟩ := split_first (encodeParts ps).data (encodeParts ps2).data
            s.data s2.data hnd1 hnd2 hd'
          have hse : s = s2 := string_data_inj s s2 hs
          have hpse : ps = ps2 := ih ps2
            (fun x hx => hf1 x (List.mem_cons_of_mem _ hx))
            (fun x hx => hf2 x (List.mem_cons_of_mem _ hx))
            (string_data_inj _ _ ht)
          rw [hse, hpse]

/-- `mapM` of the per-slot stringification succeeds on non-null slots
and produces the delimiter-suffixed parts. -/
theorem mapM_parts : ∀ (l : List Nat) (r : Rec),
    (∀ j ∈ l, ((r.getD j none).isSome) = true) →
    l.mapM (fun j => (r.getD j none).map (fun v => v.toStr ++ "_7")) =
      some (l.map (fun j => strOfSlot (r.getD j none) ++ "_7")) := by
  intro l
  induction l with
  | nil => intro r _; rfl
  | cons a l ih =>
      intro r hs
      obtain ⟨v, hv⟩ := Option.isSome_iff_exists.mp (hs a (List.mem_cons_self _ _))
      rw [List.mapM_cons]
      rw [ih r (fun j hj => hs j (List.mem_cons_of_mem _ hj))]
      have hv' : r[a]?.getD none = some v := by
        rw [← List.getD_eq_getElem?_getD]
        exact hv
      simp [hv, hv', strOfSlot]

/-- On a record whose group-by slots are all non-null, `getHashCode`
computes exactly the composite key of the value-combination. -/
theorem getHashCode_eq (r : Rec) (di : List Nat)
    (hnn : ∀ j ∈ di, ((r.getD j none).isSome) = true) :
    Cubico.getHashCode r di = some (hashOfCombo (di.map fun j => r.getD j none)) := by
  unfold Cubico.getHashCode hashOfCombo encodeParts
  rw [mapM_parts di.reverse r (fun j hj => hnn j (List.mem_reverse.mp hj))]
  simp [List.map_map, List.map_reverse, Function.comp]
  rfl

/-- Pointwise injectivity of slot stringification lifts to lists. -/
theorem map_strOfSlot_inj : ∀ (c1 c2 : List JSVal),
    (∀ v ∈ c1, ∀ v2 ∈ c2, strOfSlot v = strOfSlot v2 → v = v2) →
    c1.map strOfSlot = c2.map strOfSlot → c1 = c2 := by
  intro c1
  induction c1 with
  | nil =>
      intro c2 _ heq
      cases c2 with
      | nil => rfl
      | cons b c2' => cases heq
  | cons a c1' ih =>
      intro c2 hinj heq
      cases c2 with
      | nil => cases heq
      | cons b c2' =>
          simp only [List.map_cons, List.cons.injEq] at heq
          have hab : a = b := hinj a (List.mem_cons_self _ _) b (List.mem_cons_self _ _) heq.1
          have htl : c1' = c2' := ih c2'
            (fun v hv v2 hv2 => hinj v (List.mem_cons_of_mem _ hv) v2 (List.mem_cons_of_mem _ hv2))
            heq.2
          rw [hab, htl]

/-- The composite key is injective on value-combinations whose slots are
non-null, delimiter-free and distinguishable by stringification. -/
theorem hashOfCombo_injective (c1 c2 : List JSVal)
    (h1 : ∀ v ∈ c1, ∃ w, v = some w ∧ hasDelim w.toStr = false)
    (h2 : ∀ v ∈ c2, ∃ w, v = some w ∧ hasDelim w.toStr = false)
    (hinj : ∀ v ∈ c1, ∀ v2 ∈ c2, strOfSlot v = strOfSlot v2 → v = v2)
    (heq : hashOfCombo c1 = hashOfCombo c2) : c1 = c2 := by
  unfold hashOfCombo at heq
  have hg1 : ∀ s ∈ (c1.map strOfSlot).reverse, hasDelim s = false := by
    intro s hsmem
    rw [List.mem_reverse] at hsmem
    obtain ⟨v, hv, hvs⟩ := List.mem_map.mp hsmem
    obtain ⟨w, hw, hwd⟩ := h1 v hv
    rw [← hvs, hw]
    exact hwd
  have hg2 : ∀ s ∈ (c2.map strOfSlot).reverse, hasDelim s = false := by
    intro s hsmem
    rw [List.mem_reverse] at hsmem
    obtain ⟨v, hv, hvs⟩ := List.mem_map.mp hsmem
    obtain ⟨w, hw, hwd⟩ := h2 v hv
    rw [← hvs, hw]
    exact hwd
  have hparts := encodeParts_injective _ _ hg1 hg2 heq
  have hmaps : c1.map strOfSlot = c2.map strOfSlot := by
    have := congrArg List.reverse hparts
    simpa using this
  exact map_strOfSlot_inj c1 c2 hinj hmaps

/-- Membership in the first-occurrence deduplication fold. -/
theorem dedup_foldl_mem {α : Type} [DecidableEq α] : ∀ (l : List α) (acc : List α) (x : α),
    x ∈ l.foldl (fun acc a => if a ∈ acc then acc else acc ++ [a]) acc ↔
      x ∈ acc ∨ x ∈ l := by
  intro l
  induction l with
  | nil =>
      intro acc x
      simp
  | cons a l ih =>
      intro acc x
      rw [List.foldl_cons, ih]
      by_cases ha : a ∈ acc
      · rw [if_pos ha]
        constructor
        · rintro (h | h)
          · exact Or.inl h
          · exact Or.inr (List.mem_cons_of_mem _ h)
        · rintro (h | h)
          · exact Or.inl h
          · rcases List.mem_cons.mp h with he | hm
            · exact Or.inl (he ▸ ha)
            · exact Or.inr hm
      · rw [if_neg ha]
        simp only [List.mem_append, List.mem_singleton, List.mem_cons,
          List.not_mem_nil, or_false]
        tauto

/-- Membership in `dedupKeepFirst` is membership in the original list. -/
theorem mem_dedupKeepFirst {α : Type} [DecidableEq α] (l : List α) (x : α) :
    x ∈ dedupKeepFirst l ↔ x ∈ l := by
  unfold dedupKeepFirst
  rw [dedup_foldl_mem]
  simp

/-- `dedupKeepFirst` over one appended element. -/
theorem dedupKeepFirst_append {α : Type} [DecidableEq α] (l : List α) (a : α) :
    dedupKeepFirst (l ++ [a]) =
      if a ∈ dedupKeepFirst l then dedupKeepFirst l else dedupKeepFirst l ++ [a] := by
  unfold dedupKeepFirst
  rw [List.foldl_append]
  rfl

/-- The deduplication fold preserves duplicate-freeness. -/
theorem dedup_foldl_nodup {α : Type} [DecidableEq α] : ∀ (l : List α) (acc : List α),
    acc.Nodup →
    (l.foldl (fun acc a => if a ∈ acc then acc else acc ++ [a]) acc).Nodup := by
  intro l
  induction l with
  | nil => intro acc h; exact h
  | cons a l ih =>
      intro acc h
      rw [List.foldl_cons]
      apply ih
      by_cases ha : a ∈ acc
      · rw [if_pos ha]
        exact h
      · rw [if_neg ha]
        rw [List.nodup_append]
        exact ⟨h, List.nodup_singleton a, by
          intro x hx hxa
          rw [List.mem_singleton] at hxa
          exact ha (hxa ▸ hx)⟩

/-- `dedupKeepFirst` yields a duplicate-free list. -/
theorem dedupKeepFirst_nodup {α : Type} [DecidableEq α] (l : List α) :
    (dedupKeepFirst l).Nodup :=
  dedup_foldl_nodup l [] List.nodup_nil

/-- Setting a slot at or past the kept prefix does not change `take`. -/
theorem take_set_of_le {α : Type} : ∀ (l : List α) (k : Nat) (v : α) (n : Nat), n ≤ k →
    (l.set k v).take n = l.take n := by
  intro l
  induction l with
  | nil => intro k v n _; rfl
  | cons a l ih =>
      intro k v n hn
      cases k with
      | zero =>
          have hn0 : n = 0 := Nat.le_zero.mp hn
          rw [hn0]
          rfl
      | succ k =>
          cases n with
          | zero => rfl
          | succ n =>
              show (a :: l.set k v).take (n + 1) = (a :: l).take (n + 1)
              rw [List.take_succ_cons, List.take_succ_cons, ih k v n (Nat.le_of_succ_le_succ hn)]

/-- On an association list with duplicate-free keys, `find?` on a
member's key returns exactly that member. -/
theorem find?_key_of_mem {β : Type} : ∀ (sm : List (String × β)) (p : String × β),
    (sm.map (·.1)).Nodup → p ∈ sm → sm.find? (·.1 = p.1) = some p := by
  intro sm
  induction sm with
  | nil =>
      intro p _ hp
      cases hp
  | cons q rest ih =>
      intro p hnd hp
      rw [List.map_cons, List.nodup_cons] at hnd
      by_cases hq : q.1 = p.1
      · have hpq : p = q := by
          rcases List.mem_cons.mp hp with he | hm
          · exact he
          · exact absurd (hq ▸ List.mem_map_of_mem (·.1) hm) hnd.1
        rw [List.find?_cons_of_pos _ (by simp [hq])]
        rw [hpq]
      · have hpm : p ∈ rest := by
          rcases List.mem_cons.mp hp with he | hm
          · exact absurd (by rw [he]) hq
          · exact hm
        rw [List.find?_cons_of_neg _ (by simp [hq])]
        exact ih p hnd.2 hpm

/-- The group-by value-combination of a single source record. -/
def comboAt (h : Heap) (di : List Nat) (id : Nat) : List JSVal :=
  di.map fun j => (h.getD id []).getD j none

/-- The observable projection of one group entry: its key, its leading
group-by values and its row width. -/
def entryProj (n : Nat) (p : String × Cubico.GroupEntry) : String × List JSVal × Nat :=
  (p.1, p.2.record.take n, p.2.record.length)

/-- The specified projection of one distinct combination. -/
def groupSpec (n m : Nat) (y : List JSVal) : String × List JSVal × Nat :=
  (hashOfCombo y, y, n + m)

/-- A fold preserves any property its step preserves. -/
theorem foldl_preserve {α β : Type} (P : α → Prop) (f : α → β → α)
    (hstep : ∀ a b, P a → P (f a b)) : ∀ (l : List β) (a : α), P a → P (l.foldl f a) := by
  intro l
  induction l with
  | nil => intro a ha; exact ha
  | cons b l ih =>
      intro a ha
      rw [List.foldl_cons]
      exact ih _ (hstep a b ha)

/-- In an association list with duplicate-free keys, two members with
the same key coincide. -/
theorem mem_key_unique {β : Type} (sm : List (String × β))
    (hnd : (sm.map (fun p => p.1)).Nodup) (p q : String × β)
    (hp : p ∈ sm) (hq : q ∈ sm) (hk : p.1 = q.1) : p = q := by
  have h1 := find?_key_of_mem sm p hnd hp
  have h2 := find?_key_of_mem sm q hnd hq
  rw [hk] at h1
  rw [h1] at h2
  injection h2

/-- The children-append update `aggregate` maps over the group store. -/
def childUpd (key : String) (id : Nat) (p : String × Cubico.GroupEntry) :
    String × Cubico.GroupEntry :=
  if p.1 = key then (p.1, { record := p.2.record, children := p.2.children ++ [id] }) else p

/-- The record-overwrite update `aggregate` maps over the group store. -/
def recUpd (key : String) (r : Rec) (p : String × Cubico.GroupEntry) :
    String × Cubico.GroupEntry :=
  if p.1 = key then (p.1, { record := r, children := p.2.children }) else p

/-- The measure-evaluation fold of one `aggregate` step. -/
def measFold (h : Heap) (mf : List Cubico.AggFun) (id : Nat) (n : Nat)
    (pr0 : Rec × List Cubico.AggState) : Rec × List Cubico.AggState :=
  (List.range mf.length).foldl
    (fun pr mi =>
      (pr.1.set (n + mi)
        (some (.num ((mf.getD mi (fun _ st => (st, 0))) (h.getD id []) (pr.2.getD mi {})).2)),
       pr.2.set mi ((mf.getD mi (fun _ st => (st, 0))) (h.getD id []) (pr.2.getD mi {})).1))
    pr0

/-- The looked-up group entry of a key (default: the empty entry). -/
def entryOf (key : String) (smx : List (String × Cubico.GroupEntry)) : Cubico.GroupEntry :=
  ((smx.find? (fun x => x.1 = key)).map (fun x => x.2)).getD ⟨[], []⟩

/-- The looked-up measure-state vector of a key. -/
def staticsOf (key : String) (stx : List (String × List Cubico.AggState)) :
    List Cubico.AggState :=
  ((stx.find? (fun x => x.1 = key)).map (fun x => x.2)).getD []

/-- One `aggregate` step on an already-seen key, written with the named
update combinators. -/
theorem aggregateStep_eq_seen (h : Heap) (di : List Nat) (mf : List Cubico.AggFun)
    (sm : List (String × Cubico.GroupEntry)) (st : List (String × List Cubico.AggState))
    (id : Nat)
    (hnn : ∀ j ∈ di, ((h.getD id []).getD j none).isSome = true)
    (hseen : sm.any (fun p => p.1 = hashOfCombo (comboAt h di id)) = true) :
    Cubico.aggregateStep h di mf (sm, st) id = .ok
      ((sm.map (childUpd (hashOfCombo (comboAt h di id)) id)).map
        (recUpd (hashOfCombo (comboAt h di id))
          (measFold h mf id di.length
            ((entryOf (hashOfCombo (comboAt h di id))
                (sm.map (childUpd (hashOfCombo (comboAt h di id)) id))).record,
             staticsOf (hashOfCombo (comboAt h di id)) st)).1),
       st.map (fun (p : String × List Cubico.AggState) =>
         if p.1 = hashOfCombo (comboAt h di id) then
         (p.1, (measFold h mf id di.length
            ((entryOf (hashOfCombo (comboAt h di id))
                (sm.map (childUpd (hashOfCombo (comboAt h di id)) id))).record,
             staticsOf (hashOfCombo (comboAt h di id)) st)).2) else p)) := by
  rw [Cubico.aggregateStep, getHashCode_eq _ _ hnn]
  have hseen' : sm.any (fun p => p.1 = hashOfCombo
      (di.map fun j => (h.getD id []).getD j none)) = true := hseen
  simp only [hseen', if_true]
  rfl

/-- One `aggregate` step on a fresh key, written with the named update
combinators. -/
theorem aggregateStep_eq_new (h : Heap) (di : List Nat) (mf : List Cubico.AggFun)
    (sm : List (String × Cubico.GroupEntry)) (st : List (String × List Cubico.AggState))
    (id : Nat)
    (hnn : ∀ j ∈ di, ((h.getD id []).getD j none).isSome = true)
    (hseen : sm.any (fun p => p.1 = hashOfCombo (comboAt h di id)) = false) :
    Cubico.aggregateStep h di mf (sm, st) id = .ok
      (((sm ++ [(hashOfCombo (comboAt h di id),
          (⟨comboAt h di id ++ List.replicate mf.length none, []⟩ : Cubico.GroupEntry))]).map
            (childUpd (hashOfCombo (comboAt h di id)) id)).map
        (recUpd (hashOfCombo (comboAt h di id))
          (measFold h mf id di.length
            ((entryOf (hashOfCombo (comboAt h di id))
                ((sm ++ [(hashOfCombo (comboAt h di id),
                  (⟨comboAt h di id ++ List.replicate mf.length none, []⟩ : Cubico.GroupEntry))]).map
                    (childUpd (hashOfCombo (comboAt h di id)) id))).record,
             staticsOf (hashOfCombo (comboAt h di id))
               (st ++ [(hashOfCombo (comboAt h di id), List.replicate mf.length ({} : Cubico.AggState))]))).1),
       (st ++ [(hashOfCombo (comboAt h di id), List.replicate mf.length ({} : Cubico.AggState))]).map
         (fun (p : String × List Cubico.AggState) =>
           if p.1 = hashOfCombo (comboAt h di id) then
           (p.1, (measFold h mf id di.length
              ((entryOf (hashOfCombo (comboAt h di id))
                  ((sm ++ [(hashOfCombo (comboAt h di id),
                    (⟨comboAt h di id ++ List.replicate mf.length none, []⟩ : Cubico.GroupEntry))]).map
                      (childUpd (hashOfCombo (comboAt h di id)) id))).record,
               staticsOf (hashOfCombo (comboAt h di id))
                 (st ++ [(hashOfCombo (comboAt h di id), List.replicate mf.length ({} : Cubico.AggState))]))).2)
           else p)) := by
  rw [Cubico.aggregateStep, getHashCode_eq _ _ hnn]
  have hseen' : sm.any (fun p => p.1 = hashOfCombo
      (di.map fun j => (h.getD id []).getD j none)) = false := hseen
  simp only [hseen', Bool.false_eq_true, if_false]
  rfl

/-- `childUpd` never changes the key. -/
theorem childUpd_fst (key : String) (id : Nat) (p : String × Cubico.GroupEntry) :
    (childUpd key id p).1 = p.1 := by
  unfold childUpd
  split <;> rfl

/-- `childUpd` never changes the record. -/
theorem childUpd_record (key : String) (id : Nat) (p : String × Cubico.GroupEntry) :
    (childUpd key id p).2.record = p.2.record := by
  unfold childUpd
  split <;> rfl

/-- `childUpd` on a different key is the identity. -/
theorem childUpd_of_ne (key : String) (id : Nat) (p : String × Cubico.GroupEntry)
    (h : ¬ p.1 = key) : childUpd key id p = p := by
  unfold childUpd
  rw [if_neg h]

/-- `recUpd` on a different key is the identity. -/
theorem recUpd_of_ne (key : String) (r : Rec) (p : String × Cubico.GroupEntry)
    (h : ¬ p.1 = key) : recUpd key r p = p := by
  unfold recUpd
  rw [if_neg h]

/-- The measure fold writes only at positions at or past the group-by
prefix: the leading values and the width are untouched. -/
theorem measFold_take_len (h : Heap) (mf : List Cubico.AggFun) (id : Nat) (n : Nat)
    (r0 : Rec) (s0 : List Cubico.AggState) :
    (measFold h mf id n (r0, s0)).1.take n = r0.take n ∧
    (measFold h mf id n (r0, s0)).1.length = r0.length := by
  unfold measFold
  refine foldl_preserve (fun pr : Rec × List Cubico.AggState =>
      pr.1.take n = r0.take n ∧ pr.1.length = r0.length) _ ?_
    (List.range mf.length) (r0, s0) ⟨rfl, rfl⟩
  intro a b hab
  refine ⟨?_, ?_⟩
  · rw [take_set_of_le _ _ _ _ (Nat.le_add_right n b)]
    exact hab.1
  · rw [List.length_set]
    exact hab.2

/-- Mapping `childUpd` preserves the key list. -/
theorem keys_map_childUpd (key : String) (id : Nat)
    (smx : List (String × Cubico.GroupEntry)) :
    (smx.map (childUpd key id)).map (fun p => p.1) = smx.map (fun p => p.1) := by
  rw [List.map_map]
  exact List.map_congr_left (fun p _ => childUpd_fst key id p)

/-- `entryOf` on a member's key of a duplicate-free store returns that
member's entry. -/
theorem entryOf_eq (key : String) (smx : List (String × Cubico.GroupEntry))
    (hnd : (smx.map (fun p => p.1)).Nodup) (p₀ : String × Cubico.GroupEntry)
    (hmem : p₀ ∈ smx) (hkey : p₀.1 = key) : entryOf key smx = p₀.2 := by
  unfold entryOf
  have hf := find?_key_of_mem smx p₀ hnd hmem
  rw [hkey] at hf
  rw [hf]
  rfl

/-- `childUpd` on the matching key appends the child id. -/
theorem childUpd_of_eq (key : String) (id : Nat) (p : String × Cubico.GroupEntry)
    (h : p.1 = key) : childUpd key id p =
      (p.1, { record := p.2.record, children := p.2.children ++ [id] }) := by
  unfold childUpd
  rw [if_pos h]

/-- `recUpd` on the matching key overwrites the record. -/
theorem recUpd_of_eq (key : String) (r : Rec) (p : String × Cubico.GroupEntry)
    (h : p.1 = key) : recUpd key r p =
      (p.1, { record := r, children := p.2.children }) := by
  unfold recUpd
  rw [if_pos h]

/-- One `aggregate` step extends the observed projection of the group
store by exactly the record's combination when it is new, and leaves it
unchanged when already grouped. -/
theorem aggregateStep_inv (h : Heap) (di : List Nat) (mf : List Cubico.AggFun)
    (done : List Nat) (id : Nat)
    (sm sm' : List (String × Cubico.GroupEntry))
    (st st' : List (String × List Cubico.AggState))
    (hnn : ∀ j ∈ di, ((h.getD id []).getD j none).isSome = true)
    (hinj : ∀ id1 ∈ done ++ [id], ∀ id2 ∈ done ++ [id],
      hashOfCombo (comboAt h di id1) = hashOfCombo (comboAt h di id2) →
      comboAt h di id1 = comboAt h di id2)
    (hQ : sm.map (entryProj di.length) =
      (dedupKeepFirst (done.map (comboAt h di))).map (groupSpec di.length mf.length))
    (hstep : Cubico.aggregateStep h di mf (sm, st) id = .ok (sm', st')) :
    sm'.map (entryProj di.length) =
      (dedupKeepFirst ((done ++ [id]).map (comboAt h di))).map
        (groupSpec di.length mf.length) := by
  have hkeys : sm.map (fun p => p.1) =
      (dedupKeepFirst (done.map (comboAt h di))).map hashOfCombo := by
    have := congrArg (List.map (fun x : String × List JSVal × Nat => x.1)) hQ
    simpa [List.map_map, entryProj, groupSpec, Function.comp] using this
  have hknd : (sm.map (fun p => p.1)).Nodup := by
    rw [hkeys]
    apply List.Nodup.map_on _ (dedupKeepFirst_nodup _)
    intro y1 hy1 y2 hy2 hh
    obtain ⟨a1, ha1, he1⟩ := List.mem_map.mp ((mem_dedupKeepFirst _ _).mp hy1)
    obtain ⟨a2, ha2, he2⟩ := List.mem_map.mp ((mem_dedupKeepFirst _ _).mp hy2)
    rw [← he1, ← he2]
    exact hinj a1 (List.mem_append_left _ ha1) a2 (List.mem_append_left _ ha2)
      (by rw [he1, he2]; exact hh)
  rw [List.map_append] at *
  by_cases hseen : sm.any (fun p => p.1 = hashOfCombo (comboAt h di id)) = true
  · rw [aggregateStep_eq_seen h di mf sm st id hnn hseen] at hstep
    injection hstep with h1
    injection h1 with hsm hst
    obtain ⟨p₀, hp₀mem, hp₀dec⟩ := List.any_eq_true.mp hseen
    have hp₀key : p₀.1 = hashOfCombo (comboAt h di id) := of_decide_eq_true hp₀dec
    have hcmem : comboAt h di id ∈ dedupKeepFirst (done.map (comboAt h di)) := by
      have hk1 : p₀.1 ∈ sm.map (fun p => p.1) := List.mem_map_of_mem _ hp₀mem
      rw [hkeys] at hk1
      obtain ⟨y, hy, hyh⟩ := List.mem_map.mp hk1
      obtain ⟨a1, ha1, he1⟩ := List.mem_map.mp ((mem_dedupKeepFirst _ _).mp hy)
      have hya : y = comboAt h di id := by
        rw [← he1]
        apply hinj a1 (List.mem_append_left _ ha1) id
          (List.mem_append_right _ (List.mem_cons_self _ _))
        rw [he1, hyh, hp₀key]
      rw [← hya]
      exact hy
    have hdfact : dedupKeepFirst (done.map (comboAt h di) ++ [id].map (comboAt h di)) =
        dedupKeepFirst (done.map (comboAt h di)) := by
      rw [show ([id].map (comboAt h di)) = [comboAt h di id] from rfl,
        dedupKeepFirst_append, if_pos hcmem]
    have hkeysx := keys_map_childUpd (hashOfCombo (comboAt h di id)) id sm
    have hkndx : ((sm.map (childUpd (hashOfCombo (comboAt h di id)) id)).map
        (fun p => p.1)).Nodup := by
      rw [hkeysx]
      exact hknd
    have hentry : entryOf (hashOfCombo (comboAt h di id))
        (sm.map (childUpd (hashOfCombo (comboAt h di id)) id)) =
        (childUpd (hashOfCombo (comboAt h di id)) id p₀).2 :=
      entryOf_eq _ _ hkndx _ (List.mem_map_of_mem _ hp₀mem)
        ((childUpd_fst _ _ _).trans hp₀key)
    have hentryrec : (entryOf (hashOfCombo (comboAt h di id))
        (sm.map (childUpd (hashOfCombo (comboAt h di id)) id))).record = p₀.2.record := by
      rw [hentry, childUpd_record]
    have hPm := measFold_take_len h mf id di.length
      (entryOf (hashOfCombo (comboAt h di id))
        (sm.map (childUpd (hashOfCombo (comboAt h di id)) id))).record
      (staticsOf (hashOfCombo (comboAt h di id)) st)
    have hrtake := hPm.1.trans (congrArg (List.take di.length) hentryrec)
    have hrlen := hPm.2.trans (congrArg List.length hentryrec)
    have hpw : ∀ p ∈ sm, entryProj di.length
        (recUpd (hashOfCombo (comboAt h di id))
          (measFold h mf id di.length
            ((entryOf (hashOfCombo (comboAt h di id))
                (sm.map (childUpd (hashOfCombo (comboAt h di id)) id))).record,
             staticsOf (hashOfCombo (comboAt h di id)) st)).1
          (childUpd (hashOfCombo (comboAt h di id)) id p)) = entryProj di.length p := by
      intro p hp
      by_cases hpk : p.1 = hashOfCombo (comboAt h di id)
      · have hpp₀ : p = p₀ := mem_key_unique sm hknd p p₀ hp hp₀mem
          (hpk.trans hp₀key.symm)
        subst hpp₀
        rw [childUpd_of_eq _ _ _ hpk]
        rw [recUpd_of_eq _ _ ((p.1,
          { record := p.2.record, children := p.2.children ++ [id] }) :
            String × Cubico.GroupEntry) hpk]
        exact congrArg₂ (fun a b => (p.1, a, b)) hrtake hrlen
      · rw [childUpd_of_ne _ _ _ hpk, recUpd_of_ne _ _ _ hpk]
    rw [← hsm, hdfact, ← hQ, List.map_map, List.map_map]
    exact List.map_congr_left hpw
  · have hseen' : sm.any (fun p => p.1 = hashOfCombo (comboAt h di id)) = false :=
      Bool.eq_false_iff.mpr hseen
    rw [aggregateStep_eq_new h di mf sm st id hnn hseen'] at hstep
    injection hstep with h1
    injection h1 with hsm hst
    have hknotin : ∀ p ∈ sm, ¬ p.1 = hashOfCombo (comboAt h di id) := by
      intro p hp hpk
      exact hseen (List.any_eq_true.mpr ⟨p, hp, decide_eq_true hpk⟩)
    have hnotmem : comboAt h di id ∉ dedupKeepFirst (done.map (comboAt h di)) := by
      intro hmem
      have : hashOfCombo (comboAt h di id) ∈
          (dedupKeepFirst (done.map (comboAt h di))).map hashOfCombo :=
        List.mem_map_of_mem _ hmem
      rw [← hkeys] at this
      obtain ⟨p, hp, hpe⟩ := List.mem_map.mp this
      exact hknotin p hp hpe
    have hdfact : dedupKeepFirst (done.map (comboAt h di) ++ [id].map (comboAt h di)) =
        dedupKeepFirst (done.map (comboAt h di)) ++ [comboAt h di id] := by
      rw [show ([id].map (comboAt h di)) = [comboAt h di id] from rfl,
        dedupKeepFirst_append, if_neg hnotmem]
    have hnewE : ((hashOfCombo (comboAt h di id),
        (⟨comboAt h di id ++ List.replicate mf.length none, []⟩ : Cubico.GroupEntry)) :
        String × Cubico.GroupEntry).1 = hashOfCombo (comboAt h di id) := rfl
    have hkeys1 : ((sm ++ [(hashOfCombo (comboAt h di id),
        (⟨comboAt h di id ++ List.replicate mf.length none, []⟩ : Cubico.GroupEntry))]).map
        (fun p => p.1)).Nodup := by
      rw [List.map_append, List.nodup_append]
      refine ⟨hknd, List.nodup_singleton _, ?_⟩
      intro x hx hx2
      obtain ⟨p, hp, hpe⟩ := List.mem_map.mp hx
      have hxk : x = hashOfCombo (comboAt h di id) := by simpa using hx2
      exact hknotin p hp (by rw [hpe, hxk])
    have hkndx : (((sm ++ [(hashOfCombo (comboAt h di id),
        (⟨comboAt h di id ++ List.replicate mf.length none, []⟩ : Cubico.GroupEntry))]).map
        (childUpd (hashOfCombo (comboAt h di id)) id)).map (fun p => p.1)).Nodup := by
      rw [keys_map_childUpd]
      exact hkeys1
    have hentry : entryOf (hashOfCombo (comboAt h di id))
        ((sm ++ [(hashOfCombo (comboAt h di id),
          (⟨comboAt h di id ++ List.replicate mf.length none, []⟩ : Cubico.GroupEntry))]).map
            (childUpd (hashOfCombo (comboAt h di id)) id)) =
        (childUpd (hashOfCombo (comboAt h di id)) id
          (hashOfCombo (comboAt h di id),
          (⟨comboAt h di id ++ List.replicate mf.length none, []⟩ : Cubico.GroupEntry))).2 :=
      entryOf_eq _ _ hkndx _
        (List.mem_map_of_mem _ (List.mem_append_right _ (List.mem_cons_self _ _)))
        ((childUpd_fst _ _ _).trans rfl)
    have hentryrec : (entryOf (hashOfCombo (comboAt h di id))
        ((sm ++ [(hashOfCombo (comboAt h di id),
          (⟨comboAt h di id ++ List.replicate mf.length none, []⟩ : Cubico.GroupEntry))]).map
            (childUpd (hashOfCombo (comboAt h di id)) id))).record =
        comboAt h di id ++ List.replicate mf.length none := by
      rw [hentry, childUpd_record]
    have hPm := measFold_take_len h mf id di.length
      (entryOf (hashOfCombo (comboAt h di id))
        ((sm ++ [(hashOfCombo (comboAt h di id),
          (⟨comboAt h di id ++ List.replicate mf.length none, []⟩ : Cubico.GroupEntry))]).map
            (childUpd (hashOfCombo (comboAt h di id)) id))).record
      (staticsOf (hashOfCombo (comboAt h di id))
        (st ++ [(hashOfCombo (comboAt h di id), List.replicate mf.length ({} : Cubico.AggState))]))
    have hclen : (comboAt h di id).length = di.length := by
      unfold comboAt
      exact List.length_map _ _
    have hrtake : (measFold h mf id di.length
        ((entryOf (hashOfCombo (comboAt h di id))
          ((sm ++ [(hashOfCombo (comboAt h di id),
            (⟨comboAt h di id ++ List.replicate mf.length none, []⟩ : Cubico.GroupEntry))]).map
              (childUpd (hashOfCombo (comboAt h di id)) id))).record,
         staticsOf (hashOfCombo (comboAt h di id))
           (st ++ [(hashOfCombo (comboAt h di id),
             List.replicate mf.length ({} : Cubico.AggState))]))).1.take di.length =
        comboAt h di id := by
      rw [hPm.1, hentryrec, List.take_left' hclen]
    have hrlen : (measFold h mf id di.length
        ((entryOf (hashOfCombo (comboAt h di id))
          ((sm ++ [(hashOfCombo (comboAt h di id),
            (⟨comboAt h di id ++ List.replicate mf.length none, []⟩ : Cubico.GroupEntry))]).map
              (childUpd (hashOfCombo (comboAt h di id)) id))).record,
         staticsOf (hashOfCombo (comboAt h di id))
           (st ++ [(hashOfCombo (comboAt h di id),
             List.replicate mf.length ({} : Cubico.AggState))]))).1.length =
        di.length + mf.length := by
      rw [hPm.2, hentryrec, List.length_append, List.length_replicate, hclen]
    have hpw : ∀ p ∈ sm, entryProj di.length
        (recUpd (hashOfCombo (comboAt h di id))
          (measFold h mf id di.length
            ((entryOf (hashOfCombo (comboAt h di id))
              ((sm ++ [(hashOfCombo (comboAt h di id),
                (⟨comboAt h di id ++ List.replicate mf.length none, []⟩ : Cubico.GroupEntry))]).map
                  (childUpd (hashOfCombo (comboAt h di id)) id))).record,
             staticsOf (hashOfCombo (comboAt h di id))
               (st ++ [(hashOfCombo (comboAt h di id),
                 List.replicate mf.length ({} : Cubico.AggState))]))).1
          (childUpd (hashOfCombo (comboAt h di id)) id p)) = entryProj di.length p := by
      intro p hp
      rw [childUpd_of_ne _ _ _ (hknotin p hp), recUpd_of_ne _ _ _ (hknotin p hp)]
    rw [← hsm, hdfact]
    rw [List.map_append (groupSpec di.length mf.length)
      (dedupKeepFirst (List.map (comboAt h di) done)) [comboAt h di id]]
    rw [← hQ, List.map_map, List.map_map]
    refine (List.map_append _ _ _).trans
      (congrArg₂ (· ++ ·) (List.map_congr_left hpw) ?_)
    simp only [List.map_cons, List.map_nil, Function.comp_apply]
    congr 1
    rw [childUpd_of_eq (hashOfCombo (comboAt h di id)) id
      ((hashOfCombo (comboAt h di id),
        (⟨comboAt h di id ++ List.replicate mf.length none, []⟩ : Cubico.GroupEntry))) rfl]
    rw [recUpd_of_eq _ _
      (((hashOfCombo (comboAt h di id),
          (⟨comboAt h di id ++ List.replicate mf.length none, []⟩ : Cubico.GroupEntry)).1,
        { record := (hashOfCombo (comboAt h di id),
            (⟨comboAt h di id ++ List.replicate mf.length none, []⟩ : Cubico.GroupEntry)).2.record,
          children := (hashOfCombo (comboAt h di id),
            (⟨comboAt h di id ++ List.replicate mf.length none, []⟩ : Cubico.GroupEntry)).2.children ++ [id] }) :
        String × Cubico.GroupEntry) rfl]
    exact congrArg₂ (fun a b => (hashOfCombo (comboAt h di id), a, b)) hrtake hrlen

/-- The grouping fold of `aggregate`: after processing any id list with
non-null, collision-free group-by columns, the group store projects to
the deduplicated combination list. -/
theorem aggFold_inv (h : Heap) (di : List Nat) (mf : List Cubico.AggFun) :
    ∀ (L done : List Nat) (sm smf : List (String × Cubico.GroupEntry))
      (st stf : List (String × List Cubico.AggState)),
    (∀ id ∈ L, ∀ j ∈ di, ((h.getD id []).getD j none).isSome = true) →
    (∀ id1 ∈ done ++ L, ∀ id2 ∈ done ++ L,
      hashOfCombo (comboAt h di id1) = hashOfCombo (comboAt h di id2) →
      comboAt h di id1 = comboAt h di id2) →
    sm.map (entryProj di.length) =
      (dedupKeepFirst (done.map (comboAt h di))).map (groupSpec di.length mf.length) →
    L.foldlM (Cubico.aggregateStep h di mf) (sm, st) = .ok (smf, stf) →
    smf.map (entryProj di.length) =
      (dedupKeepFirst ((done ++ L).map (comboAt h di))).map
        (groupSpec di.length mf.length) := by
  intro L
  induction L with
  | nil =>
      intro done sm smf st stf _ _ hQ hfold
      simp [List.foldlM_nil, pure, Except.pure] at hfold
      obtain ⟨hsm, _⟩ := hfold
      rw [← hsm, List.append_nil]
      exact hQ
  | cons a L ih =>
      intro done sm smf st stf hnn hinj hQ hfold
      rw [List.foldlM_cons] at hfold
      cases hstep : Cubico.aggregateStep h di mf (sm, st) a with
      | error e =>
          rw [hstep] at hfold
          simp only [Bind.bind, Except.bind] at hfold
          cases hfold
      | ok acc1 =>
          obtain ⟨sm₁, st₁⟩ := acc1
          rw [hstep] at hfold
          simp only [Bind.bind, Except.bind] at hfold
          have hQ1 := aggregateStep_inv h di mf done a sm sm₁ st st₁
            (hnn a (List.mem_cons_self _ _))
            (by
              intro id1 h1 id2 h2
              have hsub : ∀ x, x ∈ done ++ [a] → x ∈ done ++ a :: L := by
                intro x hx
                rcases List.mem_append.mp hx with hx | hx
                · exact List.mem_append_left _ hx
                · exact List.mem_append_right _
                    (by rw [show x = a by simpa using hx]; exact List.mem_cons_self _ _)
              exact hinj id1 (hsub id1 h1) id2 (hsub id2 h2))
            hQ hstep
          have := ih (done ++ [a]) sm₁ smf st₁ stf
            (fun id hid => hnn id (List.mem_cons_of_mem _ hid))
            (by
              intro id1 h1 id2 h2
              have hsub : ∀ x, x ∈ done ++ [a] ++ L → x ∈ done ++ a :: L := by
                intro x hx
                rw [List.append_assoc] at hx
                exact hx
              exact hinj id1 (hsub id1 h1) id2 (hsub id2 h2))
            hQ1 hfold
          rw [List.append_assoc] at this
          exact this

/-- The first conjunct of `goodGroupValues`: every group-by slot of
every source record is non-null with delimiter-free string form. -/
theorem goodGroupValues_nn (h : Heap) (c : Cubico) (di : List Nat)
    (hgv : goodGroupValues h c di = true) :
    ∀ id ∈ c.storage.take c.nbrOfRecords, ∀ j ∈ di,
      ∃ w, (h.getD id []).getD j none = some w ∧ hasDelim w.toStr = false := by
  intro id hid j hj
  have h1 := (Bool.and_eq_true_iff.mp hgv).1
  have h2 := List.all_eq_true.mp (List.all_eq_true.mp h1 id hid) j hj
  cases hv : (h.getD id []).getD j none with
  | none =>
      rw [hv] at h2
      cases h2
  | some w =>
      rw [hv] at h2
      have h2' : (!hasDelim w.toStr) = true := h2
      refine ⟨w, rfl, ?_⟩
      cases hdel : hasDelim w.toStr with
      | false => rfl
      | true =>
          rw [hdel] at h2'
          cases h2'

/-- The second conjunct of `goodGroupValues`: stringification is
injective across the observed group-by values. -/
theorem goodGroupValues_inj (h : Heap) (c : Cubico) (di : List Nat)
    (hgv : goodGroupValues h c di = true) :
    ∀ id1 ∈ c.storage.take c.nbrOfRecords, ∀ id2 ∈ c.storage.take c.nbrOfRecords,
    ∀ j1 ∈ di, ∀ j2 ∈ di, ∀ w1 w2 : Value,
      (h.getD id1 []).getD j1 none = some w1 →
      (h.getD id2 []).getD j2 none = some w2 →
      w1.toStr = w2.toStr → w1 = w2 := by
  intro id1 hid1 id2 hid2 j1 hj1 j2 hj2 w1 w2 hw1 hw2 hs
  have h1 := (Bool.and_eq_true_iff.mp hgv).2
  have h2 := List.all_eq_true.mp (List.all_eq_true.mp
    (List.all_eq_true.mp (List.all_eq_true.mp h1 id1 hid1) j1 hj1) id2 hid2) j2 hj2
  rw [hw1, hw2] at h2
  have h2' : (decide (w1.toStr ≠ w2.toStr) || decide (w1 = w2)) = true := h2
  rcases Bool.or_eq_true_iff.mp h2' with h3 | h3
  · exact absurd hs (by simpa using h3)
  · exact of_decide_eq_true h3

/-- Hash injectivity across the observed combinations follows from
`goodGroupValues`. -/
theorem goodGroupValues_hash_inj (h : Heap) (c : Cubico) (di : List Nat)
    (hgv : goodGroupValues h c di = true) :
    ∀ id1 ∈ c.storage.take c.nbrOfRecords, ∀ id2 ∈ c.storage.take c.nbrOfRecords,
      hashOfCombo (comboAt h di id1) = hashOfCombo (comboAt h di id2) →
      comboAt h di id1 = comboAt h di id2 := by
  intro id1 hid1 id2 hid2 heq
  apply hashOfCombo_injective
  · intro v hv
    obtain ⟨j, hj, hjv⟩ := List.mem_map.mp hv
    obtain ⟨w, hw, hwd⟩ := goodGroupValues_nn h c di hgv id1 hid1 j hj
    exact ⟨w, by rw [← hjv, hw], hwd⟩
  · intro v hv
    obtain ⟨j, hj, hjv⟩ := List.mem_map.mp hv
    obtain ⟨w, hw, hwd⟩ := goodGroupValues_nn h c di hgv id2 hid2 j hj
    exact ⟨w, by rw [← hjv, hw], hwd⟩
  · intro v hv v2 hv2 hs
    obtain ⟨j, hj, hjv⟩ := List.mem_map.mp hv
    obtain ⟨j2, hj2, hjv2⟩ := List.mem_map.mp hv2
    obtain ⟨w, hw, _⟩ := goodGroupValues_nn h c di hgv id1 hid1 j hj
    obtain ⟨w2, hw2, _⟩ := goodGroupValues_nn h c di hgv id2 hid2 j2 hj2
    rw [← hjv, hw, ← hjv2, hw2]
    rw [← hjv, hw, ← hjv2, hw2] at hs
    have : w = w2 := goodGroupValues_inj h c di hgv id1 hid1 id2 hid2 j hj j2 hj2
      w w2 hw hw2 (by simpa [strOfSlot] using hs)
    rw [this]
  · exact heq

/-- The emission phase writes exactly the group rows, in order, after
the pre-existing rows. -/
theorem aggEmitFold_rows :
    ∀ (entries : List (String × Cubico.GroupEntry)) (h : Heap) (cub : Cubico)
      (h' : Heap) (cub' : Cubico),
    CubeInv h cub →
    entries.foldlM Cubico.aggEmitStep (h, cub) = .ok (h', cub') →
    cub'.storage.map (fun id => h'.getD id []) =
      cub.storage.map (fun id => h.getD id []) ++ entries.map (fun p => p.2.record) := by
  intro entries
  induction entries with
  | nil =>
      intro h cub h' cub' _ hok
      simp [List.foldlM_nil, pure, Except.pure] at hok
      obtain ⟨hh, hcc⟩ := hok
      rw [← hh, ← hcc, List.map_nil, List.append_nil]
  | cons p rest ih =>
      intro h cub h' cub' hc hok
      rw [List.foldlM_cons] at hok
      cases hstep : Cubico.aggEmitStep (h, cub) p with
      | error e =>
          rw [hstep] at hok
          simp only [Bind.bind, Except.bind] at hok
          cases hok
      | ok acc1 =>
          obtain ⟨h1, cub1⟩ := acc1
          rw [hstep] at hok
          simp only [Bind.bind, Except.bind] at hok
          unfold Cubico.aggEmitStep at hstep
          split at hstep
          · rename_i hadd
            injection hstep with h2
            injection h2 with hh1 hcub1
            have hadd' : Cubico.addRecordFromArray h cub p.2.record = (h1, cub1, none) := by
              rw [hadd, hh1, hcub1]
            obtain ⟨hinv1, happend⟩ :=
              cubeInv_addRecordFromArray h cub p.2.record h1 cub1 hc hadd'
            have hadd2 := hadd'
            unfold Cubico.addRecordFromArray at hadd2
            split at hadd2
            · cases hadd2
            · rename_i hlen
              injection hadd2 with hhh hrest2
              injection hrest2 with hccc _
              have hstor1 : cub1.storage = cub.storage ++ [h.length] := by
                rw [← hccc]
                exact (addRecordCore_fields (h ++ [p.2.record]) cub h.length).1
              have hrec := ih h1 cub1 h' cub' hinv1 hok
              rw [hrec, hstor1, List.map_append]
              simp only [List.map_cons, List.map_nil, List.append_assoc,
                List.singleton_append]
              congr 1
              · apply List.map_congr_left
                intro x hx
                rw [happend, List.getD_eq_getElem?_getD, List.getElem?_append,
                  if_pos (hc.idsValid x hx), ← List.getD_eq_getElem?_getD]
              · congr 1
                rw [happend, List.getD_eq_getElem?_getD,
                  List.getElem?_append_right (le_refl _)]
                simp
          · cases hstep

/-- C4 (amended): CORRECTED.  For a successful
`aggregate(groupByDimensions, measures)` call whose group-by columns are
collision-free — every group-by slot non-null, its string form free of
the `"_7"` key delimiter, and stringification injective across the
observed values (`goodGroupValues`) — the result has exactly one row per
distinct value-combination present in the source records, and each
output row's leading group-by values are its group's combination, in
first-occurrence order.  The unamended claim ("for all values, including
strings containing the key delimiter") is refuted by
`aggregate_hash_collision_cx`: two distinct combinations whose parts
straddle the delimiter produce one composite key, so one row stands for
two combinations. -/
theorem aggregate_group_rows (h : Heap) (c : Cubico) (dims : List String)
    (ms : List Cubico.Measure) (h' : Heap) (cub : Cubico) (di : List Nat)
    (pm : List Cubico.Measure)
    (hok : Cubico.aggregate h c dims ms = .ok (h', cub, di, pm))
    (hgv : goodGroupValues h c di = true) :
    cub.nbrOfRecords = distinctCombos h c di ∧
    (rowsOf h' cub).map (List.take di.length) = dedupKeepFirst (combosOf h c di) := by
  have hinvres := aggregate_cubeInv h c dims ms h' cub di pm hok
  unfold Cubico.aggregate at hok
  split at hok
  · exact (Except.noConfusion hok)
  · rename_i cubD dimsIdxRev hfoldD
    split at hok
    · exact (Except.noConfusion hok)
    · rename_i cubM measuresRev hfoldM
      have hok2 : (match List.foldlM
            (Cubico.aggregateStep h dimsIdxRev.reverse
              (List.map (fun m => match m with
                | Cubico.Measure.functor _ f => f
                | Cubico.Measure.pair _ _ => fun _ st => (st, 0)) measuresRev.reverse))
            ([], []) (List.take c.nbrOfRecords c.storage) with
        | Except.error e => Except.error e
        | Except.ok (storageMap, _) =>
          match List.foldlM Cubico.aggEmitStep (h, cubM) storageMap with
          | Except.error e => Except.error e
          | Except.ok (hE, cubE) =>
              Except.ok (hE, cubE, dimsIdxRev.reverse, measuresRev.reverse)) =
          Except.ok (h', cub, di, pm) := hok
      clear hok
      split at hok2
      · exact (Except.noConfusion hok2)
      · rename_i storageMap stat hfoldS
        split at hok2
        · exact (Except.noConfusion hok2)
        · rename_i hE cubE hfoldE
          cases hok2
          have hsD : SchemaOnly cubD :=
            aggDimFold_schemaOnly c dims (({} : Cubico), []) (cubD, dimsIdxRev)
              schemaOnly_empty hfoldD
          have hsM : SchemaOnly cubM :=
            aggMeasureFold_schemaOnly c ms (cubD, []) (cubM, measuresRev) hsD hfoldM
          have hQf := aggFold_inv h dimsIdxRev.reverse
            (List.map (fun m => match m with
              | Cubico.Measure.functor _ f => f
              | Cubico.Measure.pair _ _ => fun _ st => (st, 0)) measuresRev.reverse)
            (List.take c.nbrOfRecords c.storage) [] [] storageMap [] stat
            (by
              intro id hid j hj
              obtain ⟨w, hw, _⟩ := goodGroupValues_nn h c dimsIdxRev.reverse hgv id hid j hj
              rw [hw]
              rfl)
            (by
              intro id1 h1 id2 h2
              rw [List.nil_append] at h1 h2
              exact goodGroupValues_hash_inj h c dimsIdxRev.reverse hgv id1 h1 id2 h2)
            rfl hfoldS
          rw [List.nil_append] at hQf
          have hrowsEq := aggEmitFold_rows storageMap h cubM h' cub
            (cubeInv_of_schemaOnly h cubM hsM) hfoldE
          simp only [hsM.1, List.map_nil, List.nil_append] at hrowsEq
          have hlen1 : cub.storage.length = storageMap.length := by
            have := congrArg List.length hrowsEq
            simpa using this
          have hlen2 : storageMap.length =
              (dedupKeepFirst ((List.take c.nbrOfRecords c.storage).map
                (comboAt h dimsIdxRev.reverse))).length := by
            have := congrArg List.length hQf
            simpa using this
          have h2nd : storageMap.map (fun p => p.2.record.take dimsIdxRev.reverse.length) =
              dedupKeepFirst ((List.take c.nbrOfRecords c.storage).map
                (comboAt h dimsIdxRev.reverse)) := by
            have hproj := congrArg
              (List.map (fun x : String × List JSVal × Nat => x.2.1)) hQf
            rw [List.map_map, List.map_map] at hproj
            exact hproj.trans
              ((List.map_congr_left (fun y _ => rfl)).trans (List.map_id _))
          refine ⟨hinvres.1.recsLen.trans (hlen1.trans hlen2), ?_⟩
          show (cub.storage.map (fun id => h'.getD id [])).map
            (List.take dimsIdxRev.reverse.length) = _
          rw [hrowsEq, List.map_map]
          exact h2nd

/-- Witness for the amended C4 theorem at the specification's own
aggregation example: grouping three records by `country` (values `AR`,
`AR`, `US` — non-null, delimiter-free, injectively stringified) yields
one row per distinct country, in first-occurrence order. -/
theorem aggregate_group_rows_witness :
    ∃ (h' : Heap) (cub : Cubico) (di : List Nat) (pm : List Cubico.Measure),
      Cubico.aggregate c4GoodWorld.heap (c4GoodWorld.cubes.getD 0 {}) ["country"] [] =
        .ok (h', cub, di, pm) ∧
      goodGroupValues c4GoodWorld.heap (c4GoodWorld.cubes.getD 0 {}) di = true ∧
      cub.nbrOfRecords = distinctCombos c4GoodWorld.heap (c4GoodWorld.cubes.getD 0 {}) di ∧
      (rowsOf h' cub).map (List.take di.length) =
        dedupKeepFirst (combosOf c4GoodWorld.heap (c4GoodWorld.cubes.getD 0 {}) di) := by
  have hgv : goodGroupValues c4GoodWorld.heap (c4GoodWorld.cubes.getD 0 {}) [0] = true := by
    rfl
  have hmain := aggregate_group_rows c4GoodWorld.heap (c4GoodWorld.cubes.getD 0 {})
    ["country"] [] _ _ [0] _ rfl hgv
  exact ⟨_, _, [0], _, rfl, hgv, hmain.1, hmain.2⟩

/-- C4 counterexample: with group-by values containing the `"_7"`
delimiter, `aggregate` merges two distinct combinations into one row.
The records `("7_7a", "b")` and `("a", "b_77")` produce the same
composite key, so the result has 1 row while 2 distinct
value-combinations are present. -/
theorem aggregate_hash_collision_cx :
    (Cubico.aggregate c4World.heap (c4World.cubes.getD 0 {}) ["x", "y"] []).toOption.map
        (fun x => x.2.1.nbrOfRecords) = some 1 ∧
    distinctCombos c4World.heap (c4World.cubes.getD 0 {}) [0, 1] = 2 := ⟨rfl, rfl⟩
